import Mathlib

/-!
# Maestro: the DEFLATE decoder (`inflate.c`) and the dispatcher loop (`maestro.c`)

A shallow embedding of the decoder of `src/inflate.c` and of the event loop and
timer sweep of `src/maestro.c`, followed by the properties proved about them.

Conventions of the embedding:

* a byte buffer is a `List Nat`; a byte read from it is taken `% 256`
  (`unsigned char`);
* `int` and `unsigned` values are natural numbers; the only place where a value
  can leave 32 bits is the packed table word of `_build`, which is reduced
  `% 2 ^ 32`;
* `s->bitcnt - n` clamped at `0` is truncated subtraction on `Nat`;
* every array access of the source is checked: an index outside the object makes
  the embedding stop with a `Fault` (the C program has undefined behaviour there);
* the outer `while` loop of `inflate` is run with an explicit iteration budget.
-/

namespace Inflate

/-! ## Data model -/

/-- An access outside an object, the place where the C program leaves defined behaviour. -/
inductive Fault where
  /-- A read outside `in[0..size)`. -/
  | inputRead
  /-- An access `lens[i]` of the 320-entry code-length array with `i` outside `0..319`. -/
  | lensIndex
  /-- The lookup `tree[lo - 1]` with `lo = 0`, or a table index outside the table. -/
  | treeIndex
  /-- An access `cnt[l]`, `codes[l]`, `first[l]` with `l > 15`. -/
  | cntIndex
  /-- An index outside `lbase`/`lbits` (31 entries) or `dbase`/`dbits` (32 entries). -/
  | baseIndex
  /-- A match copy that reads an output byte that has not been written. -/
  | outRead
  deriving DecidableEq, Repr

deriving instance DecidableEq for Except

/-- The bit reader: the input buffer `in[0..size)`, the cursor `in` as an offset,
and the reservoir `s->bits`, `s->bitcnt`. -/
structure Reader where
  inp : List Nat
  pos : Nat
  bits : Nat
  bitcnt : Nat
  deriving DecidableEq, Repr

/-- The states of `enum inflate_states`. -/
inductive Mode where
  | hdr
  | stored
  | fixed
  | dyn
  | blk
  deriving DecidableEq, Repr

/-- The local state of `inflate`: the reader, the three tables of `struct _inflate`
with their sizes, the state, the `last` flag and the bytes written to `out`. -/
structure Machine where
  r : Reader
  lits : List Nat
  dsts : List Nat
  lens : List Nat
  tlit : Nat
  tdist : Nat
  tlen : Nat
  state : Mode
  last : Nat
  out : List Nat
  deriving DecidableEq, Repr

/-- What one iteration of the main loop does. -/
inductive Step where
  /-- The iteration ends with `break`: the loop condition is tested again. -/
  | next (m : Machine)
  /-- The iteration executes `return (int)(out - o)`, `out` being the bytes written. -/
  | ret (out : List Nat)
  /-- The iteration makes an access outside an object. -/
  | fault (f : Fault)
  deriving DecidableEq, Repr

/-- The result of a call of `inflate`: the bytes written (the returned count is their
number), or a fault. -/
inductive Outcome where
  | done (out : List Nat)
  | fault (f : Fault)
  deriving DecidableEq, Repr

/-- The value `(int)(out - o)` returned by a call that ends in `done`. -/
def Outcome.count : Outcome → Option Nat
  | .done out => some out.length
  | .fault _ => none

/-! ## `_get` -/

/-- The loop `while (s->bitcnt < 16 && in < end)` of `_get`, run at most `fuel` times. -/
def refill : Nat → Reader → Reader
  | 0, r => r
  | fuel + 1, r =>
    if r.bitcnt < 16 ∧ r.pos < r.inp.length then
      refill fuel
        { r with
          bits := r.bits ||| ((r.inp.getD r.pos 0 % 256) <<< r.bitcnt)
          pos := r.pos + 1
          bitcnt := r.bitcnt + 8 }
    else r

/-- The function `_get`: returns the low `n` bits of the reservoir, shifts them out
and refills. Two rounds of the refill loop always reach `bitcnt >= 16` or the end of
the input. -/
def _get (r : Reader) (n : Nat) : Nat × Reader :=
  (r.bits &&& ((1 <<< n) - 1),
   refill 2 { r with bits := r.bits >>> n, bitcnt := r.bitcnt - n })

/-! ## `_build` -/

/-- The first loop of `_build`: `for (n = 0; n < symcnt; ++n) cnt[lens[n]]++`,
over the symbols `n, n+1, ...` given by the list. -/
def countLens : List Nat → List Nat → Except Fault (List Nat)
  | [], cnt => .ok cnt
  | l :: ls, cnt =>
    if l < 16 then countLens ls (cnt.set l (cnt.getD l 0 + 1)) else .error .cntIndex

/-- The second loop of `_build`, for `n = 1 .. 15`: given `cnt`, the lists
`codes[0..n)` and `first[0..n)` are extended by `fuel` entries. -/
def firstTables : Nat → List Nat → List Nat → List Nat → List Nat × List Nat
  | 0, _, codes, first => (codes, first)
  | fuel + 1, cnt, codes, first =>
    let n := codes.length
    firstTables fuel cnt
      (codes ++ [(codes.getD (n - 1) 0 + cnt.getD (n - 1) 0) <<< 1])
      (first ++ [first.getD (n - 1) 0 + cnt.getD (n - 1) 0])

/-- The third loop of `_build`: places symbol `n` with length `len` at
`first[len]++` with the word `(code << (32 - len)) | (n << 4) | len`; `size` is the
number of entries of the array `tree`. -/
def place (size : Nat) : List Nat → Nat → List Nat → List Nat → List Nat →
    Except Fault (List Nat × List Nat)
  | [], _, _, first, tree => .ok (tree, first)
  | len :: ls, n, codes, first, tree =>
    if len = 0 then place size ls (n + 1) codes first tree
    else
      let code := codes.getD len 0
      let slot := first.getD len 0
      if slot < size then
        place size ls (n + 1) (codes.set len (code + 1)) (first.set len (slot + 1))
          (tree.set slot (((code <<< (32 - len)) ||| (n <<< 4) ||| len) % 2 ^ 32))
      else .error .treeIndex

/-- The function `_build`: fills `tree` from `lens[0..symcnt)` and returns the new
table with `first[15]`. -/
def _build (tree : List Nat) (lens : List Nat) (symcnt : Nat) :
    Except Fault (List Nat × Nat) :=
  match countLens (lens.take symcnt) (List.replicate 16 0) with
  | .error f => .error f
  | .ok cnt =>
    let (codes, first) := firstTables 15 cnt [0] [0]
    match place tree.length (lens.take symcnt) 0 codes first tree with
    | .error f => .error f
    | .ok (tree1, first1) => .ok (tree1, first1.getD 15 0)

/-! ## `_decode` -/

/-- The macro `R2`. -/
def R2 (n : Nat) : List Nat := [n, n + 128, n + 64, n + 192]

/-- The macro `R4`. -/
def R4 (n : Nat) : List Nat := R2 n ++ R2 (n + 32) ++ R2 (n + 16) ++ R2 (n + 48)

/-- The macro `R6`. -/
def R6 (n : Nat) : List Nat := R4 n ++ R4 (n + 8) ++ R4 (n + 4) ++ R4 (n + 12)

/-- The table `inflate_mirror`. -/
def inflate_mirror : List Nat := R6 0 ++ R6 2 ++ R6 1 ++ R6 3

/-- The macro `_rev16`. -/
def _rev16 (n : Nat) : Nat :=
  (inflate_mirror.getD (n &&& 0xff) 0 <<< 8) ||| inflate_mirror.getD ((n >>> 8) &&& 0xff) 0

/-- The binary search of `_decode`: `while (lo < hi)`, run at most `fuel` times. -/
def bsearch (tree : List Nat) (search : Nat) : Nat → Nat → Nat → Nat
  | 0, lo, _ => lo
  | fuel + 1, lo, hi =>
    if lo < hi then
      let guess := (lo + hi) / 2
      if search < tree.getD guess 0 then bsearch tree search fuel lo guess
      else bsearch tree search fuel (guess + 1) hi
    else lo

/-- The function `_decode`: looks the next prefix code up in `tree[0..max)`, consumes
its length and returns its symbol. The search interval halves in every round, so
`max` rounds are enough. -/
def _decode (r : Reader) (tree : List Nat) (max : Nat) : Except Fault (Nat × Reader) :=
  if tree.length < max then .error .treeIndex
  else
    let search := ((_rev16 r.bits <<< 16) % 2 ^ 32) ||| 0xffff
    let lo := bsearch tree search max 0 max
    if lo = 0 then .error .treeIndex
    else
      let key := tree.getD (lo - 1) 0
      let (_, r1) := _get r (key &&& 0x0f)
      .ok ((key >>> 4) &&& 0x0fff, r1)

/-! ## `inflate` -/

/-- The table `order`. -/
def order : List Nat :=
  [16, 17, 18, 0, 8, 7, 9, 6] ++ [10, 5, 11, 4, 12, 3, 13, 2, 14, 1, 15]

/-- The table `dbase`, with its `30 + 2` entries, the last two left at zero. -/
def dbase : List Nat :=
  [1, 2, 3, 4, 5, 7, 9, 13] ++ [17, 25, 33, 49, 65, 97, 129, 193] ++
    [257, 385, 513, 769, 1025, 1537, 2049, 3073] ++
    [4097, 6145, 8193, 12289, 16385, 24577] ++ List.replicate 2 0

/-- The table `dbits`, with its `30 + 2` entries. -/
def dbits : List Nat :=
  List.replicate 4 0 ++ [1, 1, 2, 2, 3, 3, 4, 4] ++ [5, 5, 6, 6, 7, 7, 8, 8, 9, 9] ++
    [10, 10, 11, 11, 12, 12, 13, 13, 0, 0]

/-- The table `lbase`, with its `29 + 2` entries. -/
def lbase : List Nat :=
  [3, 4, 5, 6, 7, 8, 9, 10] ++ [11, 13, 15, 17, 19, 23, 27, 31, 35] ++
    [43, 51, 59, 67, 83, 99, 115, 131] ++ [163, 195, 227, 258, 0, 0]

/-- The table `lbits`, with its `29 + 2` entries. -/
def lbits : List Nat :=
  List.replicate 8 0 ++ [1, 1, 1, 1, 2, 2, 2, 2] ++ [3, 3, 3, 3, 4, 4, 4, 4, 5, 5, 5, 5] ++
    List.replicate 3 0

/-- The code lengths written by `case fixed`: `lens[0..288)` for the literal/length
code followed by `lens[288..320)` for the distance code. -/
def fixedLens : List Nat :=
  List.replicate 144 8 ++ List.replicate 112 9 ++ List.replicate 24 7 ++
    List.replicate 8 8 ++ List.replicate 32 5

/-- The loop `for (n = 0; n < nlen; n++) nlens[order[n]] = _get(3)` of `case dyn`,
for `n = n, n+1, ...`, `fuel` being the number of rounds left. -/
def readNlens : Nat → Nat → Reader → List Nat → Reader × List Nat
  | 0, _, r, nlens => (r, nlens)
  | fuel + 1, n, r, nlens =>
    let (v, r1) := _get r 3
    readNlens fuel (n + 1) r1 (nlens.set (order.getD n 0) (v % 256))

/-- The run-length loops `for (i = ...; i; i--, n++) lens[n] = v` of `case dyn`: the
list `lens` holds `lens[0..n)`, and a write at `n >= 320` is outside the array. -/
def fillLens : Nat → Nat → Nat → List Nat → Except Fault (Nat × List Nat)
  | 0, _, n, lens => .ok (n, lens)
  | i + 1, v, n, lens =>
    if n < 320 then fillLens i v (n + 1) (lens ++ [v]) else .error .lensIndex

/-- The loop `for (n = 0; n < nlit + ndist;)` of `case dyn`: `lens` holds
`lens[0..n)`, `total` is `nlit + ndist`; every round advances `n`, so `fuel = total`
rounds are enough. -/
def readLens (tree : List Nat) (max : Nat) (total : Nat) :
    Nat → Reader → Nat → List Nat → Except Fault (Reader × List Nat)
  | 0, r, _, lens => .ok (r, lens)
  | fuel + 1, r, n, lens =>
    if n < total then
      match _decode r tree max with
      | .error f => .error f
      | .ok (sym, r1) =>
        if sym = 16 then
          let (v, r2) := _get r1 2
          if n = 0 then .error .lensIndex
          else
            match fillLens (3 + v) (lens.getD (n - 1) 0) n lens with
            | .error f => .error f
            | .ok (n1, lens1) => readLens tree max total fuel r2 n1 lens1
        else if sym = 17 then
          let (v, r2) := _get r1 3
          match fillLens (3 + v) 0 n lens with
          | .error f => .error f
          | .ok (n1, lens1) => readLens tree max total fuel r2 n1 lens1
        else if sym = 18 then
          let (v, r2) := _get r1 7
          match fillLens (11 + v) 0 n lens with
          | .error f => .error f
          | .ok (n1, lens1) => readLens tree max total fuel r2 n1 lens1
        else
          match fillLens 1 (sym % 256) n lens with
          | .error f => .error f
          | .ok (n1, lens1) => readLens tree max total fuel r1 n1 lens1
    else .ok (r, lens)

/-- The loop `while (len--) *out = *(out - offs), out++` of a match. -/
def copyMatch : Nat → Nat → List Nat → Except Fault (List Nat)
  | 0, _, out => .ok out
  | len + 1, offs, out =>
    if offs = 0 ∨ out.length < offs then .error .outRead
    else copyMatch len offs (out ++ [out.getD (out.length - offs) 0])

/-- The body of `case hdr`. -/
def stepHdr (m : Machine) : Step :=
  let (last, r1) := _get m.r 1
  let (type, r2) := _get r1 2
  match type with
  | 0 => .next { m with r := r2, last := last, state := .stored }
  | 1 => .next { m with r := r2, last := last, state := .fixed }
  | 2 => .next { m with r := r2, last := last, state := .dyn }
  | _ => .ret m.out

/-- The body of `case stored`. After `in -= 2` the cursor is `pos - 2`, so
`len > (e - in)` reads `len + pos > size + 2`. -/
def stepStored (m : Machine) : Step :=
  let (_, r1) := _get m.r (m.r.bitcnt &&& 7)
  let (len, r2) := _get r1 16
  if len + r2.pos > r2.inp.length + 2 ∨ len = 0 then .ret m.out
  else if r2.pos < 2 then .fault .inputRead
  else
    .next { m with
      r := { r2 with pos := r2.pos - 2 + len, bitcnt := 0 }
      out := m.out ++ ((r2.inp.drop (r2.pos - 2)).take len).map (· % 256)
      state := .hdr }

/-- The body of `case fixed`. -/
def stepFixed (m : Machine) : Step :=
  match _build m.lits fixedLens 288 with
  | .error f => .fault f
  | .ok (lits, tlit) =>
    match _build m.dsts (fixedLens.drop 288) 32 with
    | .error f => .fault f
    | .ok (dsts, tdist) =>
      .next { m with lits := lits, tlit := tlit, dsts := dsts, tdist := tdist, state := .blk }

/-- The body of `case dyn`. -/
def stepDyn (m : Machine) : Step :=
  let (a, r1) := _get m.r 5
  let (b, r2) := _get r1 5
  let (c, r3) := _get r2 4
  let nlit := 257 + a
  let ndist := 1 + b
  let nlen := 4 + c
  let (r4, nlens) := readNlens nlen 0 r3 (List.replicate 19 0)
  match _build m.lens nlens 19 with
  | .error f => .fault f
  | .ok (lens, tlen) =>
    match readLens lens tlen (nlit + ndist) (nlit + ndist) r4 0 [] with
    | .error f => .fault f
    | .ok (r5, cl) =>
      match _build m.lits cl nlit with
      | .error f => .fault f
      | .ok (lits, tlit) =>
        match _build m.dsts (cl.drop nlit) ndist with
        | .error f => .fault f
        | .ok (dsts, tdist) =>
          .next { m with
            r := r5, lens := lens, tlen := tlen, lits := lits, tlit := tlit
            dsts := dsts, tdist := tdist, state := .blk }

/-- The body of `case blk`. -/
def stepBlk (m : Machine) : Step :=
  match _decode m.r m.lits m.tlit with
  | .error f => .fault f
  | .ok (sym, r1) =>
    if sym > 256 then
      let k := sym - 257
      if k < 31 then
        let (e1, r2) := _get r1 (lbits.getD k 0)
        let len := e1 + lbase.getD k 0
        match _decode r2 m.dsts m.tdist with
        | .error f => .fault f
        | .ok (dsym, r3) =>
          if dsym < 32 then
            let (e2, r4) := _get r3 (dbits.getD dsym 0)
            let offs := e2 + dbase.getD dsym 0
            if offs > m.out.length then .ret m.out
            else
              match copyMatch len offs m.out with
              | .error f => .fault f
              | .ok out => .next { m with r := r4, out := out }
          else .fault .baseIndex
      else .fault .baseIndex
    else if sym = 256 then
      if m.last ≠ 0 then .ret m.out else .next { m with r := r1, state := .hdr }
    else .next { m with r := r1, out := m.out ++ [sym % 256] }

/-- One iteration of the `switch (state)` of the main loop. -/
def step (m : Machine) : Step :=
  match m.state with
  | .hdr => stepHdr m
  | .stored => stepStored m
  | .fixed => stepFixed m
  | .dyn => stepDyn m
  | .blk => stepBlk m

/-- The loop `while (in < e || s.bitcnt)` of `inflate`, run for at most `fuel`
iterations; `none` when the budget is used up before the function returns. -/
def run : Nat → Machine → Option Outcome
  | 0, _ => none
  | fuel + 1, m =>
    if m.r.pos < m.r.inp.length ∨ m.r.bitcnt ≠ 0 then
      match step m with
      | .next m1 => run fuel m1
      | .ret out => some (.done out)
      | .fault f => some (.fault f)
    else some (.done m.out)

/-- The state of `inflate` before the loop: `struct _inflate s = {0}`, `state = hdr`,
`last = 0`, and the priming call `_get(&in, e, &s, 0)`. -/
def init (inp : List Nat) : Machine :=
  { r := (_get { inp := inp, pos := 0, bits := 0, bitcnt := 0 } 0).2
    lits := List.replicate 288 0
    dsts := List.replicate 32 0
    lens := List.replicate 19 0
    tlit := 0
    tdist := 0
    tlen := 0
    state := .hdr
    last := 0
    out := [] }

/-- The function `inflate(out, in, size)` on the buffer `inp`, with an iteration
budget for its main loop. -/
def inflate (fuel : Nat) (inp : List Nat) : Option Outcome :=
  run fuel (init inp)

end Inflate


namespace Maestro

/-! ## The dispatcher loop of `main` -/

/-- One record of the batch filled by `epoll_wait`: the connection attached to the
event, its socket, the three flags the loop tests, and whether `epoll_ctl` fails
while this event's connections are accepted. -/
structure Event where
  /-- The attachment `events[i].data.ptr`. -/
  conn : Nat
  /-- The descriptor `httpconn_sockfd(conn)`. -/
  sockfd : Int
  /-- The flag `events[i].events & EPOLLERR`. -/
  err : Bool
  /-- The flag `events[i].events & EPOLLHUP`. -/
  hup : Bool
  /-- The flag `events[i].events & EPOLLIN`. -/
  readable : Bool
  /-- Whether `epoll_ctl(EPOLL_CTL_ADD)` returns `-1` in the accept loop of this event. -/
  ctlFails : Bool
  deriving DecidableEq, Repr

/-- What the loop body does for an event. -/
inductive Action where
  /-- The call `list_update(timers, conn, mstime())`. -/
  | update (conn : Nat)
  /-- The accept loop on the server socket. -/
  | accept
  /-- The call `thpool_add_task(taskpool, httpconn_task, conn)`. -/
  | submit (conn : Nat)
  /-- The statement `return 1` after a failed `epoll_ctl`. -/
  | exit
  deriving DecidableEq, Repr

/-- The loop `for (i = 0; i < nevents; i++)` of `main` over the batch of one
`epoll_wait`: the error case ends with `break`, which leaves the loop. -/
def dispatch (srvfd : Int) : List Event → List Action
  | [] => []
  | ev :: rest =>
    if ev.err ∨ ev.hup ∨ ¬ ev.readable then [.update ev.conn]
    else if ev.sockfd = srvfd then
      if ev.ctlFails then [.accept, .exit] else .accept :: dispatch srvfd rest
    else .submit ev.conn :: dispatch srvfd rest

/-! ## The timer sweep `_expire_timers` -/

/-- The constant `HTTP_KEEPALIVE_TIME`. -/
def HTTP_KEEPALIVE_TIME : Int := 10000

/-- Modelled from the spec: a node of the timer list of `linkedlist.c`, which is not
among the sources: the entry `(timestamp, connection)`, the connection standing for
its socket descriptor. -/
structure Timer where
  stamp : Int
  sockfd : Int
  deriving DecidableEq, Repr

/-- Modelled from the spec: `list_del(timers, stamp)` of `linkedlist.c`, which is not
among the sources: the list is indexed by timestamp, and the call deletes the node
found for the key, silently doing nothing when there is none. -/
def list_del (timers : List Timer) (stamp : Int) : List Timer :=
  timers.eraseP (fun t => t.stamp == stamp)

/-- The loop `do ... while (timer)` of `_expire_timers`. Modelled from the spec:
`list_first`/`list_next` of `linkedlist.c`, which is not among the sources, are the
cursor-style traversal from the head, so the nodes `todo` are visited in order;
`timers` is the list and `closed` the descriptors passed to `close` so far. -/
def expireLoop (cur_time : Int) : List Timer → List Timer → List Int → List Timer × List Int
  | [], timers, closed => (timers, closed)
  | t :: todo, timers, closed =>
    if cur_time - t.stamp ≥ HTTP_KEEPALIVE_TIME then
      expireLoop cur_time todo (list_del timers t.stamp) (closed ++ [t.sockfd])
    else expireLoop cur_time todo timers closed

/-- The function `_expire_timers`, `cur_time` being the value of `mstime()`: returns
the timer list after the sweep and the descriptors closed, in order. -/
def _expire_timers (cur_time : Int) (timers : List Timer) : List Timer × List Int :=
  expireLoop cur_time timers timers []

end Maestro


namespace Inflate

/-! ## The encoder side: RFC 1951 bit streams -/

/-- The number whose binary digits, least significant first, are the bits. -/
def bitsVal : List Bool → Nat
  | [] => 0
  | b :: bs => b.toNat + 2 * bitsVal bs

/-- The `n` low bits of `v`, least significant first: the way RFC 1951 packs header
fields and extra bits. -/
def natBits (v : Nat) : Nat → List Bool
  | 0 => []
  | n + 1 => (v % 2 == 1) :: natBits (v / 2) n

/-- The `n` low bits of `c`, most significant first: the way RFC 1951 packs Huffman
codes. -/
def codeBits (c : Nat) : Nat → List Bool
  | 0 => []
  | n + 1 => (c / 2 ^ n % 2 == 1) :: codeBits c n

/-- The first `k` bytes of a bit stream: every 8 bits make a byte, the first bit being
the least significant; missing bits are 0. -/
def packAux : Nat → List Bool → List Nat
  | 0, _ => []
  | k + 1, bs => bitsVal (bs.take 8) :: packAux k (bs.drop 8)

/-- The bytes of a bit stream, zero-padded to a byte boundary. -/
def packBytes (bs : List Bool) : List Nat :=
  packAux ((bs.length + 7) / 8) bs

/-- The fixed Huffman code of RFC 1951, section 3.2.6, for the literal/length symbol
`sym` in `0..287`. -/
def fixedCode (sym : Nat) : List Bool :=
  if sym < 144 then codeBits (0x30 + sym) 8
  else if sym < 256 then codeBits (0x190 + (sym - 144)) 9
  else if sym < 280 then codeBits (sym - 256) 7
  else codeBits (0xC0 + (sym - 280)) 8

/-- The fixed code of a distance symbol: its 5 bits. -/
def fixedDistCode (dsym : Nat) : List Bool :=
  codeBits dsym 5

/-- The header of a fixed-Huffman block: `BFINAL`, then `BTYPE = 01`. -/
def fixedHeader (last : Bool) : List Bool :=
  [last] ++ natBits 1 2

/-- The bits of a fixed-Huffman block that holds the bytes of `d` as literals and the
end-of-block code. -/
def fixedLiteralBlock (last : Bool) (d : List Nat) : List Bool :=
  fixedHeader last ++ d.flatMap fixedCode ++ fixedCode 256

/-- The stream made of a single final fixed-Huffman block with the bytes of `d` as
literals. -/
def encodeFixedLiterals (d : List Nat) : List Nat :=
  packBytes (fixedLiteralBlock true d)

/-- The bits of a length/distance pair in a fixed-Huffman block: length code `257 + k`
with extra value `e`, distance code `j` with extra value `f`. -/
def fixedMatch (k e j f : Nat) : List Bool :=
  fixedCode (257 + k) ++ natBits e (lbits.getD k 0) ++
    fixedDistCode j ++ natBits f (dbits.getD j 0)

/-- A stored block that starts at a byte boundary, per RFC 1951, section 3.2.4: the
header bits in a byte of their own, `LEN`, its one's complement `NLEN`, the bytes. -/
def storedBlock (last : Bool) (d : List Nat) : List Nat :=
  [last.toNat, d.length % 256, d.length / 256 % 256,
    (65535 - d.length) % 256, (65535 - d.length) / 256 % 256] ++ d

/-! ## The bit stream seen by the reader -/

/-- The number whose base-256 digits, least significant first, are the bytes. -/
def leVal : List Nat → Nat
  | [] => 0
  | b :: bs => b % 256 + 256 * leVal bs

/-- The unread part of the stream as a number: the reservoir below the bytes not yet
fetched. -/
def Reader.val (r : Reader) : Nat :=
  r.bits + 2 ^ r.bitcnt * leVal (r.inp.drop r.pos)

/-- The number of unread bits: those of the reservoir and of the bytes not yet fetched. -/
def Reader.len (r : Reader) : Nat :=
  r.bitcnt + 8 * (r.inp.length - r.pos)

/-- The reservoir invariant between two calls of `_get`: no bit is set at or above
`bitcnt`, the reservoir holds 16 bits unless the input is used up, and the cursor is
inside the buffer. -/
structure Reader.Inv (r : Reader) : Prop where
  bits_lt : r.bits < 2 ^ r.bitcnt
  full : 16 ≤ r.bitcnt ∨ r.inp.length ≤ r.pos
  pos_le : r.pos ≤ r.inp.length

/-- The reader is at the start of the bit stream `bs`: it satisfies the invariant, the
unread bits are those of `bs`, possibly followed by zero bits. -/
structure Reads (r : Reader) (bs : List Bool) : Prop where
  inv : r.Inv
  val_eq : r.val = bitsVal bs
  len_le : bs.length ≤ r.len

/-- Reversal of the `n` low bits of `w`. -/
def revBits : Nat → Nat → Nat
  | 0, _ => 0
  | n + 1, w => (w % 2) * 2 ^ n + revBits n (w / 2)

end Inflate

namespace Inflate

/-! ## Canonical tables -/

/-- The list `tree` holds in its slots `0 .. max - 1` the words `f 0 .. f (max - 1)`. -/
structure Holds (tree : List Nat) (f : Nat → Nat) (max : Nat) : Prop where
  len : max ≤ tree.length
  get : ∀ j, j < max → tree.getD j 0 = f j

/-- The check that word `i` of the table `f 0 .. f (max - 1)` is a well-formed packed
word: a length `1..15` in the low 4 bits, a code of that length left-aligned at bit 31,
and the next word beyond every word that starts with this code. -/
def entryOK (f : Nat → Nat) (max i : Nat) : Bool :=
  let e := f i
  let L := e % 16
  decide (1 ≤ L) && decide (L ≤ 15) && decide (e < 2 ^ 32) &&
    decide (e / 65536 % 2 ^ (16 - L) = 0) &&
    (decide (i + 1 = max) ||
      decide ((e / 2 ^ (32 - L) + 1) * 2 ^ (32 - L) ≤ f (i + 1)))

/-- The check that `f 0 .. f (max - 1)` is a sorted table of prefix codes. -/
def tableOK (f : Nat → Nat) (max : Nat) : Bool :=
  (List.range max).all (entryOK f max)

/-- The code length stored in word `i`. -/
def slotLen (f : Nat → Nat) (i : Nat) : Nat := f i % 16

/-- The code stored in word `i`. -/
def slotCode (f : Nat → Nat) (i : Nat) : Nat :=
  f i / 2 ^ (32 - slotLen f i)

/-- The symbol stored in word `i`. -/
def slotSym (f : Nat → Nat) (i : Nat) : Nat := f i / 16 % 4096

end Inflate

namespace Inflate

/-! ## The tables of the fixed code -/

/-- The word at slot `i` of the fixed literal/length table: the 7-bit codes of
symbols `256..279`, the 8-bit codes of `0..143` and `280..287`, the 9-bit codes of
`144..255`. -/
def fixedLitWord (i : Nat) : Nat :=
  if i < 24 then i * 2 ^ 25 + (256 + i) * 16 + 7
  else if i < 168 then (0x30 + (i - 24)) * 2 ^ 24 + (i - 24) * 16 + 8
  else if i < 176 then (0xC0 + (i - 168)) * 2 ^ 24 + (280 + (i - 168)) * 16 + 8
  else (0x190 + (i - 176)) * 2 ^ 23 + (144 + (i - 176)) * 16 + 9

/-- The word at slot `j` of the fixed distance table. -/
def fixedDstWord (j : Nat) : Nat :=
  j * 2 ^ 27 + j * 16 + 5

/-- The fixed literal/length table, as `_build` leaves it. -/
def fixedLits : List Nat := (List.range 288).map fixedLitWord

/-- The fixed distance table, as `_build` leaves it. -/
def fixedDsts : List Nat := (List.range 32).map fixedDstWord

/-- The slot of symbol `sym` in the fixed literal/length table. -/
def fixedSlot (sym : Nat) : Nat :=
  if sym < 144 then 24 + sym
  else if sym < 256 then 32 + sym
  else if sym < 280 then sym - 256
  else sym - 112

/-- The word `(code << (32 - len)) | (n << 4) | len` that `_build` stores. -/
def packWord (code n len : Nat) : Nat :=
  ((code <<< (32 - len)) ||| (n <<< 4) ||| len) % 2 ^ 32

/-- The table after `_build` has placed `k` consecutive symbols `n, n + 1, ...` of the
same length `len`, with the codes `c, c + 1, ...`, at the slots `s, s + 1, ...`. -/
def setRun (len : Nat) : Nat → Nat → Nat → Nat → List Nat → List Nat
  | 0, _, _, _, tree => tree
  | k + 1, c, n, s, tree => setRun len k (c + 1) (n + 1) (s + 1) (tree.set s (packWord c n len))

end Inflate

namespace Inflate

/-- The state of `inflate` inside a fixed-Huffman block that started from the zeroed
tables: both tables built, state `blk`. -/
def fixedBlk (r : Reader) (last : Nat) (out : List Nat) : Machine :=
  { r := r
    lits := fixedLits
    dsts := fixedDsts
    lens := List.replicate 19 0
    tlit := 288
    tdist := 32
    tlen := 0
    state := .blk
    last := last
    out := out }

end Inflate

namespace Inflate

/-- The state of `inflate` on the input `05 00 00 00` after the header and the
dynamic-block prologue: all three tables hold only zero words, 3 bits are left in
the reservoir, and `out` holds the bytes written so far. -/
def stuck (out : List Nat) : Machine :=
  { r := { inp := [5, 0, 0, 0], pos := 4, bits := 0, bitcnt := 3 }
    lits := List.replicate 288 0
    dsts := List.replicate 32 0
    lens := List.replicate 19 0
    tlit := 257
    tdist := 1
    tlen := 19
    state := .blk
    last := 1
    out := out }

end Inflate

namespace Inflate

/-! ## LZ77 tokens and fixed-Huffman streams -/

/-- A token of a compressed block: a literal byte, or a length/distance pair given by
its length code `257 + k` with extra value `e` and its distance code `j` with extra
value `f`. -/
inductive Token where
  | lit (b : Nat)
  | copy (k e j f : Nat)
  deriving DecidableEq, Repr

/-- The bits of a token in a fixed-Huffman block. -/
def Token.bits : Token → List Bool
  | .lit b => fixedCode b
  | .copy k e j f => fixedMatch k e j f

/-- The LZ77 copy: `len` bytes are appended, each equal to the byte `dist` positions
before it. -/
def lzCopy : Nat → Nat → List Nat → List Nat
  | 0, _, out => out
  | len + 1, dist, out => lzCopy len dist (out ++ [out.getD (out.length - dist) 0])

/-- The output after a token. -/
def Token.apply (out : List Nat) : Token → List Nat
  | .lit b => out ++ [b]
  | .copy k e j f => lzCopy (lbase.getD k 0 + e) (dbase.getD j 0 + f) out

/-- The LZ77 expansion of a token sequence, appended to `out`. -/
def expand : List Token → List Nat → List Nat
  | [], out => out
  | t :: ts, out => expand ts (t.apply out)

/-- A token that RFC 1951 allows after the bytes `out`: a byte, or a pair with a
length code in `257..285`, a distance code in `0..29`, extra values that fit their
extra bits, and a distance that does not reach before the start of the output. -/
def Token.ok (out : List Nat) : Token → Bool
  | .lit b => decide (b < 256)
  | .copy k e j f =>
    decide (k < 29) && decide (e < 2 ^ lbits.getD k 0) && decide (j < 30) &&
      decide (f < 2 ^ dbits.getD j 0) && decide (dbase.getD j 0 + f ≤ out.length)

/-- Every token of the sequence is allowed at its place. -/
def tokensOK : List Token → List Nat → Bool
  | [], _ => true
  | t :: ts, out => t.ok out && tokensOK ts (t.apply out)

/-- The bits of one fixed-Huffman block: header, tokens, end-of-block code. -/
def fixedBlock (last : Bool) (ts : List Token) : List Bool :=
  fixedHeader last ++ ts.flatMap Token.bits ++ fixedCode 256

/-- The bits of a stream of fixed-Huffman blocks, each starting at the next bit, the
final one flagged last. -/
def fixedStream : List (List Token) → List Bool
  | [] => []
  | [ts] => fixedBlock true ts
  | ts :: rest => fixedBlock false ts ++ fixedStream rest

/-- The tables of the machine are those of a stream that had only fixed-Huffman
blocks so far: the literal/length and distance tables have their 288 and 32 entries,
the code-length table is zeroed. -/
structure FixedSoFar (m : Machine) : Prop where
  lits : m.lits.length = 288
  dsts : m.dsts.length = 32
  lens : m.lens = List.replicate 19 0
  tlen : m.tlen = 0

end Inflate

namespace Inflate

/-! ## Truncated streams -/

end Inflate

namespace Inflate

/-! ## The bit reader as a sequence of calls -/

/-- The calls `_get(n_1)`, ..., `_get(n_k)` in sequence from the reader `r`: the values
returned, and the reader after every call. -/
def getSeq : Reader → List Nat → List (Nat × Reader)
  | _, [] => []
  | r, n :: ns => _get r n :: getSeq (_get r n).2 ns

/-- Bit number `k` of the input stream: the bytes in order, the least significant bit
of each byte first, every bit past the end of the input being 0. -/
def streamBit (inp : List Nat) (k : Nat) : Bool :=
  (inp.getD (k / 8) 0 % 256).testBit (k % 8)

end Inflate

namespace Inflate

/-! ## Length and distance codes -/

/-- The largest index `k <= n` with `base[k] <= v`, or `0`: the length or distance
code an encoder picks for the value `v`. -/
def codeIndex (base : List Nat) (v : Nat) : Nat → Nat
  | 0 => 0
  | n + 1 => if base.getD (n + 1) 0 ≤ v then n + 1 else codeIndex base v n

end Inflate

namespace Inflate

/-! ## LZ77 tokens given by length and distance -/

/-- An LZ77 token: a literal byte, or a match of `len` bytes at distance `dist`. -/
inductive Lz where
  | lit (b : Nat)
  | copy (len dist : Nat)
  deriving DecidableEq, Repr

/-- The codes of an LZ77 token: the length code with the largest base not above the
length, the distance code with the largest base not above the distance, and the
differences as extra values. -/
def Lz.encode : Lz → Token
  | .lit b => .lit b
  | .copy len dist =>
    .copy (codeIndex lbase len 28) (len - lbase.getD (codeIndex lbase len 28) 0)
      (codeIndex dbase dist 29) (dist - dbase.getD (codeIndex dbase dist 29) 0)

/-- The output after an LZ77 token. -/
def Lz.apply (out : List Nat) : Lz → List Nat
  | .lit b => out ++ [b]
  | .copy len dist => lzCopy len dist out

/-- The LZ77 expansion of a sequence of tokens, appended to `out`. -/
def lzExpand : List Lz → List Nat → List Nat
  | [], out => out
  | t :: ts, out => lzExpand ts (t.apply out)

/-- A token allowed after the bytes `out`: a byte, or a match with length in `3..258`
and distance in `1..32768` that does not exceed the number of bytes produced. -/
def Lz.ok (out : List Nat) : Lz → Bool
  | .lit b => decide (b < 256)
  | .copy len dist =>
    decide (3 ≤ len) && decide (len ≤ 258) && decide (1 ≤ dist) && decide (dist ≤ 32768) &&
      decide (dist ≤ out.length)

/-- Every token of the sequence is allowed at its place. -/
def lzOK : List Lz → List Nat → Bool
  | [], _ => true
  | t :: ts, out => t.ok out && lzOK ts (t.apply out)

end Inflate

namespace Inflate

/-! ## Canonical Huffman codes (RFC 1951, section 3.2.2) -/

/-- The number of codes of length `L`: `bl_count[L]`, with `bl_count[0] = 0`. -/
def blCount (lens : List Nat) (L : Nat) : Nat :=
  if L = 0 then 0 else lens.count L

/-- The smallest code of length `L`: `next_code[L]` before any code is handed out. -/
def nextCode (lens : List Nat) : Nat → Nat
  | 0 => 0
  | L + 1 => (nextCode lens L + blCount lens L) * 2

/-- The canonical code of symbol `n`: the codes of one length are consecutive, in
symbol order, from `next_code` of that length. -/
def canonCode (lens : List Nat) (n : Nat) : Nat :=
  nextCode lens (lens.getD n 0) + (lens.take n).count (lens.getD n 0)

/-- The Kraft sum of the non-zero lengths, scaled by `2 ^ 15`: the sum of
`2 ^ (15 - L)`. The lengths are not over-subscribed when it is at most `2 ^ 15`. -/
def kraftSum (lens : List Nat) : Nat :=
  (lens.map (fun L => if L = 0 then 0 else 2 ^ (15 - L))).sum

/-! ## The counters of `_build` -/

/-- The array `codes` of `_build` after its second loop, as a function of the lengths:
`cnt[0]` counts the symbols of length 0. -/
def codesOf (lens : List Nat) : Nat → Nat
  | 0 => 0
  | L + 1 => (codesOf lens L + lens.count L) * 2

/-- The array `first` of `_build` after its second loop. -/
def firstOf (lens : List Nat) : Nat → Nat
  | 0 => 0
  | L + 1 => firstOf lens L + lens.count L

/-- The slot where `_build` places symbol `n`. -/
def slotOf (lens : List Nat) (n : Nat) : Nat :=
  firstOf lens (lens.getD n 0) + (lens.take n).count (lens.getD n 0)

end Inflate

namespace Inflate

/-! ## The code lengths of a dynamic block -/

end Inflate

namespace Inflate

/-- The state of `inflate` on the stream `05 C0 81 08 00 00 00 00 20 D6 FD 25 4E`, one
final dynamic block that holds the byte `61`, after the header of the block. -/
def dynSample : Machine :=
  { init [5, 192, 129, 8, 0, 0, 0, 0, 32, 214, 253, 37, 78] with
    r := { inp := [5, 192, 129, 8, 0, 0, 0, 0, 32, 214, 253, 37, 78], pos := 3,
           bits := 1062912, bitcnt := 21 }
    last := 1
    state := .dyn }

end Inflate

namespace Inflate

theorem leVal_drop {l : List Nat} {p : Nat} (h : p < l.length) :
    leVal (l.drop p) = l.getD p 0 % 256 + 256 * leVal (l.drop (p + 1)) := by
  rw [List.drop_eq_getElem_cons h]
  simp [leVal, List.getD_eq_getElem?_getD, List.getElem?_eq_getElem h]

theorem refill_spec (k : Nat) : ∀ r : Reader, r.bits < 2 ^ r.bitcnt → r.pos ≤ r.inp.length →
    (refill k r).bits < 2 ^ (refill k r).bitcnt ∧ (refill k r).val = r.val ∧
    (refill k r).len = r.len ∧ (refill k r).inp = r.inp ∧
    (refill k r).pos ≤ r.inp.length ∧ r.bitcnt ≤ (refill k r).bitcnt ∧
    (r.bitcnt + 8 * k ≤ (refill k r).bitcnt ∨ 16 ≤ (refill k r).bitcnt ∨
      r.inp.length ≤ (refill k r).pos) := by
  induction k with
  | zero => intro r h hp; simp [refill, h, hp]
  | succ k ih =>
    intro r h hp
    rw [refill]
    split
    · rename_i hc
      obtain ⟨hc1, hc2⟩ := hc
      have hb : r.inp.getD r.pos 0 % 256 < 2 ^ 8 := Nat.mod_lt _ (by norm_num)
      have hor : r.bits ||| ((r.inp.getD r.pos 0 % 256) <<< r.bitcnt)
          = 2 ^ r.bitcnt * (r.inp.getD r.pos 0 % 256) + r.bits := by
        rw [Nat.mul_add_lt_is_or h, Nat.lor_comm, Nat.shiftLeft_eq, Nat.mul_comm]
      have hlt : 2 ^ r.bitcnt * (r.inp.getD r.pos 0 % 256) + r.bits < 2 ^ (r.bitcnt + 8) := by
        rw [Nat.pow_add]
        have : 2 ^ r.bitcnt * (r.inp.getD r.pos 0 % 256 + 1) ≤ 2 ^ r.bitcnt * 2 ^ 8 :=
          Nat.mul_le_mul_left _ hb
        rw [Nat.mul_add, Nat.mul_one] at this
        omega
      obtain ⟨i1, i2, i3, i4, i5, i6, i7⟩ := ih
        { r with
          bits := r.bits ||| ((r.inp.getD r.pos 0 % 256) <<< r.bitcnt)
          pos := r.pos + 1
          bitcnt := r.bitcnt + 8 } (by show _ ||| _ < _; rw [hor]; exact hlt) (by simpa using hc2)
      refine ⟨i1, ?_, ?_, i4, i5, ?_, ?_⟩
      · rw [i2]
        simp only [Reader.val, hor, leVal_drop hc2, Nat.pow_add]
        ring
      · rw [i3]
        simp only [Reader.len]
        omega
      · simp only at i6
        omega
      · simp only at i7
        omega
    · rename_i hc
      refine ⟨h, rfl, rfl, rfl, hp, Nat.le_refl _, ?_⟩
      simp only [not_and_or, Nat.not_lt] at hc
      rcases hc with hc | hc
      · exact Or.inr (Or.inl hc)
      · exact Or.inr (Or.inr hc)

theorem get_spec (r : Reader) (n : Nat) (hb : r.bits < 2 ^ r.bitcnt) (hn : n ≤ r.bitcnt)
    (hp : r.pos ≤ r.inp.length) :
    (_get r n).1 = r.val % 2 ^ n ∧ (_get r n).2.val = r.val / 2 ^ n ∧
    (_get r n).2.len = r.len - n ∧ (_get r n).2.inp = r.inp ∧ (_get r n).2.Inv := by
  have hpos : 0 < 2 ^ n := Nat.two_pow_pos n
  have hsplit : 2 ^ r.bitcnt = 2 ^ n * 2 ^ (r.bitcnt - n) := by
    rw [← Nat.pow_add]; congr 1; omega
  have hb2 : r.bits >>> n < 2 ^ (r.bitcnt - n) := by
    rw [Nat.shiftRight_eq_div_pow, Nat.div_lt_iff_lt_mul hpos, Nat.mul_comm, ← hsplit]
    exact hb
  obtain ⟨i1, i2, i3, i4, i5, _, i7⟩ :=
    refill_spec 2 { r with bits := r.bits >>> n, bitcnt := r.bitcnt - n } hb2 hp
  refine ⟨?_, ?_, ?_, i4, ⟨i1, ?_, by simpa [_get, i4] using i5⟩⟩
  · simp only [_get, Nat.one_shiftLeft, Nat.and_pow_two_sub_one_eq_mod, Reader.val]
    rw [hsplit, Nat.mul_assoc, Nat.add_mul_mod_self_left]
  · simp only [_get]
    rw [i2]
    simp only [Reader.val, Nat.shiftRight_eq_div_pow]
    rw [hsplit, Nat.mul_assoc, Nat.add_mul_div_left _ _ hpos]
  · simp only [_get]
    rw [i3]
    simp only [Reader.len]
    omega
  · simp only [_get, i4]
    simp only at i7 i4
    rcases i7 with h | h | h
    · left; omega
    · left; exact h
    · right; exact h

end Inflate

namespace Inflate

theorem bitsVal_lt (bs : List Bool) : bitsVal bs < 2 ^ bs.length := by
  induction bs with
  | nil => simp [bitsVal]
  | cons b bs ih =>
    have : b.toNat ≤ 1 := Bool.toNat_le b
    simp only [bitsVal, List.length_cons, Nat.pow_succ]
    omega

theorem bitsVal_append (a b : List Bool) :
    bitsVal (a ++ b) = bitsVal a + 2 ^ a.length * bitsVal b := by
  induction a with
  | nil => simp [bitsVal]
  | cons x a ih =>
    show bitsVal (x :: (a ++ b)) = _
    simp only [bitsVal, ih, List.length_cons, Nat.pow_succ]
    ring

theorem natBits_length (v n : Nat) : (natBits v n).length = n := by
  induction n generalizing v with
  | zero => rfl
  | succ n ih => simp [natBits, ih]

theorem codeBits_length (c n : Nat) : (codeBits c n).length = n := by
  induction n with
  | zero => rfl
  | succ n ih => simp [codeBits, ih]

theorem toNat_beq_one (x : Nat) : (x % 2 == 1).toNat = x % 2 := by
  rcases Nat.mod_two_eq_zero_or_one x with h | h <;> simp [h]

theorem bitsVal_natBits (v n : Nat) : bitsVal (natBits v n) = v % 2 ^ n := by
  induction n generalizing v with
  | zero => simp [natBits, bitsVal, Nat.mod_one]
  | succ n ih =>
    simp only [natBits, bitsVal, ih, toNat_beq_one]
    rw [Nat.pow_succ, Nat.mul_comm (2 ^ n) 2, Nat.mod_mul]

theorem leVal_packAux (k : Nat) : ∀ bs : List Bool,
    leVal (packAux k bs) = bitsVal (bs.take (8 * k)) := by
  induction k with
  | zero => intro bs; simp [packAux, leVal, bitsVal]
  | succ k ih =>
    intro bs
    have h8 : bitsVal (bs.take 8) < 256 := by
      have := bitsVal_lt (bs.take 8)
      have h2 : (bs.take 8).length ≤ 8 := by simp
      calc bitsVal (bs.take 8) < 2 ^ (bs.take 8).length := this
        _ ≤ 2 ^ 8 := Nat.pow_le_pow_right (by norm_num) h2
    have hsplit : bs.take (8 * (k + 1)) = bs.take 8 ++ (bs.drop 8).take (8 * k) := by
      rw [show 8 * (k + 1) = 8 + 8 * k by ring, List.take_add]
    simp only [packAux, leVal, ih, hsplit, bitsVal_append, Nat.mod_eq_of_lt h8]
    by_cases hl : 8 ≤ bs.length
    · have : (bs.take 8).length = 8 := by simp [hl]
      rw [this]; norm_num
    · have : bs.drop 8 = [] := List.drop_of_length_le (by omega)
      simp [this, bitsVal]

theorem leVal_packBytes (bs : List Bool) : leVal (packBytes bs) = bitsVal bs := by
  rw [packBytes, leVal_packAux, List.take_of_length_le (by omega)]

theorem packAux_length (k : Nat) (bs : List Bool) : (packAux k bs).length = k := by
  induction k generalizing bs with
  | zero => rfl
  | succ k ih => simp [packAux, ih]

theorem packBytes_length (bs : List Bool) : bs.length ≤ 8 * (packBytes bs).length := by
  rw [packBytes, packAux_length]; omega

/-- Reading `a.length <= 16` bits from a reader at `a ++ rest` returns the value of `a` and
leaves the reader at `rest`. -/
theorem get_reads {r : Reader} {a rest : List Bool} (h : Reads r (a ++ rest))
    (ha : a.length ≤ 16) :
    (_get r a.length).1 = bitsVal a ∧ Reads (_get r a.length).2 rest ∧
    (_get r a.length).2.inp = r.inp ∧ (_get r a.length).2.len = r.len - a.length := by
  have hlen : a.length + rest.length ≤ r.len := by simpa using h.len_le
  have hn : a.length ≤ r.bitcnt := by
    rcases h.inv.full with hf | hf
    · omega
    · simp only [Reader.len] at hlen; omega
  obtain ⟨g1, g2, g3, g4, g5⟩ := get_spec r a.length h.inv.bits_lt hn h.inv.pos_le
  have hpos : 0 < 2 ^ a.length := Nat.two_pow_pos _
  refine ⟨?_, ⟨g5, ?_, ?_⟩, g4, g3⟩
  · rw [g1, h.val_eq, bitsVal_append, Nat.add_mul_mod_self_left,
      Nat.mod_eq_of_lt (bitsVal_lt a)]
  · rw [g2, h.val_eq, bitsVal_append, Nat.add_mul_div_left _ _ hpos,
      Nat.div_eq_of_lt (bitsVal_lt a), Nat.zero_add]
  · rw [g3]; omega

/-- The start of a stream: after the priming call the reader is at the bits of the
buffer. -/
theorem init_reads (bs : List Bool) : Reads (init (packBytes bs)).r bs := by
  obtain ⟨_, g2, g3, _, g5⟩ :=
    get_spec { inp := packBytes bs, pos := 0, bits := 0, bitcnt := 0 } 0
      (by simp) (Nat.le_refl _) (Nat.zero_le _)
  refine ⟨g5, ?_, ?_⟩
  · show (_get _ 0).2.val = _
    rw [g2]
    simp [Reader.val, leVal_packBytes]
  · show _ ≤ (_get _ 0).2.len
    rw [g3]
    simpa [Reader.len] using packBytes_length bs

/-! ## Bit reversal -/

theorem revBits_lt (n w : Nat) : revBits n w < 2 ^ n := by
  induction n generalizing w with
  | zero => simp [revBits]
  | succ n ih =>
    have h1 := ih (w / 2)
    have h2 : w % 2 < 2 := Nat.mod_lt _ (by norm_num)
    have h3 : w % 2 * 2 ^ n ≤ 1 * 2 ^ n := Nat.mul_le_mul_right _ (by omega)
    simp only [revBits, Nat.pow_succ]
    omega

theorem revBits_add (a b w : Nat) :
    revBits (a + b) w = revBits a w * 2 ^ b + revBits b (w / 2 ^ a) := by
  induction a generalizing w with
  | zero => simp [revBits]
  | succ a ih =>
    rw [show a + 1 + b = (a + b) + 1 by omega]
    simp only [revBits, ih, Nat.div_div_eq_div_mul, Nat.pow_succ, Nat.pow_add]
    rw [Nat.mul_comm 2 (2 ^ a)]
    ring

theorem revBits_div (L n w : Nat) : revBits (L + n) w / 2 ^ n = revBits L w := by
  rw [revBits_add, Nat.add_comm, Nat.add_mul_div_right _ _ (Nat.two_pow_pos n),
    Nat.div_eq_of_lt (revBits_lt n _), Nat.zero_add]

theorem revBits_mod (n w : Nat) : revBits n (w % 2 ^ n) = revBits n w := by
  induction n generalizing w with
  | zero => simp [revBits]
  | succ n ih =>
    have h1 : w % 2 ^ (n + 1) % 2 = w % 2 := by
      rw [Nat.pow_succ, Nat.mul_comm, Nat.mod_mul_right_mod]
    have h2 : w % 2 ^ (n + 1) / 2 = w / 2 % 2 ^ n := by
      rw [Nat.pow_succ, Nat.mul_comm, Nat.mod_mul_right_div_self]
    simp only [revBits, h1, h2, ih]

theorem revBits_codeBits (L c : Nat) (rest : List Bool) :
    revBits L (bitsVal (codeBits c L ++ rest)) = c % 2 ^ L := by
  induction L with
  | zero => simp [revBits, Nat.mod_one]
  | succ L ih =>
    have h0 : bitsVal (codeBits c (L + 1) ++ rest)
        = c / 2 ^ L % 2 + 2 * bitsVal (codeBits c L ++ rest) := by
      show bitsVal ((c / 2 ^ L % 2 == 1) :: (codeBits c L ++ rest)) = _
      simp only [bitsVal, toNat_beq_one]
    have h1 : (bitsVal (codeBits c (L + 1) ++ rest)) % 2 = c / 2 ^ L % 2 := by
      rw [h0]; omega
    have h2 : (bitsVal (codeBits c (L + 1) ++ rest)) / 2 = bitsVal (codeBits c L ++ rest) := by
      rw [h0]; omega
    simp only [revBits, h1, h2, ih]
    rw [Nat.mod_pow_succ]
    ring

set_option maxRecDepth 100000 in
theorem mirror_table : inflate_mirror = (List.range 256).map (revBits 8) := by
  decide!

theorem mirror_eq (b : Nat) (hb : b < 256) : inflate_mirror.getD b 0 = revBits 8 b := by
  rw [mirror_table]
  simp [List.getD_eq_getElem?_getD, List.getElem?_range hb]

theorem rev16_eq (w : Nat) : _rev16 w = revBits 16 w := by
  have h1 : w &&& 0xff = w % 256 := Nat.and_pow_two_sub_one_eq_mod w 8
  have h2 : (w >>> 8) &&& 0xff = (w / 2 ^ 8) % 256 := by
    rw [Nat.shiftRight_eq_div_pow]; exact Nat.and_pow_two_sub_one_eq_mod _ 8
  have h3 : revBits 8 (w / 2 ^ 8 % 256) < 2 ^ 8 := revBits_lt _ _
  have h4 : revBits 8 (w % 256) = revBits 8 w := revBits_mod 8 w
  have h5 : revBits 8 (w / 2 ^ 8 % 256) = revBits 8 (w / 2 ^ 8) := revBits_mod 8 _
  rw [_rev16, h1, h2, mirror_eq _ (Nat.mod_lt _ (by norm_num)),
    mirror_eq _ (Nat.mod_lt _ (by norm_num)), Nat.shiftLeft_eq, Nat.mul_comm,
    ← Nat.mul_add_lt_is_or h3, h4, h5,
    show (16 : Nat) = 8 + 8 from rfl, revBits_add]
  ring

end Inflate

namespace Inflate

/-! ## Binary search and `_decode` -/

theorem bsearch_eq (T : List Nat) (search max k : Nat)
    (hlow : ∀ j, j < k → T.getD j 0 ≤ search)
    (hhigh : ∀ j, k ≤ j → j < max → search < T.getD j 0) :
    ∀ fuel lo hi, lo ≤ k → k ≤ hi → hi ≤ max → hi - lo ≤ fuel →
      bsearch T search fuel lo hi = k := by
  intro fuel
  induction fuel with
  | zero => intro lo hi h1 h2 _ h4; simp only [bsearch]; omega
  | succ fuel ih =>
    intro lo hi h1 h2 h3 h4
    rw [bsearch]
    split
    · rename_i hlt
      simp only
      split
      · rename_i hs
        have : k ≤ (lo + hi) / 2 := by
          by_contra hc
          have := hlow ((lo + hi) / 2) (by omega)
          omega
        exact ih lo ((lo + hi) / 2) h1 this (by omega) (by omega)
      · rename_i hs
        have : (lo + hi) / 2 < k := by
          by_contra hc
          have := hhigh ((lo + hi) / 2) (by omega) (by omega)
          omega
        exact ih ((lo + hi) / 2 + 1) hi (by omega) h2 h3 (by omega)
    · omega


theorem entryOK_of_tableOK {f : Nat → Nat} {max i : Nat} (h : tableOK f max = true)
    (hi : i < max) : entryOK f max i = true := by
  simp only [tableOK, List.all_eq_true, List.mem_range] at h
  exact h i hi

/-- The facts checked by `entryOK`, as propositions. -/
theorem entry_facts {f : Nat → Nat} {max i : Nat} (h : tableOK f max = true) (hi : i < max) :
    1 ≤ slotLen f i ∧ slotLen f i ≤ 15 ∧ f i < 2 ^ 32 ∧
    f i / 65536 % 2 ^ (16 - slotLen f i) = 0 ∧
    (i + 1 < max → (slotCode f i + 1) * 2 ^ (32 - slotLen f i) ≤ f (i + 1)) := by
  have h0 := entryOK_of_tableOK h hi
  simp only [entryOK, Bool.and_eq_true, Bool.or_eq_true, decide_eq_true_eq] at h0
  obtain ⟨⟨⟨⟨a, b⟩, c⟩, d⟩, e⟩ := h0
  refine ⟨a, b, c, d, ?_⟩
  intro hlt
  rcases e with e | e
  · omega
  · exact e

/-- A packed word splits into its code, left-aligned, and its low 16 bits. -/
theorem entry_split {f : Nat → Nat} {max i : Nat} (h : tableOK f max = true) (hi : i < max) :
    f i = slotCode f i * 2 ^ (32 - slotLen f i) + f i % 65536 ∧
    slotCode f i < 2 ^ slotLen f i := by
  obtain ⟨h1, h2, h3, h4, _⟩ := entry_facts h hi
  have hp : 2 ^ (32 - slotLen f i) = 65536 * 2 ^ (16 - slotLen f i) := by
    rw [show (65536 : Nat) = 2 ^ 16 from rfl, ← Nat.pow_add]; congr 1; omega
  constructor
  · have hm : f i % 2 ^ (32 - slotLen f i) = f i % 65536 := by
      rw [hp, Nat.mod_mul, h4]; simp
    have := Nat.div_add_mod (f i) (2 ^ (32 - slotLen f i))
    rw [hm] at this
    rw [slotCode, Nat.mul_comm]; omega
  · rw [slotCode, Nat.div_lt_iff_lt_mul (Nat.two_pow_pos _), ← Nat.pow_add]
    rw [show slotLen f i + (32 - slotLen f i) = 32 by omega]
    exact h3

theorem table_next_gt {f : Nat → Nat} {max i : Nat} (h : tableOK f max = true)
    (hi : i + 1 < max) : f i < f (i + 1) := by
  obtain ⟨_, h2, _, _, h5⟩ := entry_facts h (by omega : i < max)
  obtain ⟨hs, _⟩ := entry_split h (by omega : i < max)
  have hlt : f i % 65536 < 65536 := Nat.mod_lt _ (by norm_num)
  have hp : 65536 ≤ 2 ^ (32 - slotLen f i) := by
    rw [show (65536 : Nat) = 2 ^ 16 from rfl]
    exact Nat.pow_le_pow_right (by norm_num) (by omega)
  have := h5 hi
  rw [Nat.add_mul, Nat.one_mul] at this
  omega

theorem table_mono {f : Nat → Nat} {max : Nat} (h : tableOK f max = true) :
    ∀ d i, i + d < max → f i ≤ f (i + d) := by
  intro d
  induction d with
  | zero => intro i _; exact Nat.le_refl _
  | succ d ih =>
    intro i hi
    have h1 := ih i (by omega)
    have h2 := table_next_gt h (show i + d + 1 < max by omega)
    rw [show i + (d + 1) = i + d + 1 by omega]
    omega

end Inflate

namespace Inflate

theorem reads_bitcnt {r : Reader} {a rest : List Bool} (h : Reads r (a ++ rest))
    (ha : a.length ≤ 16) : a.length ≤ r.bitcnt := by
  have hlen : a.length + rest.length ≤ r.len := by simpa using h.len_le
  rcases h.inv.full with hf | hf
  · omega
  · simp only [Reader.len] at hlen; omega

theorem bits_mod_eq_val_mod (r : Reader) (L : Nat) (hL : L ≤ r.bitcnt) :
    r.bits % 2 ^ L = r.val % 2 ^ L := by
  have hsplit : 2 ^ r.bitcnt = 2 ^ L * 2 ^ (r.bitcnt - L) := by
    rw [← Nat.pow_add]; congr 1; omega
  rw [Reader.val, hsplit, Nat.mul_assoc, Nat.add_mul_mod_self_left]

/-- The search key of `_decode` as a number. -/
theorem search_eq (w : Nat) :
    ((_rev16 w <<< 16) % 2 ^ 32) ||| 0xffff = revBits 16 w * 65536 + 65535 := by
  have h1 : revBits 16 w < 2 ^ 16 := revBits_lt 16 w
  have h2 : revBits 16 w * 65536 < 2 ^ 32 := by
    have : (2 : Nat) ^ 32 = 2 ^ 16 * 65536 := by norm_num
    omega
  rw [rev16_eq, Nat.shiftLeft_eq, show (2 : Nat) ^ 16 = 65536 from rfl, Nat.mod_eq_of_lt h2,
    Nat.mul_comm, show (65536 : Nat) = 2 ^ 16 from rfl,
    ← Nat.mul_add_lt_is_or (show 0xffff < 2 ^ 16 by norm_num)]

/-- Correctness of `_decode` on a sorted table of prefix codes: when the stream starts
with the code of slot `i`, the symbol of slot `i` is returned and exactly the bits of
the code are consumed. -/
theorem decode_spec {T : List Nat} {f : Nat → Nat} {max i : Nat} (hT : Holds T f max)
    (h : tableOK f max = true) (hi : i < max) {r : Reader} {rest : List Bool}
    (hr : Reads r (codeBits (slotCode f i) (slotLen f i) ++ rest)) :
    ∃ r1, _decode r T max = .ok (slotSym f i, r1) ∧ Reads r1 rest ∧ r1.inp = r.inp ∧
      r1.len = r.len - (codeBits (slotCode f i) (slotLen f i)).length := by
  obtain ⟨hL1, hL15, he32, _, hnext⟩ := entry_facts h hi
  obtain ⟨hsplit, hc⟩ := entry_split h hi
  have hcl : (codeBits (slotCode f i) (slotLen f i)).length = slotLen f i := codeBits_length _ _
  have hLb : slotLen f i ≤ r.bitcnt := by
    have := reads_bitcnt hr (by rw [hcl]; omega)
    rwa [hcl] at this
  -- the top bits of the reversed window are the code
  have hrev : revBits 16 r.bits / 2 ^ (16 - slotLen f i) = slotCode f i := by
    have h16 : revBits 16 r.bits = revBits (slotLen f i + (16 - slotLen f i)) r.bits := by
      congr 1; omega
    rw [h16, revBits_div, ← revBits_mod, bits_mod_eq_val_mod r _ hLb, revBits_mod, hr.val_eq,
      revBits_codeBits, Nat.mod_eq_of_lt hc]
  have hp16 : 0 < 2 ^ (16 - slotLen f i) := Nat.two_pow_pos _
  have hpow : 2 ^ (32 - slotLen f i) = 2 ^ (16 - slotLen f i) * 65536 := by
    rw [show (65536 : Nat) = 2 ^ 16 from rfl, ← Nat.pow_add]; congr 1; omega
  have hR1 : slotCode f i * 2 ^ (16 - slotLen f i) ≤ revBits 16 r.bits := by
    rw [← hrev]; exact Nat.div_mul_le_self _ _
  have hR2 : revBits 16 r.bits < (slotCode f i + 1) * 2 ^ (16 - slotLen f i) := by
    rw [← hrev]
    have := Nat.lt_mul_div_succ (revBits 16 r.bits) hp16
    rw [Nat.mul_comm]; exact this
  have hlow16 : f i % 65536 < 65536 := Nat.mod_lt _ (by norm_num)
  have hS1 : f i ≤ revBits 16 r.bits * 65536 + 65535 := by
    have := Nat.mul_le_mul_right 65536 hR1
    rw [Nat.mul_assoc, ← hpow] at this
    omega
  have hS2 : revBits 16 r.bits * 65536 + 65535 < (slotCode f i + 1) * 2 ^ (32 - slotLen f i) := by
    have : (revBits 16 r.bits + 1) * 65536 ≤ (slotCode f i + 1) * 2 ^ (16 - slotLen f i) * 65536 :=
      Nat.mul_le_mul_right 65536 hR2
    rw [Nat.mul_assoc, ← hpow] at this
    omega
  have hmono := table_mono h
  have hbs : bsearch T (revBits 16 r.bits * 65536 + 65535) max 0 max = i + 1 := by
    apply bsearch_eq T _ max (i + 1)
    · intro j hj
      have := hmono (i - j) j (by omega)
      rw [show j + (i - j) = i by omega] at this
      rw [hT.get j (by omega)]
      omega
    · intro j hj1 hj2
      have h1 := hnext (by omega)
      have := hmono (j - (i + 1)) (i + 1) (by omega)
      rw [show i + 1 + (j - (i + 1)) = j by omega] at this
      rw [hT.get j hj2]
      omega
    · omega
    · omega
    · exact Nat.le_refl _
    · omega
  have hlen := hT.len
  have hkey0 : T.getD i 0 = f i := hT.get i hi
  have hkey1 : f i &&& 0x0f = slotLen f i := Nat.and_pow_two_sub_one_eq_mod _ 4
  have hkey2 : (f i >>> 4) &&& 0x0fff = slotSym f i := by
    rw [Nat.shiftRight_eq_div_pow]; exact Nat.and_pow_two_sub_one_eq_mod _ 12
  obtain ⟨_, g2, g3, g4⟩ := get_reads hr (by rw [hcl]; omega)
  rw [hcl] at g2 g3 g4
  refine ⟨(_get r (slotLen f i)).2, ?_, g2, g3, by rw [hcl]; exact g4⟩
  rw [_decode, if_neg (by omega)]
  simp only [search_eq, hbs, Nat.add_sub_cancel, hkey0, hkey1, hkey2]
  simp

end Inflate

namespace Inflate

/-! ## The fixed tables -/

theorem holds_map_range (f : Nat → Nat) (max : Nat) :
    Holds ((List.range max).map f) f max := by
  refine ⟨by simp, ?_⟩
  intro j hj
  simp [List.getD_eq_getElem?_getD, List.getElem?_range hj]

theorem holds_fixedLits : Holds fixedLits fixedLitWord 288 := holds_map_range _ _

theorem holds_fixedDsts : Holds fixedDsts fixedDstWord 32 := holds_map_range _ _

set_option maxRecDepth 1000000 in
theorem fixedLits_ok : tableOK fixedLitWord 288 = true := by
  decide!

set_option maxRecDepth 1000000 in
theorem fixedDsts_ok : tableOK fixedDstWord 32 = true := by
  decide!

set_option maxRecDepth 1000000 in
theorem fixedSlot_spec : ∀ sym, sym < 288 →
    fixedSlot sym < 288 ∧ slotSym fixedLitWord (fixedSlot sym) = sym ∧
    codeBits (slotCode fixedLitWord (fixedSlot sym)) (slotLen fixedLitWord (fixedSlot sym))
      = fixedCode sym := by
  decide!

set_option maxRecDepth 1000000 in
theorem fixedDist_spec : ∀ j, j < 32 →
    slotSym fixedDstWord j = j ∧
    codeBits (slotCode fixedDstWord j) (slotLen fixedDstWord j) = fixedDistCode j := by
  decide!

/-! ## `_build` on runs of equal lengths -/

theorem getD_set_self (l : List Nat) (i v : Nat) (h : i < l.length) :
    (l.set i v).getD i 0 = v := by
  simp [List.getD_eq_getElem?_getD, List.getElem?_set_self h]

theorem getD_set_ne (l : List Nat) (i j v : Nat) (h : i ≠ j) :
    (l.set i v).getD j 0 = l.getD j 0 := by
  simp [List.getD_eq_getElem?_getD, List.getElem?_set_ne h]

theorem set_getD_self (l : List Nat) (i : Nat) : l.set i (l.getD i 0) = l := by
  induction l generalizing i with
  | nil => rfl
  | cons a l ih =>
    cases i with
    | zero => rfl
    | succ i => simp only [List.set_cons_succ, List.getD_cons_succ, ih]

theorem ext_getD (l1 l2 : List Nat) (hl : l1.length = l2.length)
    (h : ∀ j, j < l1.length → l1.getD j 0 = l2.getD j 0) : l1 = l2 := by
  apply List.ext_getElem hl
  intro n h1 h2
  have := h n h1
  simpa [List.getD_eq_getElem?_getD, List.getElem?_eq_getElem h1, List.getElem?_eq_getElem h2]
    using this

theorem length_setRun (len : Nat) : ∀ (k c n s : Nat) (tree : List Nat),
    (setRun len k c n s tree).length = tree.length := by
  intro k
  induction k with
  | zero => intro c n s tree; rfl
  | succ k ih => intro c n s tree; rw [setRun, ih]; simp

theorem getD_setRun (len : Nat) : ∀ (k c n s : Nat) (tree : List Nat) (j : Nat),
    s + k ≤ tree.length →
    (setRun len k c n s tree).getD j 0
      = if s ≤ j ∧ j < s + k then packWord (c + (j - s)) (n + (j - s)) len
        else tree.getD j 0 := by
  intro k
  induction k with
  | zero =>
    intro c n s tree j _
    rw [setRun, if_neg (by omega)]
  | succ k ih =>
    intro c n s tree j h
    rw [setRun, ih _ _ _ _ _ (by simp; omega)]
    by_cases h1 : s + 1 ≤ j ∧ j < s + 1 + k
    · rw [if_pos h1, if_pos (by omega)]
      congr 1 <;> omega
    · rw [if_neg h1]
      by_cases h2 : j = s
      · subst h2
        rw [if_pos (by omega), getD_set_self _ _ _ (by omega)]
        simp
      · rw [if_neg (by omega), getD_set_ne _ _ _ _ (by omega)]

/-- Placing a run of `k` symbols of the same non-zero length. -/
theorem place_replicate (size len : Nat) (rest : List Nat) (hlen : len ≠ 0) :
    ∀ (k n : Nat) (codes first tree : List Nat), len < codes.length → len < first.length →
      first.getD len 0 + k ≤ size →
      place size (List.replicate k len ++ rest) n codes first tree
        = place size rest (n + k) (codes.set len (codes.getD len 0 + k))
            (first.set len (first.getD len 0 + k))
            (setRun len k (codes.getD len 0) n (first.getD len 0) tree) := by
  intro k
  induction k with
  | zero =>
    intro n codes first tree _ _ _
    simp only [List.replicate_zero, List.nil_append, Nat.add_zero, set_getD_self, setRun]
  | succ k ih =>
    intro n codes first tree hc hf hs
    rw [List.replicate_succ, List.cons_append, place, if_neg hlen]
    simp only
    rw [if_pos (by omega), ih _ _ _ _ (by simpa using hc) (by simpa using hf)
      (by rw [getD_set_self _ _ _ hf]; omega)]
    rw [getD_set_self _ _ _ hc, getD_set_self _ _ _ hf, List.set_set, List.set_set, setRun]
    congr 1 <;> first | omega | (congr 1; omega)

theorem packWord_eq (code n len : Nat) (hl : len < 16) (hc : code < 2 ^ len) (hn : n < 4096) :
    packWord code n len = code * 2 ^ (32 - len) + n * 16 + len := by
  have hp : 2 ^ (32 - len) = 2 ^ 4 * 2 ^ (28 - len) := by
    rw [← Nat.pow_add]; congr 1; omega
  have h28 : 4096 ≤ 2 ^ (28 - len) := by
    rw [show (4096 : Nat) = 2 ^ 12 from rfl]
    exact Nat.pow_le_pow_right (by norm_num) (by omega)
  have h1 : n * 16 + len < 2 ^ (32 - len) := by
    rw [hp]; omega
  have h2 : len < 2 ^ 4 := by omega
  have h3 : code * 2 ^ (32 - len) + n * 16 + len < 2 ^ 32 := by
    have : (code + 1) * 2 ^ (32 - len) ≤ 2 ^ len * 2 ^ (32 - len) :=
      Nat.mul_le_mul_right _ hc
    rw [← Nat.pow_add, show len + (32 - len) = 32 by omega, Nat.add_mul, Nat.one_mul] at this
    omega
  have e1 : (code <<< (32 - len)) ||| (n <<< 4) ||| len
      = code * 2 ^ (32 - len) + n * 16 + len := by
    rw [Nat.shiftLeft_eq, Nat.shiftLeft_eq, show (2 : Nat) ^ 4 = 16 from rfl]
    have a1 : n * 16 ||| len = n * 16 + len := by
      rw [Nat.mul_comm, show (16 : Nat) = 2 ^ 4 from rfl, Nat.mul_add_lt_is_or h2]
    rw [Nat.lor_assoc, a1, Nat.mul_comm code, ← Nat.mul_add_lt_is_or h1, Nat.add_assoc]
  rw [packWord, e1, Nat.mod_eq_of_lt h3]

set_option maxRecDepth 100000 in
/-- The state `fixed` builds the fixed literal/length table whatever the table held
before. -/
theorem build_fixedLits (T : List Nat) (hT : T.length = 288) :
    _build T fixedLens 288 = .ok (fixedLits, 288) := by
  have htake : fixedLens.take 288 = List.replicate 144 8 ++ (List.replicate 112 9 ++
      (List.replicate 24 7 ++ (List.replicate 8 8 ++ []))) := by decide!
  have hcnt : countLens (List.replicate 144 8 ++ (List.replicate 112 9 ++
      (List.replicate 24 7 ++ (List.replicate 8 8 ++ [])))) (List.replicate 16 0)
      = .ok [0, 0, 0, 0, 0, 0, 0, 24, 152, 112, 0, 0, 0, 0, 0, 0] := by decide!
  have hft : firstTables 15 [0, 0, 0, 0, 0, 0, 0, 24, 152, 112, 0, 0, 0, 0, 0, 0] [0] [0]
      = ([0, 0, 0, 0, 0, 0, 0, 0, 48, 400, 1024, 2048, 4096, 8192, 16384, 32768],
         [0, 0, 0, 0, 0, 0, 0, 0, 24, 176, 288, 288, 288, 288, 288, 288]) := by decide
  have e1 := place_replicate 288 8 (List.replicate 112 9 ++
      (List.replicate 24 7 ++ (List.replicate 8 8 ++ []))) (by decide) 144 0
    [0, 0, 0, 0, 0, 0, 0, 0, 48, 400, 1024, 2048, 4096, 8192, 16384, 32768]
    [0, 0, 0, 0, 0, 0, 0, 0, 24, 176, 288, 288, 288, 288, 288, 288] T
    (by decide) (by decide) (by decide)
  have c1 : ([0, 0, 0, 0, 0, 0, 0, 0, 48, 400, 1024, 2048, 4096, 8192, 16384, 32768] : List Nat).set 8
      (([0, 0, 0, 0, 0, 0, 0, 0, 48, 400, 1024, 2048, 4096, 8192, 16384, 32768] : List Nat).getD 8 0
        + 144)
      = [0, 0, 0, 0, 0, 0, 0, 0, 192, 400, 1024, 2048, 4096, 8192, 16384, 32768] := by decide
  have f1 : ([0, 0, 0, 0, 0, 0, 0, 0, 24, 176, 288, 288, 288, 288, 288, 288] : List Nat).set 8
      (([0, 0, 0, 0, 0, 0, 0, 0, 24, 176, 288, 288, 288, 288, 288, 288] : List Nat).getD 8 0 + 144)
      = [0, 0, 0, 0, 0, 0, 0, 0, 168, 176, 288, 288, 288, 288, 288, 288] := by decide
  have g1 : ([0, 0, 0, 0, 0, 0, 0, 0, 48, 400, 1024, 2048, 4096, 8192, 16384, 32768] : List Nat).getD 8 0
      = 48 := by decide
  have g2 : ([0, 0, 0, 0, 0, 0, 0, 0, 24, 176, 288, 288, 288, 288, 288, 288] : List Nat).getD 8 0
      = 24 := by decide
  rw [c1, f1, g1, g2] at e1
  have e2 := place_replicate 288 9 (List.replicate 24 7 ++ (List.replicate 8 8 ++ []))
    (by decide) 112 (0 + 144)
    [0, 0, 0, 0, 0, 0, 0, 0, 192, 400, 1024, 2048, 4096, 8192, 16384, 32768]
    [0, 0, 0, 0, 0, 0, 0, 0, 168, 176, 288, 288, 288, 288, 288, 288]
    (setRun 8 144 48 0 24 T) (by decide) (by decide) (by decide)
  have c2 : ([0, 0, 0, 0, 0, 0, 0, 0, 192, 400, 1024, 2048, 4096, 8192, 16384, 32768] : List Nat).set 9
      (([0, 0, 0, 0, 0, 0, 0, 0, 192, 400, 1024, 2048, 4096, 8192, 16384, 32768] : List Nat).getD 9 0
        + 112)
      = [0, 0, 0, 0, 0, 0, 0, 0, 192, 512, 1024, 2048, 4096, 8192, 16384, 32768] := by decide
  have f2 : ([0, 0, 0, 0, 0, 0, 0, 0, 168, 176, 288, 288, 288, 288, 288, 288] : List Nat).set 9
      (([0, 0, 0, 0, 0, 0, 0, 0, 168, 176, 288, 288, 288, 288, 288, 288] : List Nat).getD 9 0 + 112)
      = [0, 0, 0, 0, 0, 0, 0, 0, 168, 288, 288, 288, 288, 288, 288, 288] := by decide
  have g3 : ([0, 0, 0, 0, 0, 0, 0, 0, 192, 400, 1024, 2048, 4096, 8192, 16384, 32768] : List Nat).getD 9 0
      = 400 := by decide
  have g4 : ([0, 0, 0, 0, 0, 0, 0, 0, 168, 176, 288, 288, 288, 288, 288, 288] : List Nat).getD 9 0
      = 176 := by decide
  rw [c2, f2, g3, g4] at e2
  have e3 := place_replicate 288 7 (List.replicate 8 8 ++ []) (by decide) 24 (0 + 144 + 112)
    [0, 0, 0, 0, 0, 0, 0, 0, 192, 512, 1024, 2048, 4096, 8192, 16384, 32768]
    [0, 0, 0, 0, 0, 0, 0, 0, 168, 288, 288, 288, 288, 288, 288, 288]
    (setRun 9 112 400 (0 + 144) 176 (setRun 8 144 48 0 24 T)) (by decide) (by decide) (by decide)
  have c3 : ([0, 0, 0, 0, 0, 0, 0, 0, 192, 512, 1024, 2048, 4096, 8192, 16384, 32768] : List Nat).set 7
      (([0, 0, 0, 0, 0, 0, 0, 0, 192, 512, 1024, 2048, 4096, 8192, 16384, 32768] : List Nat).getD 7 0
        + 24)
      = [0, 0, 0, 0, 0, 0, 0, 24, 192, 512, 1024, 2048, 4096, 8192, 16384, 32768] := by decide
  have f3 : ([0, 0, 0, 0, 0, 0, 0, 0, 168, 288, 288, 288, 288, 288, 288, 288] : List Nat).set 7
      (([0, 0, 0, 0, 0, 0, 0, 0, 168, 288, 288, 288, 288, 288, 288, 288] : List Nat).getD 7 0 + 24)
      = [0, 0, 0, 0, 0, 0, 0, 24, 168, 288, 288, 288, 288, 288, 288, 288] := by decide
  have g5 : ([0, 0, 0, 0, 0, 0, 0, 0, 192, 512, 1024, 2048, 4096, 8192, 16384, 32768] : List Nat).getD 7 0
      = 0 := by decide
  have g6 : ([0, 0, 0, 0, 0, 0, 0, 0, 168, 288, 288, 288, 288, 288, 288, 288] : List Nat).getD 7 0
      = 0 := by decide
  rw [c3, f3, g5, g6] at e3
  have e4 := place_replicate 288 8 [] (by decide) 8 (0 + 144 + 112 + 24)
    [0, 0, 0, 0, 0, 0, 0, 24, 192, 512, 1024, 2048, 4096, 8192, 16384, 32768]
    [0, 0, 0, 0, 0, 0, 0, 24, 168, 288, 288, 288, 288, 288, 288, 288]
    (setRun 7 24 0 (0 + 144 + 112) 0 (setRun 9 112 400 (0 + 144) 176 (setRun 8 144 48 0 24 T)))
    (by decide) (by decide) (by decide)
  have f4 : ([0, 0, 0, 0, 0, 0, 0, 24, 168, 288, 288, 288, 288, 288, 288, 288] : List Nat).set 8
      (([0, 0, 0, 0, 0, 0, 0, 24, 168, 288, 288, 288, 288, 288, 288, 288] : List Nat).getD 8 0 + 8)
      = [0, 0, 0, 0, 0, 0, 0, 24, 176, 288, 288, 288, 288, 288, 288, 288] := by decide
  have g7 : ([0, 0, 0, 0, 0, 0, 0, 24, 192, 512, 1024, 2048, 4096, 8192, 16384, 32768] : List Nat).getD 8 0
      = 192 := by decide
  have g8 : ([0, 0, 0, 0, 0, 0, 0, 24, 168, 288, 288, 288, 288, 288, 288, 288] : List Nat).getD 8 0
      = 168 := by decide
  rw [f4, g7, g8] at e4
  rw [_build, htake, hcnt]
  simp only [hft]
  rw [hT, e1, e2, e3, e4, place]
  simp only
  have hfinal : setRun 8 8 192 (0 + 144 + 112 + 24) 168
      (setRun 7 24 0 (0 + 144 + 112) 0 (setRun 9 112 400 (0 + 144) 176 (setRun 8 144 48 0 24 T)))
      = fixedLits := by
    apply ext_getD
    · simp only [length_setRun, hT]
      simp [fixedLits]
    · intro j hj
      simp only [length_setRun, hT] at hj
      rw [holds_fixedLits.get j hj]
      rw [getD_setRun _ _ _ _ _ _ _ (by simp only [length_setRun, hT]; omega),
        getD_setRun _ _ _ _ _ _ _ (by simp only [length_setRun, hT]; omega),
        getD_setRun _ _ _ _ _ _ _ (by simp only [length_setRun, hT]; omega),
        getD_setRun _ _ _ _ _ _ _ (by omega)]
      by_cases h1 : j < 24
      · rw [if_neg (by omega), if_pos (by omega), fixedLitWord, if_pos h1,
          packWord_eq _ _ _ (by omega) (by norm_num; omega) (by omega)]
        simp only [Nat.zero_add, Nat.sub_zero]
      · by_cases h2 : j < 168
        · rw [if_neg (by omega), if_neg (by omega), if_neg (by omega), if_pos (by omega),
            fixedLitWord, if_neg h1, if_pos h2,
            packWord_eq _ _ _ (by omega) (by norm_num; omega) (by omega)]
          norm_num
        · by_cases h3 : j < 176
          · rw [if_pos (by omega), fixedLitWord, if_neg h1, if_neg h2, if_pos h3,
              packWord_eq _ _ _ (by omega) (by norm_num; omega) (by omega)]
          · rw [if_neg (by omega), if_neg (by omega), if_pos (by omega),
              fixedLitWord, if_neg h1, if_neg h2, if_neg h3,
              packWord_eq _ _ _ (by omega) (by norm_num; omega) (by omega)]
  rw [hfinal]
  rfl

set_option maxRecDepth 100000 in
/-- The state `fixed` builds the fixed distance table whatever the table held before. -/
theorem build_fixedDsts (T : List Nat) (hT : T.length = 32) :
    _build T (fixedLens.drop 288) 32 = .ok (fixedDsts, 32) := by
  have htake : (fixedLens.drop 288).take 32 = List.replicate 32 5 ++ [] := by decide!
  have hcnt : countLens (List.replicate 32 5 ++ []) (List.replicate 16 0)
      = .ok [0, 0, 0, 0, 0, 32, 0, 0, 0, 0, 0, 0, 0, 0, 0, 0] := by decide!
  have hft : firstTables 15 [0, 0, 0, 0, 0, 32, 0, 0, 0, 0, 0, 0, 0, 0, 0, 0] [0] [0]
      = ([0, 0, 0, 0, 0, 0, 64, 128, 256, 512, 1024, 2048, 4096, 8192, 16384, 32768],
         [0, 0, 0, 0, 0, 0, 32, 32, 32, 32, 32, 32, 32, 32, 32, 32]) := by decide
  have e1 := place_replicate 32 5 [] (by decide) 32 0
    [0, 0, 0, 0, 0, 0, 64, 128, 256, 512, 1024, 2048, 4096, 8192, 16384, 32768]
    [0, 0, 0, 0, 0, 0, 32, 32, 32, 32, 32, 32, 32, 32, 32, 32] T
    (by decide) (by decide) (by decide)
  have f1 : ([0, 0, 0, 0, 0, 0, 32, 32, 32, 32, 32, 32, 32, 32, 32, 32] : List Nat).set 5
      (([0, 0, 0, 0, 0, 0, 32, 32, 32, 32, 32, 32, 32, 32, 32, 32] : List Nat).getD 5 0 + 32)
      = [0, 0, 0, 0, 0, 32, 32, 32, 32, 32, 32, 32, 32, 32, 32, 32] := by decide
  have g1 : ([0, 0, 0, 0, 0, 0, 64, 128, 256, 512, 1024, 2048, 4096, 8192, 16384, 32768] : List Nat).getD 5 0
      = 0 := by decide
  have g2 : ([0, 0, 0, 0, 0, 0, 32, 32, 32, 32, 32, 32, 32, 32, 32, 32] : List Nat).getD 5 0
      = 0 := by decide
  rw [f1, g1, g2] at e1
  rw [_build, htake, hcnt]
  simp only [hft]
  rw [hT, e1, place]
  simp only
  have hfinal : setRun 5 32 0 0 0 T = fixedDsts := by
    apply ext_getD
    · rw [length_setRun, hT]; simp [fixedDsts]
    · intro j hj
      rw [length_setRun, hT] at hj
      rw [holds_fixedDsts.get j hj, getD_setRun _ _ _ _ _ _ _ (by omega), if_pos (by omega),
        fixedDstWord, packWord_eq _ _ _ (by omega) (by norm_num; omega) (by omega)]
      simp only [Nat.zero_add, Nat.sub_zero]
  rw [hfinal]
  rfl

theorem fixedLits_length : fixedLits.length = 288 := by simp [fixedLits]

theorem fixedDsts_length : fixedDsts.length = 32 := by simp [fixedDsts]

attribute [irreducible] fixedLits fixedDsts

end Inflate

namespace Inflate

/-! ## The main loop on a fixed-Huffman block -/

theorem loop_cond {r : Reader} {bs : List Bool} (h : Reads r bs) (hne : bs ≠ []) :
    r.pos < r.inp.length ∨ r.bitcnt ≠ 0 := by
  have h1 := h.len_le
  have h2 : 0 < bs.length := List.length_pos.mpr hne
  simp only [Reader.len] at h1
  omega

theorem run_next {m m1 : Machine} (fuel : Nat) (hc : m.r.pos < m.r.inp.length ∨ m.r.bitcnt ≠ 0)
    (hs : step m = .next m1) : run (fuel + 1) m = run fuel m1 := by
  rw [run, if_pos hc, hs]

theorem run_ret {m : Machine} {out : List Nat} (fuel : Nat)
    (hc : m.r.pos < m.r.inp.length ∨ m.r.bitcnt ≠ 0)
    (hs : step m = .ret out) : run (fuel + 1) m = some (.done out) := by
  rw [run, if_pos hc, hs]

theorem fixedCode_ne_nil (sym : Nat) : fixedCode sym ≠ [] := by
  intro h
  have := congrArg List.length h
  simp only [fixedCode] at this
  split at this
  · simp [codeBits_length] at this
  · split at this
    · simp [codeBits_length] at this
    · split at this <;> simp [codeBits_length] at this

/-- Decoding one symbol of the fixed literal/length code. -/
theorem decode_fixedLit {r : Reader} {sym : Nat} {rest : List Bool} (hs : sym < 288)
    (hr : Reads r (fixedCode sym ++ rest)) :
    ∃ r1, _decode r fixedLits 288 = .ok (sym, r1) ∧ Reads r1 rest ∧ r1.inp = r.inp ∧
      r1.len = r.len - (fixedCode sym).length := by
  obtain ⟨h1, h2, h3⟩ := fixedSlot_spec sym hs
  rw [← h3] at hr
  obtain ⟨r1, g1, g2, g3, g4⟩ := decode_spec holds_fixedLits fixedLits_ok h1 hr
  rw [h2] at g1
  rw [h3] at g4
  exact ⟨r1, g1, g2, g3, g4⟩

/-- Decoding one symbol of the fixed distance code. -/
theorem decode_fixedDist {r : Reader} {j : Nat} {rest : List Bool} (hj : j < 32)
    (hr : Reads r (fixedDistCode j ++ rest)) :
    ∃ r1, _decode r fixedDsts 32 = .ok (j, r1) ∧ Reads r1 rest ∧ r1.inp = r.inp := by
  obtain ⟨h2, h3⟩ := fixedDist_spec j hj
  rw [← h3] at hr
  obtain ⟨r1, g1, g2, g3, _⟩ := decode_spec holds_fixedDsts fixedDsts_ok hj hr
  rw [h2] at g1
  exact ⟨r1, g1, g2, g3⟩

set_option maxRecDepth 8192 in
theorem stepBlk_literal {m : Machine} {sym : Nat} {r1 : Reader}
    (h : _decode m.r m.lits m.tlit = .ok (sym, r1)) (hs : sym < 256) :
    stepBlk m = .next { m with r := r1, out := m.out ++ [sym] } := by
  have h1 : ¬ sym > 256 := by omega
  have h2 : ¬ sym = 256 := by omega
  rw [stepBlk, h]
  simp only [h1, h2, if_false, Nat.mod_eq_of_lt hs]

set_option maxRecDepth 8192 in
theorem stepBlk_eob {m : Machine} {r1 : Reader}
    (h : _decode m.r m.lits m.tlit = .ok (256, r1)) (hl : m.last ≠ 0) :
    stepBlk m = .ret m.out := by
  rw [stepBlk, h]
  simp only [gt_iff_lt, Nat.lt_irrefl, if_false, if_true]
  rw [if_pos hl]

set_option maxRecDepth 8192 in
theorem stepBlk_far {m : Machine} {k j : Nat} {r1 r3 : Reader}
    (h1 : _decode m.r m.lits m.tlit = .ok (257 + k, r1)) (hk : k < 31)
    (h2 : _decode (_get r1 (lbits.getD k 0)).2 m.dsts m.tdist = .ok (j, r3)) (hj : j < 32)
    (ho : (_get r3 (dbits.getD j 0)).1 + dbase.getD j 0 > m.out.length) :
    stepBlk m = .ret m.out := by
  have e1 : 257 + k > 256 := by omega
  have e2 : 257 + k - 257 = k := by omega
  rw [stepBlk, h1]
  simp only [e1, e2, if_true, hk, h2, hj, ho]

/-- A literal: one iteration in state `blk` appends the byte. -/
theorem step_literal (last : Nat) (out : List Nat) {r : Reader} {b : Nat} {rest : List Bool}
    (hb : b < 256) (hr : Reads r (fixedCode b ++ rest)) :
    ∃ r1, step (fixedBlk r last out) = .next (fixedBlk r1 last (out ++ [b])) ∧
      Reads r1 rest ∧ r1.inp = r.inp ∧ r1.len = r.len - (fixedCode b).length := by
  obtain ⟨r1, g1, g2, g3, g4⟩ := decode_fixedLit (by omega : b < 288) hr
  exact ⟨r1, stepBlk_literal (m := fixedBlk r last out) g1 hb, g2, g3, g4⟩

/-- A run of literals: `d.length` iterations append the bytes of `d`. -/
theorem run_literals (last : Nat) (rest : List Bool) :
    ∀ (d : List Nat) (r : Reader) (out : List Nat) (fuel : Nat), (∀ b ∈ d, b < 256) →
      Reads r (d.flatMap fixedCode ++ rest) →
      ∃ r1, run (d.length + fuel) (fixedBlk r last out) = run fuel (fixedBlk r1 last (out ++ d)) ∧
        Reads r1 rest ∧ r1.inp = r.inp := by
  intro d
  induction d with
  | nil =>
    intro r out fuel _ hr
    exact ⟨r, by simp, by simpa using hr, rfl⟩
  | cons b d ih =>
    intro r out fuel hd hr
    have hb : b < 256 := hd b (List.mem_cons_self _ _)
    have hr1 : Reads r (fixedCode b ++ (d.flatMap fixedCode ++ rest)) := by
      simpa [List.flatMap_cons, List.append_assoc] using hr
    obtain ⟨r1, g1, g2, g3, _⟩ := step_literal last out hb hr1
    obtain ⟨r2, k1, k2, k3⟩ := ih r1 (out ++ [b]) fuel
      (fun x hx => hd x (List.mem_cons_of_mem _ hx)) g2
    refine ⟨r2, ?_, k2, by rw [k3, g3]⟩
    have hc := loop_cond hr1 (by simp [fixedCode_ne_nil])
    rw [show (b :: d).length + fuel = (d.length + fuel) + 1 by simp; omega,
      run_next _ hc g1, k1]
    simp

/-- The end-of-block code in state `blk`. -/
theorem step_eob (last : Nat) (out : List Nat) {r : Reader} {rest : List Bool}
    (hr : Reads r (fixedCode 256 ++ rest)) (hl : last ≠ 0) :
    step (fixedBlk r last out) = .ret out := by
  obtain ⟨r1, g1, _⟩ := decode_fixedLit (by omega : 256 < 288) hr
  exact stepBlk_eob (m := fixedBlk r last out) g1 hl

theorem lbits_le : ∀ k, k < 31 → lbits.getD k 0 ≤ 16 := by
  decide

theorem dbits_le : ∀ j, j < 32 → dbits.getD j 0 ≤ 16 := by
  decide

/-- A length/distance pair whose distance exceeds the bytes written: the iteration
returns. -/
theorem step_far (last : Nat) {r : Reader} {k e j f : Nat} {out : List Nat} {rest : List Bool}
    (hk : k < 29) (hj : j < 30) (hf : f < 2 ^ dbits.getD j 0)
    (hd : out.length < dbase.getD j 0 + f)
    (hr : Reads r (fixedMatch k e j f ++ rest)) :
    step (fixedBlk r last out) = .ret out := by
  have hr1 : Reads r (fixedCode (257 + k) ++ (natBits e (lbits.getD k 0) ++
      (fixedDistCode j ++ (natBits f (dbits.getD j 0) ++ rest)))) := by
    simpa [fixedMatch, List.append_assoc] using hr
  obtain ⟨r1, g1, g2, _⟩ := decode_fixedLit (by omega : 257 + k < 288) hr1
  obtain ⟨a1, a2, _⟩ := get_reads g2 (by rw [natBits_length]; exact lbits_le k (by omega))
  rw [natBits_length] at a1 a2
  obtain ⟨r3, c1, c2, _⟩ := decode_fixedDist (by omega : j < 32) a2
  obtain ⟨b1, _, _⟩ := get_reads c2 (by rw [natBits_length]; exact dbits_le j (by omega))
  rw [natBits_length, bitsVal_natBits, Nat.mod_eq_of_lt hf] at b1
  refine stepBlk_far (m := fixedBlk r last out) (k := k) (j := j) g1 (by omega) c1 (by omega) ?_
  rw [b1]
  show out.length < f + dbase.getD j 0
  omega

/-- The header of a fixed-Huffman block in state `hdr`. -/
theorem step_fixedHeader {m : Machine} {last : Bool} {rest : List Bool}
    (hm : m.state = .hdr) (hr : Reads m.r (fixedHeader last ++ rest)) :
    ∃ r1, step m = .next { m with r := r1, last := last.toNat, state := .fixed } ∧
      Reads r1 rest ∧ r1.inp = m.r.inp ∧ r1.len = m.r.len - 3 := by
  have hr1 : Reads m.r ([last] ++ (natBits 1 2 ++ rest)) := by
    simpa [fixedHeader, List.append_assoc] using hr
  obtain ⟨a1, a2, a3, a4⟩ := get_reads hr1 (by simp)
  obtain ⟨b1, b2, b3, b4⟩ := get_reads a2 (by simp [natBits_length])
  simp only [List.length_singleton, natBits_length] at a1 a2 a3 a4 b1 b2 b3 b4
  refine ⟨(_get (_get m.r 1).2 2).2, ?_, b2, by rw [b3, a3], by rw [b4, a4]; omega⟩
  have hv1 : (_get m.r 1).1 = last.toNat := by rw [a1]; simp [bitsVal]
  have hv2 : (_get (_get m.r 1).2 2).1 = 1 := by rw [b1, bitsVal_natBits]; rfl
  simp only [step, hm, stepHdr, hv1, hv2]

set_option maxRecDepth 8192 in
/-- The state `fixed` builds the two fixed tables, whatever the tables held. -/
theorem step_fixed {m : Machine} (hm : m.state = .fixed)
    (hl : m.lits.length = 288) (hd : m.dsts.length = 32) :
    step m = .next { m with lits := fixedLits, tlit := 288, dsts := fixedDsts, tdist := 32,
                            state := .blk } := by
  have h1 : step m = stepFixed m := by simp only [step, hm]
  rw [h1, stepFixed, build_fixedLits _ hl]
  simp only
  rw [build_fixedDsts _ hd]

end Inflate

namespace Inflate

/-! ## Arbitrary inputs: the first header -/

/-- After the priming call the reader holds the whole input as its unread bits. -/
theorem init_spec (inp : List Nat) :
    (init inp).r.Inv ∧ (init inp).r.val = leVal inp ∧ (init inp).r.len = 8 * inp.length := by
  obtain ⟨_, g2, g3, _, g5⟩ :=
    get_spec { inp := inp, pos := 0, bits := 0, bitcnt := 0 } 0
      (by simp) (Nat.le_refl _) (Nat.zero_le _)
  refine ⟨g5, ?_, ?_⟩
  · show (_get _ 0).2.val = _
    rw [g2]
    simp [Reader.val]
  · show (_get _ 0).2.len = _
    rw [g3]
    simp [Reader.len]

/-- A reader that satisfies the invariant holds `min 16 len` bits at least. -/
theorem inv_bitcnt {r : Reader} (h : r.Inv) (n : Nat) (h16 : n ≤ 16) (hl : n ≤ r.len) :
    n ≤ r.bitcnt := by
  rcases h.full with hf | hf
  · omega
  · simp only [Reader.len] at hl; omega

theorem cond_of_len {r : Reader} (h : 0 < r.len) : r.pos < r.inp.length ∨ r.bitcnt ≠ 0 := by
  simp only [Reader.len] at h; omega

/-- Reading `n <= 16` available bits, in terms of the unread bits as a number. -/
theorem get_val {r : Reader} (h : r.Inv) (n : Nat) (h16 : n ≤ 16) (hl : n ≤ r.len) :
    (_get r n).1 = r.val % 2 ^ n ∧ (_get r n).2.val = r.val / 2 ^ n ∧
    (_get r n).2.len = r.len - n ∧ (_get r n).2.Inv :=
  have g := get_spec r n h.bits_lt (inv_bitcnt h n h16 hl) h.pos_le
  ⟨g.1, g.2.1, g.2.2.1, g.2.2.2.2⟩

theorem shift_and_eq (b : Nat) : (b >>> 1) &&& 3 = b / 2 % 4 := by
  rw [Nat.shiftRight_eq_div_pow]
  exact Nat.and_pow_two_sub_one_eq_mod _ 2

/-- The header read from a non-empty input: the block type is bits 1 and 2 of the
first byte, and 3 bits are consumed. -/
theorem first_header (b : Nat) (rest : List Nat) :
    (init (b :: rest)).r.len = 8 * (rest.length + 1) ∧
    (_get (_get (init (b :: rest)).r 1).2 2).1 = (b >>> 1) &&& 3 ∧
    (_get (_get (init (b :: rest)).r 1).2 2).2.Inv ∧
    (_get (_get (init (b :: rest)).r 1).2 2).2.val = (b % 256 + 256 * leVal rest) / 8 ∧
    (_get (_get (init (b :: rest)).r 1).2 2).2.len = 8 * (rest.length + 1) - 3 := by
  obtain ⟨i1, i2, i3⟩ := init_spec (b :: rest)
  simp only [leVal, List.length_cons] at i2 i3
  obtain ⟨_, a2, a3, a4⟩ := get_val i1 1 (by omega) (by omega)
  obtain ⟨b1, b2, b3, b4⟩ := get_val a4 2 (by omega) (by omega)
  refine ⟨i3, ?_, b4, ?_, ?_⟩
  · rw [b1, a2, i2, shift_and_eq]; omega
  · rw [b2, a2, i2]; omega
  · rw [b3, a3, i3]; omega

theorem run_hdr_type3 (m : Machine) (fuel : Nat) (hm : m.state = .hdr)
    (hc : m.r.pos < m.r.inp.length ∨ m.r.bitcnt ≠ 0)
    (ht : (_get (_get m.r 1).2 2).1 = 3) : run (fuel + 1) m = some (.done m.out) := by
  have hs : step m = .ret m.out := by
    simp only [step, hm, stepHdr, ht]
  exact run_ret fuel hc hs

theorem run_stored_len0 (m : Machine) (fuel : Nat) (hm : m.state = .stored)
    (hc : m.r.pos < m.r.inp.length ∨ m.r.bitcnt ≠ 0)
    (hl : (_get (_get m.r (m.r.bitcnt &&& 7)).2 16).1 = 0) :
    run (fuel + 1) m = some (.done m.out) := by
  have hs : step m = .ret m.out := by
    simp only [step, hm, stepStored, hl, or_true, if_true]
  exact run_ret fuel hc hs

theorem bitcnt_and7 (r : Reader) : r.bitcnt &&& 7 = r.len % 8 := by
  have h1 : r.bitcnt &&& 7 = r.bitcnt % 8 := Nat.and_pow_two_sub_one_eq_mod _ 3
  rw [h1, Reader.len]
  omega

end Inflate

namespace Inflate

/-! ## The all-zero dynamic block -/

set_option maxRecDepth 1000000 in
theorem stuck_reached : run 2 (init [5, 0, 0, 0]) = run 0 (stuck []) ∧
    (∀ fuel, run (fuel + 2) (init [5, 0, 0, 0]) = run fuel (stuck [])) := by
  have hc0 : (init [5, 0, 0, 0]).r.pos < (init [5, 0, 0, 0]).r.inp.length ∨
      (init [5, 0, 0, 0]).r.bitcnt ≠ 0 := by decide
  have hs0 : ∃ m1, step (init [5, 0, 0, 0]) = .next m1 ∧
      (m1.r.pos < m1.r.inp.length ∨ m1.r.bitcnt ≠ 0) ∧ step m1 = .next (stuck []) := by
    refine ⟨{ init [5, 0, 0, 0] with
      r := { inp := [5, 0, 0, 0], pos := 3, bits := 0, bitcnt := 21 }
      last := 1, state := .dyn }, ?_, ?_, ?_⟩
    · decide!
    · decide!
    · decide!
  obtain ⟨m1, a1, a2, a3⟩ := hs0
  have key : ∀ fuel, run (fuel + 2) (init [5, 0, 0, 0]) = run fuel (stuck []) := by
    intro fuel
    rw [run_next (fuel + 1) hc0 a1, run_next fuel a2 a3]
  exact ⟨key 0, key⟩

set_option maxRecDepth 1000000 in
theorem stuck_decode :
    _decode { inp := [5, 0, 0, 0], pos := 4, bits := 0, bitcnt := 3 } (List.replicate 288 0) 257
      = .ok (0, { inp := [5, 0, 0, 0], pos := 4, bits := 0, bitcnt := 3 }) := by
  decide!

/-- In the stuck state an iteration writes a zero byte and consumes no bit. -/
theorem stuck_step (out : List Nat) : step (stuck out) = .next (stuck (out ++ [0])) :=
  stepBlk_literal (m := stuck out) stuck_decode (by decide)

theorem stuck_run (fuel : Nat) : ∀ out, run fuel (stuck out) = none := by
  induction fuel with
  | zero => intro out; rfl
  | succ fuel ih =>
    intro out
    rw [run_next fuel (Or.inr (show (3 : Nat) ≠ 0 by decide)) (stuck_step out)]
    exact ih _

/-! ## The timer sweep -/

end Inflate

namespace Maestro

theorem expireLoop_spec (now : Int) : ∀ (todo kept : List Timer) (closed : List Int),
    (∀ t ∈ kept, ¬ now - t.stamp ≥ HTTP_KEEPALIVE_TIME) →
    expireLoop now todo (kept ++ todo) closed =
      (kept ++ todo.filter (fun t => decide (now - t.stamp < HTTP_KEEPALIVE_TIME)),
       closed ++ (todo.filter (fun t => decide (now - t.stamp ≥ HTTP_KEEPALIVE_TIME))).map
         (fun t => t.sockfd)) := by
  intro todo
  induction todo with
  | nil => intro kept closed _; simp [expireLoop]
  | cons t todo ih =>
    intro kept closed hk
    by_cases ht : now - t.stamp ≥ HTTP_KEEPALIVE_TIME
    · have hdel : list_del (kept ++ t :: todo) t.stamp = kept ++ todo := by
        rw [list_del, List.eraseP_append_right]
        · simp
        · intro b hb hbeq
          have : b.stamp = t.stamp := by simpa using hbeq
          exact hk b hb (by rw [this]; exact ht)
      have hnl : ¬ now - t.stamp < HTTP_KEEPALIVE_TIME := by omega
      rw [expireLoop, if_pos ht, hdel, ih kept _ hk]
      simp [ht, hnl]
    · have hl : now - t.stamp < HTTP_KEEPALIVE_TIME := by omega
      have hk2 : ∀ x ∈ kept ++ [t], ¬ now - x.stamp ≥ HTTP_KEEPALIVE_TIME := by
        intro x hx
        rcases List.mem_append.mp hx with h | h
        · exact hk x h
        · have : x = t := by simpa using h
          rw [this]; exact ht
      have := ih (kept ++ [t]) closed hk2
      rw [List.append_assoc, List.singleton_append] at this
      rw [expireLoop, if_neg ht, this]
      simp [ht, hl]

end Maestro

namespace Inflate

/-! ## Streams of fixed-Huffman blocks -/

theorem dbase_pos : ∀ j, j < 30 → 1 ≤ dbase.getD j 0 := by
  decide

theorem copyMatch_eq (offs : Nat) (h1 : 1 ≤ offs) : ∀ (len : Nat) (out : List Nat),
    offs ≤ out.length → copyMatch len offs out = .ok (lzCopy len offs out) := by
  intro len
  induction len with
  | zero => intro out _; rfl
  | succ len ih =>
    intro out h
    rw [copyMatch, if_neg (by omega), lzCopy]
    exact ih _ (by simp; omega)

set_option maxRecDepth 8192 in
theorem stepBlk_match {m : Machine} {k j : Nat} {r1 r3 : Reader} {out1 : List Nat}
    (h1 : _decode m.r m.lits m.tlit = .ok (257 + k, r1)) (hk : k < 31)
    (h2 : _decode (_get r1 (lbits.getD k 0)).2 m.dsts m.tdist = .ok (j, r3)) (hj : j < 32)
    (ho : ¬ (_get r3 (dbits.getD j 0)).1 + dbase.getD j 0 > m.out.length)
    (hc : copyMatch ((_get r1 (lbits.getD k 0)).1 + lbase.getD k 0)
      ((_get r3 (dbits.getD j 0)).1 + dbase.getD j 0) m.out = .ok out1) :
    stepBlk m = .next { m with r := (_get r3 (dbits.getD j 0)).2, out := out1 } := by
  have e1 : 257 + k > 256 := by omega
  have e2 : 257 + k - 257 = k := by omega
  rw [stepBlk, h1]
  simp only [e1, e2, if_true, hk, h2, hj, ho, if_false, hc]

theorem stepBlk_eob_next {m : Machine} {r1 : Reader}
    (h : _decode m.r m.lits m.tlit = .ok (256, r1)) (hl : m.last = 0) :
    stepBlk m = .next { m with r := r1, state := .hdr } := by
  rw [stepBlk, h]
  simp only [gt_iff_lt, Nat.lt_irrefl, if_false, if_true]
  rw [if_neg (by rw [hl]; simp)]

/-- One token in state `blk`. -/
theorem step_token (last : Nat) {r : Reader} {out : List Nat} {t : Token} {rest : List Bool}
    (ht : t.ok out = true) (hr : Reads r (t.bits ++ rest)) :
    ∃ r1, step (fixedBlk r last out) = .next (fixedBlk r1 last (t.apply out)) ∧
      Reads r1 rest ∧ r1.inp = r.inp := by
  cases t with
  | lit b =>
    simp only [Token.ok, decide_eq_true_eq] at ht
    obtain ⟨r1, g1, g2, g3, _⟩ := step_literal last out ht hr
    exact ⟨r1, g1, g2, g3⟩
  | copy k e j f =>
    simp only [Token.ok, Bool.and_eq_true, decide_eq_true_eq] at ht
    obtain ⟨⟨⟨⟨hk, he⟩, hj⟩, hf⟩, hd⟩ := ht
    have hr1 : Reads r (fixedCode (257 + k) ++ (natBits e (lbits.getD k 0) ++
        (fixedDistCode j ++ (natBits f (dbits.getD j 0) ++ rest)))) := by
      simpa [Token.bits, fixedMatch, List.append_assoc] using hr
    obtain ⟨r1, g1, g2, g3, _⟩ := decode_fixedLit (by omega : 257 + k < 288) hr1
    obtain ⟨a1, a2, a3, _⟩ := get_reads g2 (by rw [natBits_length]; exact lbits_le k (by omega))
    rw [natBits_length] at a1 a2 a3
    rw [bitsVal_natBits, Nat.mod_eq_of_lt he] at a1
    obtain ⟨r3, c1, c2, c3⟩ := decode_fixedDist (by omega : j < 32) a2
    obtain ⟨b1, b2, b3, _⟩ := get_reads c2 (by rw [natBits_length]; exact dbits_le j (by omega))
    rw [natBits_length] at b1 b2 b3
    rw [bitsVal_natBits, Nat.mod_eq_of_lt hf] at b1
    have hpos := dbase_pos j hj
    have hcm : copyMatch ((_get r1 (lbits.getD k 0)).1 + lbase.getD k 0)
        ((_get r3 (dbits.getD j 0)).1 + dbase.getD j 0) out
        = .ok ((Token.copy k e j f).apply out) := by
      rw [a1, b1, Nat.add_comm e, Nat.add_comm f]
      exact copyMatch_eq _ (by omega) _ _ hd
    refine ⟨(_get r3 (dbits.getD j 0)).2, ?_, b2, by rw [b3, c3, a3, g3]⟩
    exact stepBlk_match (m := fixedBlk r last out) (k := k) (j := j) g1 (by omega) c1 (by omega)
      (by rw [b1]; show ¬ f + dbase.getD j 0 > out.length; omega) hcm

theorem Token.bits_ne_nil (t : Token) : t.bits ≠ [] := by
  cases t with
  | lit b => exact fixedCode_ne_nil b
  | copy k e j f => simp [Token.bits, fixedMatch, fixedCode_ne_nil]

/-- A run of tokens in state `blk`. -/
theorem run_tokens (last : Nat) (rest : List Bool) :
    ∀ (ts : List Token) (r : Reader) (out : List Nat) (fuel : Nat), tokensOK ts out = true →
      Reads r (ts.flatMap Token.bits ++ rest) →
      ∃ r1, run (ts.length + fuel) (fixedBlk r last out)
          = run fuel (fixedBlk r1 last (expand ts out)) ∧
        Reads r1 rest ∧ r1.inp = r.inp := by
  intro ts
  induction ts with
  | nil =>
    intro r out fuel _ hr
    exact ⟨r, by simp [expand], by simpa using hr, rfl⟩
  | cons t ts ih =>
    intro r out fuel hok hr
    simp only [tokensOK, Bool.and_eq_true] at hok
    have hr1 : Reads r (t.bits ++ (ts.flatMap Token.bits ++ rest)) := by
      simpa [List.flatMap_cons, List.append_assoc] using hr
    obtain ⟨r1, g1, g2, g3⟩ := step_token last hok.1 hr1
    obtain ⟨r2, k1, k2, k3⟩ := ih r1 (t.apply out) fuel hok.2 g2
    refine ⟨r2, ?_, k2, by rw [k3, g3]⟩
    have hc := loop_cond hr1 (by simp [Token.bits_ne_nil])
    rw [show (t :: ts).length + fuel = (ts.length + fuel) + 1 by simp; omega,
      run_next _ hc g1, k1, expand]

/-- The state `fixed` in a stream of fixed-Huffman blocks. -/
theorem step_fixed_any {m : Machine} (hm : m.state = .fixed) (ht : FixedSoFar m) :
    step m = .next (fixedBlk m.r m.last m.out) := by
  rw [step_fixed hm ht.lits ht.dsts]
  simp only [fixedBlk, ht.lens, ht.tlen]

/-- One fixed-Huffman block from state `hdr` up to its end-of-block code. -/
theorem run_block_body {m : Machine} (last : Bool) (ts : List Token) (rest : List Bool)
    (fuel : Nat) (hm : m.state = .hdr) (ht : FixedSoFar m)
    (hok : tokensOK ts m.out = true) (hr : Reads m.r (fixedBlock last ts ++ rest)) :
    ∃ r1, run (ts.length + 2 + fuel) m = run fuel (fixedBlk r1 last.toNat (expand ts m.out)) ∧
      Reads r1 (fixedCode 256 ++ rest) := by
  have h1 : Reads m.r (fixedHeader last ++ (ts.flatMap Token.bits ++ (fixedCode 256 ++ rest))) := by
    simpa [fixedBlock, List.append_assoc] using hr
  obtain ⟨r1, s1, g1, _⟩ := step_fixedHeader hm h1
  have hc0 := loop_cond h1 (by simp [fixedHeader])
  have hc1 : r1.pos < r1.inp.length ∨ r1.bitcnt ≠ 0 :=
    loop_cond g1 (by simp [fixedCode_ne_nil])
  have s2 := step_fixed_any (m := { m with r := r1, last := last.toNat, state := .fixed })
    rfl ⟨ht.lits, ht.dsts, ht.lens, ht.tlen⟩
  obtain ⟨r2, k1, k2, _⟩ := run_tokens last.toNat (fixedCode 256 ++ rest) ts r1 m.out fuel hok g1
  refine ⟨r2, ?_, k2⟩
  rw [show ts.length + 2 + fuel = ((ts.length + fuel) + 1) + 1 by omega,
    run_next _ hc0 s1, run_next _ hc1 s2, k1]

theorem fixedBlock_ne_nil (last : Bool) (ts : List Token) : fixedBlock last ts ≠ [] := by
  simp [fixedBlock, fixedHeader]

/-- A stream of fixed-Huffman blocks from state `hdr`. -/
theorem run_stream : ∀ (blocks : List (List Token)) (m : Machine) (fuel : Nat),
    blocks ≠ [] → m.state = .hdr → FixedSoFar m → tokensOK blocks.flatten m.out = true →
    Reads m.r (fixedStream blocks) →
    run ((blocks.map (fun ts => ts.length + 3)).sum + fuel) m
      = some (.done (expand blocks.flatten m.out)) := by
  intro blocks
  induction blocks with
  | nil => intro m fuel h; exact absurd rfl h
  | cons ts rest ih =>
    intro m fuel _ hm ht hok hr
    have hok1 : tokensOK ts m.out = true ∧ tokensOK rest.flatten (expand ts m.out) = true := by
      have : ∀ (a b : List Token) (out : List Nat),
          tokensOK (a ++ b) out = (tokensOK a out && tokensOK b (expand a out)) := by
        intro a
        induction a with
        | nil => intro b out; simp [tokensOK, expand]
        | cons t a iha => intro b out; simp [tokensOK, expand, iha, Bool.and_assoc]
      rw [List.flatten_cons, this, Bool.and_eq_true] at hok
      exact hok
    have hexp : expand (ts :: rest).flatten m.out = expand rest.flatten (expand ts m.out) := by
      have : ∀ (a b : List Token) (out : List Nat),
          expand (a ++ b) out = expand b (expand a out) := by
        intro a
        induction a with
        | nil => intro b out; rfl
        | cons t a iha => intro b out; simp [expand, iha]
      rw [List.flatten_cons, this]
    cases rest with
    | nil =>
      have hr1 : Reads m.r (fixedBlock true ts ++ []) := by simpa [fixedStream] using hr
      obtain ⟨r1, k1, k2⟩ := run_block_body true ts [] (fuel + 1) hm ht hok1.1 hr1
      have hc := loop_cond k2 (by simp [fixedCode_ne_nil])
      have h4 := step_eob true.toNat (expand ts m.out) k2 (by decide)
      rw [hexp]
      simp only [List.map_cons, List.map_nil, List.sum_cons, List.sum_nil, List.flatten_nil,
        expand]
      rw [show ts.length + 3 + 0 + fuel = ts.length + 2 + (fuel + 1) by omega, k1,
        run_ret _ hc h4]
    | cons t2 rest2 =>
      have hr1 : Reads m.r (fixedBlock false ts ++ fixedStream (t2 :: rest2)) := by
        simpa [fixedStream] using hr
      obtain ⟨r1, k1, k2⟩ := run_block_body false ts (fixedStream (t2 :: rest2))
        ((((t2 :: rest2).map (fun ts => ts.length + 3)).sum + fuel) + 1) hm ht hok1.1 hr1
      have hc := loop_cond k2 (by simp [fixedCode_ne_nil])
      obtain ⟨r2, g1, g2, _⟩ := decode_fixedLit (by omega : 256 < 288) k2
      have h4 : step (fixedBlk r1 false.toNat (expand ts m.out))
          = .next { fixedBlk r1 false.toNat (expand ts m.out) with r := r2, state := .hdr } :=
        stepBlk_eob_next (m := fixedBlk r1 false.toNat (expand ts m.out)) g1 rfl
      have hnext := ih
        { fixedBlk r1 false.toNat (expand ts m.out) with r := r2, state := .hdr } fuel
        (by simp) rfl ⟨fixedLits_length, fixedDsts_length, rfl, rfl⟩ hok1.2 g2
      rw [hexp]
      rw [show ((ts :: t2 :: rest2).map (fun ts => ts.length + 3)).sum + fuel
          = ts.length + 2 + ((((t2 :: rest2).map (fun ts => ts.length + 3)).sum + fuel) + 1) by
        simp only [List.map_cons, List.sum_cons]; omega, k1, run_next _ hc h4]
      exact hnext

end Inflate

namespace Inflate

/-! ## Prefixes of a packed stream -/

theorem get_exhausted (r : Reader) (n : Nat) (hp : r.inp.length ≤ r.pos)
    (hb : r.bits < 2 ^ r.bitcnt) (hn : r.bitcnt ≤ n) :
    _get r n = (r.bits, { r with bits := 0, bitcnt := 0 }) := by
  have h1 : r.bits < 2 ^ n := Nat.lt_of_lt_of_le hb (Nat.pow_le_pow_right (by norm_num) hn)
  have h2 : r.bits &&& ((1 <<< n) - 1) = r.bits := by
    rw [Nat.one_shiftLeft, Nat.and_pow_two_sub_one_eq_mod, Nat.mod_eq_of_lt h1]
  have h3 : r.bits >>> n = 0 := by
    rw [Nat.shiftRight_eq_div_pow, Nat.div_eq_of_lt h1]
  have h4 : r.bitcnt - n = 0 := by omega
  have h5 : ¬ ((0 : Nat) < 16 ∧ r.pos < r.inp.length) := by omega
  simp only [_get, h2, h3, h4, refill, h5, if_false]

theorem lzCopy_length (len dist : Nat) : ∀ out : List Nat,
    (lzCopy len dist out).length = out.length + len := by
  induction len with
  | zero => intro out; rfl
  | succ len ih => intro out; rw [lzCopy, ih]; simp; omega

end Inflate

namespace Inflate

/-! ## A fixed-Huffman literal block cut by the end of the input -/

end Inflate

namespace Inflate

/-! ## Streams that start with a fixed-Huffman block -/

/-- A stream whose first block is a fixed-Huffman block: after two iterations the loop
is in state `blk` with the fixed tables. -/
theorem inflate_fixed_first (inp : List Nat) (fuel : Nat)
    (hc0 : (init inp).r.pos < (init inp).r.inp.length ∨ (init inp).r.bitcnt ≠ 0)
    (ht : (_get (_get (init inp).r 1).2 2).1 = 1)
    (hc1 : (_get (_get (init inp).r 1).2 2).2.pos < (_get (_get (init inp).r 1).2 2).2.inp.length
      ∨ (_get (_get (init inp).r 1).2 2).2.bitcnt ≠ 0) :
    inflate (fuel + 2) inp
      = run fuel (fixedBlk (_get (_get (init inp).r 1).2 2).2 (_get (init inp).r 1).1 []) := by
  have s1 : step (init inp) = .next { init inp with
      r := (_get (_get (init inp).r 1).2 2).2, last := (_get (init inp).r 1).1,
      state := .fixed } := by
    show stepHdr (init inp) = _
    simp only [stepHdr, ht]
  have s2 := step_fixed (m := { init inp with
      r := (_get (_get (init inp).r 1).2 2).2, last := (_get (init inp).r 1).1,
      state := .fixed }) rfl (List.length_replicate _ _) (List.length_replicate _ _)
  rw [inflate, run_next _ hc0 s1, run_next _ hc1 s2]
  rfl

end Inflate

namespace Inflate

/-! ## The iteration budgets of the inner loops are sufficient -/

/-- Two rounds are enough for the refill loop of `_get`: after them its condition
`s->bitcnt < 16 && in < end` is false. -/
theorem refill_done (r : Reader) :
    ¬ ((refill 2 r).bitcnt < 16 ∧ (refill 2 r).pos < (refill 2 r).inp.length) := by
  simp only [refill]
  split_ifs <;> simp_all

/-- The reader returned by `_get` has left the refill loop. -/
theorem get_done (r : Reader) (n : Nat) :
    ¬ ((_get r n).2.bitcnt < 16 ∧ (_get r n).2.pos < (_get r n).2.inp.length) :=
  refill_done _

/-- A budget of `hi - lo` rounds is enough for the binary search: a larger budget
gives the same result. -/
theorem bsearch_stable (tree : List Nat) (search : Nat) : ∀ fuel lo hi, hi - lo ≤ fuel →
    ∀ more, bsearch tree search (fuel + more) lo hi = bsearch tree search fuel lo hi := by
  intro fuel
  induction fuel with
  | zero =>
    intro lo hi h more
    match more with
    | 0 => rfl
    | more + 1 =>
      rw [Nat.zero_add, bsearch, bsearch, if_neg (by omega)]
  | succ fuel ih =>
    intro lo hi h more
    rw [show fuel + 1 + more = (fuel + more) + 1 by omega, bsearch, bsearch]
    by_cases hlt : lo < hi
    · simp only [if_pos hlt]
      rw [ih lo ((lo + hi) / 2) (by omega) more, ih ((lo + hi) / 2 + 1) hi (by omega) more]
    · simp only [if_neg hlt]

/-- With the budget `max` the binary search of `_decode` has left its loop: the result
`lo` is not below `hi`. -/
theorem bsearch_ge (tree : List Nat) (search : Nat) : ∀ fuel lo hi, hi - lo ≤ fuel → lo ≤ hi →
    bsearch tree search fuel lo hi = hi ∨
      (bsearch tree search fuel lo hi < hi ∧
        search < tree.getD (bsearch tree search fuel lo hi) 0) := by
  intro fuel
  induction fuel with
  | zero => intro lo hi h h2; left; rw [bsearch]; omega
  | succ fuel ih =>
    intro lo hi h h2
    rw [bsearch]
    by_cases hlt : lo < hi
    · simp only [if_pos hlt]
      by_cases hs : search < tree.getD ((lo + hi) / 2) 0
      · simp only [if_pos hs]
        rcases ih lo ((lo + hi) / 2) (by omega) (by omega) with h3 | h3
        · right; rw [h3]; exact ⟨by omega, hs⟩
        · right; exact ⟨by omega, h3.2⟩
      · simp only [if_neg hs]
        exact ih ((lo + hi) / 2 + 1) hi (by omega) (by omega)
    · simp only [if_neg hlt]; left; omega

theorem fillLens_count : ∀ (i v n : Nat) (lens : List Nat) (n1 : Nat) (lens1 : List Nat),
    fillLens i v n lens = .ok (n1, lens1) → n1 = n + i := by
  intro i
  induction i with
  | zero =>
    intro v n lens n1 lens1 h
    simp only [fillLens, Except.ok.injEq, Prod.mk.injEq] at h
    omega
  | succ i ih =>
    intro v n lens n1 lens1 h
    rw [fillLens] at h
    by_cases hn : n < 320
    · rw [if_pos hn] at h
      have := ih _ _ _ _ _ h
      omega
    · rw [if_neg hn] at h
      cases h

/-- A budget of `total - n` rounds is enough for the loop that reads the code lengths:
every round advances `n`, so a larger budget gives the same result. -/
theorem readLens_stable (tree : List Nat) (max total : Nat) : ∀ fuel r n lens,
    total - n ≤ fuel → ∀ more,
    readLens tree max total (fuel + more) r n lens = readLens tree max total fuel r n lens := by
  intro fuel
  induction fuel with
  | zero =>
    intro r n lens h more
    match more with
    | 0 => rfl
    | more + 1 => rw [Nat.zero_add, readLens, readLens, if_neg (by omega)]
  | succ fuel ih =>
    intro r n lens h more
    rw [show fuel + 1 + more = (fuel + more) + 1 by omega, readLens, readLens]
    by_cases hn : n < total
    · simp only [if_pos hn]
      cases hd : _decode r tree max with
      | error f => rfl
      | ok p =>
        obtain ⟨sym, r1⟩ := p
        simp only
        split_ifs with h16 h0 h17 h18
        · rfl
        · cases hf : fillLens (3 + (_get r1 2).1) (lens.getD (n - 1) 0) n lens with
          | error f => rfl
          | ok q =>
            have := fillLens_count _ _ _ _ _ _ hf
            exact ih _ _ _ (by omega) more
        · cases hf : fillLens (3 + (_get r1 3).1) 0 n lens with
          | error f => rfl
          | ok q =>
            have := fillLens_count _ _ _ _ _ _ hf
            exact ih _ _ _ (by omega) more
        · cases hf : fillLens (11 + (_get r1 7).1) 0 n lens with
          | error f => rfl
          | ok q =>
            have := fillLens_count _ _ _ _ _ _ hf
            exact ih _ _ _ (by omega) more
        · cases hf : fillLens 1 (sym % 256) n lens with
          | error f => rfl
          | ok q =>
            have := fillLens_count _ _ _ _ _ _ hf
            exact ih _ _ _ (by omega) more
    · simp only [if_neg hn]

end Inflate

namespace Inflate

/-! ## Fixed-Huffman streams from the start of the input -/

/-- A stream that starts with a fixed-Huffman block header followed by the literals
`d`: after `d.length + 2` iterations the loop is in state `blk` with `d` written and
the reader at the bits that follow. -/
theorem run_fixed_start (last : Bool) (d : List Nat) (rest : List Bool) (fuel : Nat)
    (hd : ∀ b ∈ d, b < 256) (hrest : rest ≠ []) :
    ∃ r1, inflate (d.length + 2 + fuel)
        (packBytes (fixedHeader last ++ d.flatMap fixedCode ++ rest))
          = run fuel (fixedBlk r1 last.toNat d) ∧ Reads r1 rest := by
  have h0 := init_reads (fixedHeader last ++ d.flatMap fixedCode ++ rest)
  generalize hm0 : init (packBytes (fixedHeader last ++ d.flatMap fixedCode ++ rest)) = m0 at h0
  have hst : m0.state = .hdr := by rw [← hm0]; rfl
  have hlits : m0.lits = List.replicate 288 0 := by rw [← hm0]; rfl
  have hdsts : m0.dsts = List.replicate 32 0 := by rw [← hm0]; rfl
  have hlens : m0.lens = List.replicate 19 0 := by rw [← hm0]; rfl
  have htlen : m0.tlen = 0 := by rw [← hm0]; rfl
  have hout : m0.out = [] := by rw [← hm0]; rfl
  have h1 : Reads m0.r (fixedHeader last ++ (d.flatMap fixedCode ++ rest)) := by
    simpa [List.append_assoc] using h0
  obtain ⟨r1, s1, g1, _⟩ := step_fixedHeader hst h1
  have hc0 := loop_cond h1 (by simp [fixedHeader])
  have hc1 : r1.pos < r1.inp.length ∨ r1.bitcnt ≠ 0 := loop_cond g1 (by simp [hrest])
  have hc1' : ({ m0 with r := r1, last := last.toNat, state := .fixed } : Machine).r.pos
      < ({ m0 with r := r1, last := last.toNat, state := .fixed } : Machine).r.inp.length ∨
      ({ m0 with r := r1, last := last.toNat, state := .fixed } : Machine).r.bitcnt ≠ 0 := hc1
  have s2 := step_fixed (m := { m0 with r := r1, last := last.toNat, state := .fixed })
    rfl (by show m0.lits.length = 288; rw [hlits, List.length_replicate])
    (by show m0.dsts.length = 32; rw [hdsts, List.length_replicate])
  generalize hm1 : ({ m0 with r := r1, last := last.toNat, state := .fixed } : Machine) = m1
    at s1 s2
  have hblk : ({ m1 with lits := fixedLits, tlit := 288, dsts := fixedDsts, tdist := 32,
                         state := .blk } : Machine) = fixedBlk r1 last.toNat [] := by
    rw [← hm1]
    simp only [fixedBlk, hlens, htlen, hout]
  obtain ⟨r2, k1, k2, _⟩ := run_literals last.toNat rest d r1 [] fuel hd g1
  refine ⟨r2, ?_, k2⟩
  rw [inflate, hm0, show d.length + 2 + fuel = ((d.length + fuel) + 1) + 1 by omega,
    run_next _ hc0 s1, run_next _ (hm1 ▸ hc1') s2, hblk, k1]
  simp

end Inflate

/-- C2: for every byte sequence `d`, the stream made of one final fixed-Huffman block
with the bytes of `d` as literals followed by the end-of-block code, zero-padded to a
byte boundary, makes `inflate` return `d.length` with the bytes of `d` written; any
iteration budget of at least `d.length + 3` is enough. -/
theorem Inflate.fixed_literal_roundtrip (d : List Nat) (fuel : Nat)
    (hd : ∀ b ∈ d, b < 256) (hfuel : d.length + 3 ≤ fuel) :
    inflate fuel (encodeFixedLiterals d) = some (.done d) ∧
    (Outcome.done d).count = some d.length := by
  refine ⟨?_, rfl⟩
  obtain ⟨r1, h1, h2⟩ := run_fixed_start true d (fixedCode 256) (fuel - (d.length + 3) + 1) hd
    (fixedCode_ne_nil 256)
  have hc := loop_cond h2 (fixedCode_ne_nil 256)
  have h3 : Reads r1 (fixedCode 256 ++ []) := by simpa using h2
  have h4 := step_eob true.toNat d h3 (by decide)
  rw [encodeFixedLiterals, fixedLiteralBlock,
    show fuel = d.length + 2 + (fuel - (d.length + 3) + 1) by omega, h1,
    run_ret _ hc h4]

/-- C6: a fixed-Huffman block that encodes the literals `lits` followed by a
length/distance pair (length code `257 + k` with extra value `e`, distance code `j`
with extra value `f`) whose distance `dbase[j] + f` is greater than `lits.length`
makes `inflate` return `lits.length` with exactly the literals written, whatever
follows the pair. -/
theorem Inflate.distance_past_start_rejected (last : Bool) (lits : List Nat) (k e j f : Nat)
    (rest : List Bool) (fuel : Nat) (hl : ∀ b ∈ lits, b < 256) (hk : k < 29) (hj : j < 30)
    (hf : f < 2 ^ dbits.getD j 0) (hd : lits.length < dbase.getD j 0 + f)
    (hfuel : lits.length + 3 ≤ fuel) :
    inflate fuel
        (packBytes (fixedHeader last ++ lits.flatMap fixedCode ++ (fixedMatch k e j f ++ rest)))
      = some (.done lits) ∧
    (Outcome.done lits).count = some lits.length := by
  refine ⟨?_, rfl⟩
  have hne : fixedMatch k e j f ++ rest ≠ [] := by
    simp [fixedMatch, fixedCode_ne_nil]
  obtain ⟨r1, h1, h2⟩ := run_fixed_start last lits (fixedMatch k e j f ++ rest)
    (fuel - (lits.length + 3) + 1) hl hne
  have hc := loop_cond h2 hne
  have h4 := step_far last.toNat (e := e) hk hj hf hd h2
  rw [show fuel = lits.length + 2 + (fuel - (lits.length + 3) + 1) by omega, h1,
    run_ret _ hc h4]

/-- C7: whenever the loop is in state `hdr` and the header read has type 3, `inflate`
returns the bytes written before that header; in particular every input whose first
byte `b` has `(b >> 1) & 3 = 3` makes `inflate` return 0, for every iteration budget
of at least one. -/
theorem Inflate.invalid_block_type_terminates :
    (∀ (m : Machine) (fuel : Nat), m.state = .hdr →
      (m.r.pos < m.r.inp.length ∨ m.r.bitcnt ≠ 0) →
      (_get (_get m.r 1).2 2).1 = 3 → run (fuel + 1) m = some (.done m.out)) ∧
    (∀ (b : Nat) (rest : List Nat) (fuel : Nat), (b >>> 1) &&& 3 = 3 →
      inflate (fuel + 1) (b :: rest) = some (.done []) ∧
      (Outcome.done []).count = some 0) := by
  refine ⟨run_hdr_type3, ?_⟩
  intro b rest fuel hb
  refine ⟨?_, rfl⟩
  obtain ⟨h1, h2, _, _, _⟩ := first_header b rest
  exact run_hdr_type3 (init (b :: rest)) fuel rfl (cond_of_len (by omega)) (by rw [h2, hb])

/-- C8: whenever the loop is in state `stored` and the 16-bit length read is 0,
`inflate` returns the bytes written before that block and copies nothing; in
particular every input that starts with a stored-block header followed by `LEN = 0`
makes `inflate` return 0, for every iteration budget of at least two. -/
theorem Inflate.zero_length_stored_terminates :
    (∀ (m : Machine) (fuel : Nat), m.state = .stored →
      (m.r.pos < m.r.inp.length ∨ m.r.bitcnt ≠ 0) →
      (_get (_get m.r (m.r.bitcnt &&& 7)).2 16).1 = 0 →
      run (fuel + 1) m = some (.done m.out)) ∧
    (∀ (b : Nat) (rest : List Nat) (fuel : Nat), (b >>> 1) &&& 3 = 0 →
      inflate (fuel + 2) (b :: 0 :: 0 :: rest) = some (.done []) ∧
      (Outcome.done []).count = some 0) := by
  refine ⟨run_stored_len0, ?_⟩
  intro b rest fuel hb
  refine ⟨?_, rfl⟩
  obtain ⟨h1, h2, h3, h4, h5⟩ := first_header b (0 :: 0 :: rest)
  simp only [List.length_cons, leVal] at h1 h4 h5
  generalize hr2 : (_get (_get (init (b :: 0 :: 0 :: rest)).r 1).2 2).2 = r2 at h3 h4 h5
  have hstep : step (init (b :: 0 :: 0 :: rest))
      = .next { init (b :: 0 :: 0 :: rest) with
                r := r2, last := (_get (init (b :: 0 :: 0 :: rest)).r 1).1, state := .stored } := by
    have hs : step (init (b :: 0 :: 0 :: rest)) = stepHdr (init (b :: 0 :: 0 :: rest)) := rfl
    rw [hs, stepHdr]
    simp only [h2, hb, hr2]
  have ha : r2.bitcnt &&& 7 = 5 := by rw [bitcnt_and7 r2, h5]; omega
  obtain ⟨_, a2, a3, a4⟩ := get_val h3 5 (by omega) (by omega)
  obtain ⟨b1, _, _, _⟩ := get_val a4 16 (by omega) (by omega)
  have hlen0 : (_get (_get r2 (r2.bitcnt &&& 7)).2 16).1 = 0 := by
    rw [ha, b1, a2, h4]; omega
  rw [inflate, run_next (fuel + 1) (cond_of_len (by omega)) hstep]
  exact run_stored_len0 _ fuel rfl (cond_of_len (by show 0 < r2.len; omega)) hlen0

/-- C2, instance: the 7 bytes `F3 48 CD C9 C9 07 00` are the fixed-Huffman stream of
"Hello", and `inflate` returns 5 with "Hello" written. -/
theorem Inflate.fixed_literal_roundtrip_hello :
    (∀ b ∈ [72, 101, 108, 108, 111], b < 256) ∧
    encodeFixedLiterals [72, 101, 108, 108, 111] = [0xF3, 0x48, 0xCD, 0xC9, 0xC9, 0x07, 0x00] ∧
    inflate 8 [0xF3, 0x48, 0xCD, 0xC9, 0xC9, 0x07, 0x00] = some (.done [72, 101, 108, 108, 111]) ∧
    (Outcome.done [72, 101, 108, 108, 111]).count = some 5 := by
  have henc : encodeFixedLiterals [72, 101, 108, 108, 111]
      = [0xF3, 0x48, 0xCD, 0xC9, 0xC9, 0x07, 0x00] := by decide
  have h := Inflate.fixed_literal_roundtrip [72, 101, 108, 108, 111] 8 (by decide) (by decide)
  rw [henc] at h
  exact ⟨by decide, henc, h.1, h.2⟩

/-- C6, instance: the literal `a` followed by a match of length 3 at distance 2 is
rejected with one byte written. -/
theorem Inflate.distance_past_start_rejected_example :
    inflate 4 (packBytes (fixedHeader true ++ [97].flatMap fixedCode ++
        (fixedMatch 0 0 1 0 ++ fixedCode 256))) = some (.done [97]) ∧
    (Outcome.done [97]).count = some [97].length :=
  Inflate.distance_past_start_rejected true [97] 0 0 1 0 (fixedCode 256) 4
    (by decide) (by decide) (by decide) (by decide) (by decide) (by decide)

/-- C7, instance: the one-byte input `06` has block type 3 and `inflate` returns 0. -/
theorem Inflate.invalid_block_type_example :
    run 1 (init [0x06]) = some (.done (init [0x06]).out) ∧
    inflate 1 [0x06, 0x41] = some (.done []) :=
  ⟨Inflate.invalid_block_type_terminates.1 (init [0x06]) 0 rfl (by decide) (by decide),
   (Inflate.invalid_block_type_terminates.2 0x06 [0x41] 0 (by decide)).1⟩

/-- C8, instance: a stored-block header followed by `LEN = 0`. -/
theorem Inflate.zero_length_stored_example :
    inflate 2 [0x01, 0x00, 0x00, 0xFF, 0xFF] = some (.done []) :=
  (Inflate.zero_length_stored_terminates.2 0x01 [0xFF, 0xFF] 0 (by decide)).1

/-- C4: on the input `05 00 00 00`, a dynamic block whose code lengths are all zero,
`inflate` does not return within any iteration budget: every iteration writes a zero
byte and consumes no input bit. -/
theorem Inflate.all_zero_dynamic_block_diverges :
    (∀ fuel, inflate fuel [5, 0, 0, 0] = none) ∧
    (∀ out, step (stuck out) = .next (stuck (out ++ [0]))) ∧
    (∀ fuel, inflate (fuel + 2) [5, 0, 0, 0] = run fuel (stuck [])) := by
  refine ⟨?_, stuck_step, stuck_reached.2⟩
  intro fuel
  match fuel with
  | 0 => rfl
  | 1 => decide
  | fuel + 2 =>
    show run (fuel + 2) (init [5, 0, 0, 0]) = none
    rw [stuck_reached.2 fuel]
    exact stuck_run fuel []

set_option maxRecDepth 1000000 in
/-- C5: three inputs on which `inflate` leaves its objects: a dynamic block whose
first code-length symbol is 16 reads `lens[-1]`; a dynamic block with three runs of
138 zeros writes past `lens[319]`; a fixed block with distance symbol 30 copies from
an output byte that was not written. -/
theorem Inflate.out_of_bounds_accesses :
    inflate 4 [0x05, 0x00, 0x02, 0x00] = some (.fault .lensIndex) ∧
    inflate 4 [0xFD, 0x1F, 0x80, 0xC0, 0xDF, 0xDF, 0x1F] = some (.fault .lensIndex) ∧
    inflate 4 [0x4B, 0x04, 0x3E, 0x00] = some (.fault .outRead) := by
  refine ⟨by decide!, by decide!, ?_⟩
  rw [inflate_fixed_first _ 2 (by decide) (by decide) (by decide)]
  decide!

/-- C9: in a batch of two events, a hang-up on connection 1 followed by a readable
client event on connection 2, the loop refreshes the timer of connection 1 and leaves:
the task of connection 2 is not submitted. -/
theorem Maestro.event_after_faulty_dropped :
    dispatch 3 [⟨1, 7, false, true, true, false⟩, ⟨2, 8, false, false, true, false⟩]
      = [.update 1] ∧
    Action.submit 2 ∉
      dispatch 3 [⟨1, 7, false, true, true, false⟩, ⟨2, 8, false, false, true, false⟩] := by
  decide

/-- C10: the sweep at time `cur_time` leaves exactly the entries with
`cur_time - stamp < 10000`, in order and unchanged, and closes the socket of exactly
the entries with `cur_time - stamp >= 10000`. -/
theorem Maestro.expire_timers_boundary (cur_time : Int) (timers : List Timer) :
    (_expire_timers cur_time timers).1
      = timers.filter (fun t => decide (cur_time - t.stamp < 10000)) ∧
    (_expire_timers cur_time timers).2
      = (timers.filter (fun t => decide (cur_time - t.stamp ≥ 10000))).map (fun t => t.sockfd) := by
  have h := expireLoop_spec cur_time timers [] [] (by simp)
  simp only [List.nil_append] at h
  rw [_expire_timers, h]
  exact ⟨rfl, rfl⟩

/-- Round trip of fixed-Huffman streams: for every stream of fixed-Huffman blocks,
each holding literals and length/distance pairs allowed by RFC 1951 and starting at
the next bit, the final one flagged last, `inflate` returns the length of the LZ77 expansion of the tokens with
exactly that expansion written; an iteration budget of three plus the number of tokens
for every block is enough. -/
theorem Inflate.fixed_stream_roundtrip (blocks : List (List Token)) (fuel : Nat)
    (hne : blocks ≠ []) (hok : tokensOK blocks.flatten [] = true)
    (hfuel : (blocks.map (fun ts => ts.length + 3)).sum ≤ fuel) :
    inflate fuel (packBytes (fixedStream blocks)) = some (.done (expand blocks.flatten [])) ∧
    (Outcome.done (expand blocks.flatten [])).count = some (expand blocks.flatten []).length := by
  refine ⟨?_, rfl⟩
  have h0 := init_reads (fixedStream blocks)
  have h := run_stream blocks (init (packBytes (fixedStream blocks)))
    (fuel - (blocks.map (fun ts => ts.length + 3)).sum) hne rfl
    ⟨List.length_replicate _ _, List.length_replicate _ _, rfl, rfl⟩ hok h0
  rw [inflate, show fuel = (blocks.map (fun ts => ts.length + 3)).sum
    + (fuel - (blocks.map (fun ts => ts.length + 3)).sum) by omega]
  exact h

/-- Instance of the round trip of fixed-Huffman streams: a block with the literal `a`
and a match of length 3 at distance 1, followed by a final block with the literal `b`, gives `aaaab`. -/
theorem Inflate.fixed_stream_roundtrip_example :
    inflate 9 (packBytes (fixedStream [[.lit 97, .copy 0 0 0 0], [.lit 98]]))
      = some (.done [97, 97, 97, 97, 98]) :=
  (Inflate.fixed_stream_roundtrip [[.lit 97, .copy 0 0 0 0], [.lit 98]] 9
    (by decide) (by decide) (by decide)).1

set_option maxRecDepth 1000000 in
/-- The guard `!len` of `case stored`: the valid stream made of an empty stored block
that is not the last one, followed by the final fixed-Huffman block of "Hello", encodes the 5 bytes
of "Hello"; `inflate` returns 0. -/
theorem Inflate.roundtrip_fails_after_empty_stored_block :
    storedBlock false [] ++ encodeFixedLiterals [72, 101, 108, 108, 111]
      = [0x00, 0x00, 0x00, 0xFF, 0xFF, 0xF3, 0x48, 0xCD, 0xC9, 0xC9, 0x07, 0x00] ∧
    inflate 12 (storedBlock false [] ++ encodeFixedLiterals [72, 101, 108, 108, 111])
      = some (.done []) ∧
    (Outcome.done []).count = some 0 ∧
    inflate 12 (storedBlock false [] ++ encodeFixedLiterals [72, 101, 108, 108, 111])
      ≠ some (.done [72, 101, 108, 108, 111]) := by
  decide!

set_option maxRecDepth 1000000 in
/-- The payload of a stored block is taken from the `NLEN` word: on the valid stream
`01 01 00 FE FF 41`, one final stored block that holds the byte `41`, `inflate`
returns 1 with the byte `FE` written. -/
theorem Inflate.stored_payload_from_nlen :
    storedBlock true [0x41] = [0x01, 0x01, 0x00, 0xFE, 0xFF, 0x41] ∧
    inflate 4 (storedBlock true [0x41]) = some (.done [0xFE]) := by
  decide!

namespace Inflate

/-! ## Bit reader semantics -/

theorem leVal_testBit : ∀ (inp : List Nat) (k : Nat), (leVal inp).testBit k = streamBit inp k := by
  intro inp
  induction inp with
  | nil => intro k; simp [leVal, streamBit]
  | cons b bs ih =>
    intro k
    have hb : b % 256 < 2 ^ 8 := Nat.mod_lt _ (by norm_num)
    have e : leVal (b :: bs) = 2 ^ 8 * leVal bs + b % 256 := by
      rw [leVal]; omega
    rw [e, Nat.testBit_mul_pow_two_add _ hb]
    by_cases hk : k < 8
    · rw [if_pos hk]
      simp [streamBit, Nat.div_eq_of_lt hk, Nat.mod_eq_of_lt hk]
    · rw [if_neg hk, ih]
      have h1 : k / 8 = (k - 8) / 8 + 1 := by omega
      have h2 : k % 8 = (k - 8) % 8 := by omega
      simp [streamBit, h1, h2]

end Inflate

namespace Inflate

theorem refill_bitcnt_le (k : Nat) : ∀ r : Reader, r.bitcnt ≤ 23 → (refill k r).bitcnt ≤ 23 := by
  induction k with
  | zero => intro r h; exact h
  | succ k ih =>
    intro r h
    rw [refill]
    split
    · rename_i hc
      exact ih _ (by show r.bitcnt + 8 ≤ 23; omega)
    · exact h

theorem get_bitcnt_le (r : Reader) (n : Nat) (h : r.bitcnt ≤ 23) : (_get r n).2.bitcnt ≤ 23 :=
  refill_bitcnt_le 2 _ (by show r.bitcnt - n ≤ 23; omega)

/-- One call of `_get` with at most 16 bits on a reader that satisfies the invariant:
the value returned is the low `n` bits of the unread stream, which moves on by `n`
bits; past the end of the input the bits are 0. -/
theorem get_inv (r : Reader) (n : Nat) (h : r.Inv) (hn : n ≤ 16) :
    (_get r n).1 = r.val % 2 ^ n ∧ (_get r n).2.val = r.val / 2 ^ n ∧ (_get r n).2.Inv := by
  by_cases hc : n ≤ r.bitcnt
  · obtain ⟨g1, g2, _, _, g5⟩ := get_spec r n h.bits_lt hc h.pos_le
    exact ⟨g1, g2, g5⟩
  · have hp : r.inp.length ≤ r.pos := by
      rcases h.full with hf | hf
      · omega
      · exact hf
    have hv : r.val = r.bits := by
      rw [Reader.val, List.drop_of_length_le hp]
      simp [leVal]
    have hlt : r.bits < 2 ^ n :=
      Nat.lt_of_lt_of_le h.bits_lt (Nat.pow_le_pow_right (by norm_num) (by omega))
    rw [get_exhausted r n hp h.bits_lt (by omega), hv]
    refine ⟨(Nat.mod_eq_of_lt hlt).symm, ?_, ⟨?_, Or.inr hp, h.pos_le⟩⟩
    · rw [Nat.div_eq_of_lt hlt, Reader.val, List.drop_of_length_le hp]
      simp [leVal]
    · show 0 < 2 ^ 0
      norm_num

/-- The reader after the priming call `_get(0)` on the zeroed state. -/
theorem prime_inv (inp : List Nat) :
    (_get { inp := inp, pos := 0, bits := 0, bitcnt := 0 } 0).2.Inv ∧
    (_get { inp := inp, pos := 0, bits := 0, bitcnt := 0 } 0).2.val = leVal inp ∧
    (_get { inp := inp, pos := 0, bits := 0, bitcnt := 0 } 0).2.bitcnt ≤ 23 := by
  obtain ⟨_, g2, _, _, g5⟩ :=
    get_spec { inp := inp, pos := 0, bits := 0, bitcnt := 0 } 0
      (by simp) (Nat.le_refl _) (Nat.zero_le _)
  refine ⟨g5, ?_, get_bitcnt_le _ _ (by simp)⟩
  rw [g2]
  simp [Reader.val]

/-- A sequence of calls from a reader that satisfies the invariant. -/
theorem getSeq_spec : ∀ (ws : List Nat) (r : Reader), r.Inv → r.bitcnt ≤ 23 →
    (∀ n ∈ ws, n ≤ 16) →
    (getSeq r ws).length = ws.length ∧
    (∀ i, i < ws.length →
      ((getSeq r ws).map Prod.fst).getD i 0
        = r.val / 2 ^ (ws.take i).sum % 2 ^ ws.getD i 0) ∧
    (∀ q ∈ (getSeq r ws).map Prod.snd, q.bitcnt ≤ 23 ∧ q.bits < 2 ^ q.bitcnt) := by
  intro ws
  induction ws with
  | nil => intro r _ _ _; simp [getSeq]
  | cons n ns ih =>
    intro r hr hb hw
    obtain ⟨g1, g2, g3⟩ := get_inv r n hr (hw n (by simp))
    obtain ⟨i1, i2, i3⟩ := ih (_get r n).2 g3 (get_bitcnt_le r n hb)
      (fun m hm => hw m (by simp [hm]))
    refine ⟨by simp [getSeq, i1], ?_, ?_⟩
    · intro i hi
      match i with
      | 0 => simp [getSeq, g1]
      | i + 1 =>
        have := i2 i (by simpa using hi)
        simp only [getSeq, List.map_cons, List.getD_cons_succ, List.take_succ_cons,
          List.sum_cons]
        rw [this, g2, Nat.div_div_eq_div_mul, ← Nat.pow_add]
    · intro q hq
      simp only [getSeq, List.map_cons, List.mem_cons] at hq
      rcases hq with rfl | hq
      · exact ⟨get_bitcnt_le r n hb, g3.bits_lt⟩
      · exact i3 q hq

end Inflate

/-- C19: after the priming call `_get(0)` on the zeroed state, a sequence of calls
`_get(n_1)`, ..., `_get(n_k)` with every `n_i <= 16` returns, at call `i`, the integer
below `2 ^ n_i` whose bit `j` is bit number `n_1 + ... + n_(i-1) + j` of the input
stream (the bytes in order, least significant bit first, zero past the end of the
input); after the priming call and after every call `bitcnt <= 31` and the reservoir
has no bit set at or above `bitcnt`. -/
theorem Inflate.bit_reader_semantics (inp : List Nat) (ws : List Nat)
    (hw : ∀ n ∈ ws, n ≤ 16) :
    (∀ i, i < ws.length →
      ((getSeq (_get { inp := inp, pos := 0, bits := 0, bitcnt := 0 } 0).2 ws).map
          Prod.fst).getD i 0 < 2 ^ ws.getD i 0 ∧
      ∀ j, j < ws.getD i 0 →
        (((getSeq (_get { inp := inp, pos := 0, bits := 0, bitcnt := 0 } 0).2 ws).map
          Prod.fst).getD i 0).testBit j = streamBit inp ((ws.take i).sum + j)) ∧
    (∀ q ∈ (_get { inp := inp, pos := 0, bits := 0, bitcnt := 0 } 0).2 ::
        (getSeq (_get { inp := inp, pos := 0, bits := 0, bitcnt := 0 } 0).2 ws).map Prod.snd,
      q.bitcnt ≤ 31 ∧ q.bits < 2 ^ q.bitcnt) := by
  obtain ⟨p1, p2, p3⟩ := prime_inv inp
  obtain ⟨_, s2, s3⟩ := getSeq_spec ws _ p1 p3 hw
  refine ⟨?_, ?_⟩
  · intro i hi
    rw [s2 i hi, p2]
    refine ⟨Nat.mod_lt _ (Nat.two_pow_pos _), ?_⟩
    intro j hj
    rw [Nat.testBit_mod_two_pow, ← Nat.shiftRight_eq_div_pow, Nat.testBit_shiftRight,
      leVal_testBit, decide_eq_true hj, Bool.true_and]
  · intro q hq
    simp only [List.mem_cons] at hq
    rcases hq with rfl | hq
    · exact ⟨by omega, p1.bits_lt⟩
    · have := s3 q hq
      exact ⟨by omega, this.2⟩

/-- C19, instance: on the two bytes `A5 3C` the calls `_get(3)`, `_get(7)`, `_get(16)`
return `5`, `20` and `15`, the last one completed with zero bits. -/
theorem Inflate.bit_reader_semantics_example :
    (∀ n ∈ [3, 7, 16], n ≤ 16) ∧
    (getSeq (_get { inp := [0xA5, 0x3C], pos := 0, bits := 0, bitcnt := 0 } 0).2
      [3, 7, 16]).map Prod.fst = [5, 20, 15] ∧
    ∀ j, j < 7 → (20 : Nat).testBit j = streamBit [0xA5, 0x3C] (3 + j) :=
  ⟨by decide, by decide, fun j hj => by
    have h := ((Inflate.bit_reader_semantics [0xA5, 0x3C] [3, 7, 16] (by decide)).1 1
      (by decide)).2 j hj
    have e : ((getSeq (_get { inp := [0xA5, 0x3C], pos := 0, bits := 0, bitcnt := 0 } 0).2
      [3, 7, 16]).map Prod.fst).getD 1 0 = 20 := by decide
    rw [e] at h
    exact h⟩

namespace Inflate

/-! ## The ranges of the length and distance tables -/

theorem codeIndex_le (base : List Nat) (v : Nat) : ∀ n, codeIndex base v n ≤ n := by
  intro n
  induction n with
  | zero => exact Nat.le_refl _
  | succ n ih =>
    rw [codeIndex]
    split
    · exact Nat.le_refl _
    · omega

/-- When consecutive codes leave no gap, the code picked for `v` covers `v`. -/
theorem codeIndex_spec (base bits : List Nat) (v : Nat) (h0 : base.getD 0 0 ≤ v) :
    ∀ n, (∀ k, k < n → base.getD (k + 1) 0 ≤ base.getD k 0 + 2 ^ bits.getD k 0) →
      v < base.getD n 0 + 2 ^ bits.getD n 0 →
      base.getD (codeIndex base v n) 0 ≤ v ∧
      v < base.getD (codeIndex base v n) 0 + 2 ^ bits.getD (codeIndex base v n) 0 := by
  intro n
  induction n with
  | zero => intro _ h; exact ⟨h0, h⟩
  | succ n ih =>
    intro hc h
    rw [codeIndex]
    split
    · rename_i hle
      exact ⟨hle, h⟩
    · rename_i hle
      have := hc n (Nat.lt_succ_self n)
      exact ih (fun k hk => hc k (by omega)) (by omega)

/-- The distance codes in order: every code starts where the previous one ends. -/
theorem dbase_chain : ∀ k, k < 29 → dbase.getD (k + 1) 0 = dbase.getD k 0 + 2 ^ dbits.getD k 0 := by
  decide

/-- The length codes in order, the last one apart. -/
theorem lbase_chain : ∀ k, k < 27 → lbase.getD (k + 1) 0 = lbase.getD k 0 + 2 ^ lbits.getD k 0 := by
  decide

/-- A table whose codes follow each other without overlap is increasing. -/
theorem base_mono (base bits : List Nat) (n : Nat)
    (hc : ∀ k, k < n → base.getD k 0 + 2 ^ bits.getD k 0 ≤ base.getD (k + 1) 0) :
    ∀ d k, k + d ≤ n → base.getD k 0 ≤ base.getD (k + d) 0 := by
  intro d
  induction d with
  | zero => intro k _; exact Nat.le_refl _
  | succ d ih =>
    intro k h
    have h1 := ih k (by omega)
    have h2 := hc (k + d) (by omega)
    have : 0 < 2 ^ bits.getD (k + d) 0 := Nat.two_pow_pos _
    rw [show k + (d + 1) = k + d + 1 by omega]
    omega

/-- Two codes of such a table that produce the same value are the same code. -/
theorem base_unique (base bits : List Nat) (n : Nat)
    (hc : ∀ k, k < n → base.getD k 0 + 2 ^ bits.getD k 0 ≤ base.getD (k + 1) 0)
    {k1 e1 k2 e2 : Nat} (h1 : k1 ≤ n) (h2 : k2 ≤ n)
    (he1 : e1 < 2 ^ bits.getD k1 0) (he2 : e2 < 2 ^ bits.getD k2 0)
    (h : base.getD k1 0 + e1 = base.getD k2 0 + e2) : k1 = k2 ∧ e1 = e2 := by
  have hm := base_mono base bits n hc
  have key : ∀ a b ea eb, a < b → b ≤ n → ea < 2 ^ bits.getD a 0 →
      base.getD a 0 + ea < base.getD b 0 + eb := by
    intro a b ea eb hab hb hea
    have h3 := hc a (by omega)
    have h4 := hm (b - (a + 1)) (a + 1) (by omega)
    rw [show a + 1 + (b - (a + 1)) = b by omega] at h4
    omega
  rcases Nat.lt_trichotomy k1 k2 with hlt | heq | hgt
  · have := key k1 k2 e1 e2 hlt h2 he1; omega
  · subst heq; exact ⟨rfl, by omega⟩
  · have := key k2 k1 e2 e1 hgt h1 he2; omega

end Inflate

/-- C20: the length codes `k` in `0..28` with extra value `e < 2 ^ lbits[k]` produce
`lbase[k] + e`, and the set of these values is exactly `3..258`, with `lbase[0] = 3`,
`lbase[k+1] = lbase[k] + 2 ^ lbits[k]` for `k` in `0..26`, `lbase[28] = 258` and no
extra bits for code 28; the distance codes `k` in `0..29` with `e < 2 ^ dbits[k]`
produce every distance in `1..32768` from exactly one pair `(k, e)`, and no other
value. -/
theorem Inflate.length_distance_ranges :
    lbase.getD 0 0 = 3 ∧
    (∀ k, k < 27 → lbase.getD (k + 1) 0 = lbase.getD k 0 + 2 ^ lbits.getD k 0) ∧
    lbase.getD 28 0 = 258 ∧ lbits.getD 28 0 = 0 ∧
    (∀ v, (∃ k e, k < 29 ∧ e < 2 ^ lbits.getD k 0 ∧ lbase.getD k 0 + e = v)
      ↔ (3 ≤ v ∧ v ≤ 258)) ∧
    (∀ d, 1 ≤ d → d ≤ 32768 →
      ∃ k e, k < 30 ∧ e < 2 ^ dbits.getD k 0 ∧ dbase.getD k 0 + e = d ∧
        ∀ k2 e2, k2 < 30 → e2 < 2 ^ dbits.getD k2 0 → dbase.getD k2 0 + e2 = d →
          k2 = k ∧ e2 = e) ∧
    (∀ k e, k < 30 → e < 2 ^ dbits.getD k 0 →
      1 ≤ dbase.getD k 0 + e ∧ dbase.getD k 0 + e ≤ 32768) := by
  have hl1 : ∀ k, k < 29 → 3 ≤ lbase.getD k 0 ∧ lbase.getD k 0 + 2 ^ lbits.getD k 0 ≤ 259 := by
    decide
  have hl2 : ∀ k, k < 28 → lbase.getD (k + 1) 0 ≤ lbase.getD k 0 + 2 ^ lbits.getD k 0 := by
    decide
  have hd1 : ∀ k, k < 30 → 1 ≤ dbase.getD k 0 ∧ dbase.getD k 0 + 2 ^ dbits.getD k 0 ≤ 32769 := by
    decide
  have hdc : ∀ k, k < 29 → dbase.getD k 0 + 2 ^ dbits.getD k 0 ≤ dbase.getD (k + 1) 0 :=
    fun k hk => Nat.le_of_eq (dbase_chain k hk).symm
  refine ⟨by decide, lbase_chain, by decide, by decide, ?_, ?_, ?_⟩
  · intro v
    constructor
    · rintro ⟨k, e, hk, he, rfl⟩
      have := hl1 k hk
      omega
    · rintro ⟨h3, h258⟩
      have hs := codeIndex_spec lbase lbits v
        (by have : lbase.getD 0 0 = 3 := by decide
            omega) 28 hl2
        (by have : lbase.getD 28 0 + 2 ^ lbits.getD 28 0 = 259 := by decide
            omega)
      have hle := codeIndex_le lbase v 28
      exact ⟨codeIndex lbase v 28, v - lbase.getD (codeIndex lbase v 28) 0, by omega,
        by omega, by omega⟩
  · intro d h1 h2
    have hs := codeIndex_spec dbase dbits d
      (by have : dbase.getD 0 0 = 1 := by decide
          omega) 29
      (fun k hk => Nat.le_of_eq (dbase_chain k hk))
      (by have : dbase.getD 29 0 + 2 ^ dbits.getD 29 0 = 32769 := by decide
          omega)
    have hle := codeIndex_le dbase d 29
    refine ⟨codeIndex dbase d 29, d - dbase.getD (codeIndex dbase d 29) 0, by omega,
      by omega, by omega, ?_⟩
    intro k2 e2 hk2 he2 heq
    exact base_unique dbase dbits 29 hdc (by omega) (by omega) he2 (by omega)
      (by omega)
  · intro k e hk he
    have := hd1 k hk
    omega

namespace Inflate

/-! ## Streams of fixed-Huffman blocks followed by more input -/

theorem tokensOK_append : ∀ (a b : List Token) (out : List Nat),
    tokensOK (a ++ b) out = (tokensOK a out && tokensOK b (expand a out)) := by
  intro a
  induction a with
  | nil => intro b out; simp [tokensOK, expand]
  | cons t a iha => intro b out; simp [tokensOK, expand, iha, Bool.and_assoc]

theorem expand_append : ∀ (a b : List Token) (out : List Nat),
    expand (a ++ b) out = expand b (expand a out) := by
  intro a
  induction a with
  | nil => intro b out; rfl
  | cons t a iha => intro b out; simp [expand, iha]

/-- A stream of fixed-Huffman blocks from state `hdr`, whatever follows the
end-of-block code of the last block: the call returns there. -/
theorem run_stream_rest (tail : List Bool) : ∀ (blocks : List (List Token)) (m : Machine)
    (fuel : Nat), blocks ≠ [] → m.state = .hdr → FixedSoFar m →
    tokensOK blocks.flatten m.out = true → Reads m.r (fixedStream blocks ++ tail) →
    run ((blocks.map (fun ts => ts.length + 3)).sum + fuel) m
      = some (.done (expand blocks.flatten m.out)) := by
  intro blocks
  induction blocks with
  | nil => intro m fuel h; exact absurd rfl h
  | cons ts rest ih =>
    intro m fuel _ hm ht hok hr
    have hok1 : tokensOK ts m.out = true ∧ tokensOK rest.flatten (expand ts m.out) = true := by
      rw [List.flatten_cons, tokensOK_append, Bool.and_eq_true] at hok
      exact hok
    have hexp : expand (ts :: rest).flatten m.out = expand rest.flatten (expand ts m.out) := by
      rw [List.flatten_cons, expand_append]
    cases rest with
    | nil =>
      have hr1 : Reads m.r (fixedBlock true ts ++ tail) := by simpa [fixedStream] using hr
      obtain ⟨r1, k1, k2⟩ := run_block_body true ts tail (fuel + 1) hm ht hok1.1 hr1
      have hc := loop_cond k2 (by simp [fixedCode_ne_nil])
      have h4 := step_eob true.toNat (expand ts m.out) k2 (by decide)
      rw [hexp]
      simp only [List.map_cons, List.map_nil, List.sum_cons, List.sum_nil, List.flatten_nil,
        expand]
      rw [show ts.length + 3 + 0 + fuel = ts.length + 2 + (fuel + 1) by omega, k1,
        run_ret _ hc h4]
    | cons t2 rest2 =>
      have hr1 : Reads m.r (fixedBlock false ts ++ (fixedStream (t2 :: rest2) ++ tail)) := by
        simpa [fixedStream, List.append_assoc] using hr
      obtain ⟨r1, k1, k2⟩ := run_block_body false ts (fixedStream (t2 :: rest2) ++ tail)
        ((((t2 :: rest2).map (fun ts => ts.length + 3)).sum + fuel) + 1) hm ht hok1.1 hr1
      have hc := loop_cond k2 (by simp [fixedCode_ne_nil])
      obtain ⟨r2, g1, g2, _⟩ := decode_fixedLit (by omega : 256 < 288) k2
      have h4 : step (fixedBlk r1 false.toNat (expand ts m.out))
          = .next { fixedBlk r1 false.toNat (expand ts m.out) with r := r2, state := .hdr } :=
        stepBlk_eob_next (m := fixedBlk r1 false.toNat (expand ts m.out)) g1 rfl
      have hnext := ih
        { fixedBlk r1 false.toNat (expand ts m.out) with r := r2, state := .hdr } fuel
        (by simp) rfl ⟨fixedLits_length, fixedDsts_length, rfl, rfl⟩ hok1.2 g2
      rw [hexp]
      rw [show ((ts :: t2 :: rest2).map (fun ts => ts.length + 3)).sum + fuel
          = ts.length + 2 + ((((t2 :: rest2).map (fun ts => ts.length + 3)).sum + fuel) + 1) by
        simp only [List.map_cons, List.sum_cons]; omega, k1, run_next _ hc h4]
      exact hnext

/-- The same from the start of `inflate`. -/
theorem inflate_stream_rest (tail : List Bool) (blocks : List (List Token)) (fuel : Nat)
    (hne : blocks ≠ []) (hok : tokensOK blocks.flatten [] = true)
    (hfuel : (blocks.map (fun ts => ts.length + 3)).sum ≤ fuel) :
    inflate fuel (packBytes (fixedStream blocks ++ tail))
      = some (.done (expand blocks.flatten [])) := by
  have h0 := init_reads (fixedStream blocks ++ tail)
  have h := run_stream_rest tail blocks (init (packBytes (fixedStream blocks ++ tail)))
    (fuel - (blocks.map (fun ts => ts.length + 3)).sum) hne rfl
    ⟨List.length_replicate _ _, List.length_replicate _ _, rfl, rfl⟩ hok h0
  rw [inflate, show fuel = (blocks.map (fun ts => ts.length + 3)).sum
    + (fuel - (blocks.map (fun ts => ts.length + 3)).sum) by omega]
  exact h

theorem literal_tokens_bits (d : List Nat) :
    (d.map Token.lit).flatMap Token.bits = d.flatMap fixedCode := by
  induction d with
  | nil => rfl
  | cons b d ih => simp [List.flatMap_cons, Token.bits, ih]

theorem literal_block_eq (last : Bool) (d : List Nat) :
    fixedLiteralBlock last d = fixedBlock last (d.map Token.lit) := by
  rw [fixedLiteralBlock, fixedBlock, literal_tokens_bits]

theorem literal_tokens_ok : ∀ (d : List Nat) (out : List Nat), (∀ b ∈ d, b < 256) →
    tokensOK (d.map Token.lit) out = true := by
  intro d
  induction d with
  | nil => intro out _; rfl
  | cons b d ih =>
    intro out h
    simp only [List.map_cons, tokensOK, Token.ok, Bool.and_eq_true, decide_eq_true_eq]
    exact ⟨h b (by simp), ih _ (fun x hx => h x (by simp [hx]))⟩

theorem literal_tokens_expand : ∀ (d : List Nat) (out : List Nat),
    expand (d.map Token.lit) out = out ++ d := by
  intro d
  induction d with
  | nil => intro out; simp [expand]
  | cons b d ih => intro out; simp [expand, Token.apply, ih]

end Inflate

/-- C14: for all byte sequences `d1` and `d2`, the stream made of a fixed-Huffman block
with `last = 0` that holds `d1` as literals and the end-of-block code, followed at the
next bit by a fixed-Huffman block with `last = 1` that holds `d2` and the end-of-block
code, makes `inflate` return `|d1| + |d2|` with `d1` followed by `d2` written, whatever
bits (and so whatever input bytes) follow the second end-of-block code; an iteration
budget of `|d1| + |d2| + 6` is enough. -/
theorem Inflate.two_fixed_blocks (d1 d2 : List Nat) (tail : List Bool) (fuel : Nat)
    (h1 : ∀ b ∈ d1, b < 256) (h2 : ∀ b ∈ d2, b < 256)
    (hfuel : d1.length + d2.length + 6 ≤ fuel) :
    inflate fuel
        (packBytes (fixedLiteralBlock false d1 ++ fixedLiteralBlock true d2 ++ tail))
      = some (.done (d1 ++ d2)) ∧
    (Outcome.done (d1 ++ d2)).count = some (d1.length + d2.length) := by
  refine ⟨?_, by simp [Outcome.count]⟩
  have hok : tokensOK [d1.map Token.lit, d2.map Token.lit].flatten [] = true := by
    have : [d1.map Token.lit, d2.map Token.lit].flatten = (d1 ++ d2).map Token.lit := by simp
    rw [this]
    exact literal_tokens_ok _ _ (fun b hb => by
      rcases List.mem_append.1 hb with h | h
      · exact h1 b h
      · exact h2 b h)
  have h := inflate_stream_rest tail [d1.map Token.lit, d2.map Token.lit] fuel (by simp) hok
    (by simp; omega)
  have e1 : fixedStream [d1.map Token.lit, d2.map Token.lit]
      = fixedLiteralBlock false d1 ++ fixedLiteralBlock true d2 := by
    simp [fixedStream, literal_block_eq]
  have e2 : expand [d1.map Token.lit, d2.map Token.lit].flatten [] = d1 ++ d2 := by
    have : [d1.map Token.lit, d2.map Token.lit].flatten = (d1 ++ d2).map Token.lit := by simp
    rw [this, literal_tokens_expand]
    rfl
  rw [e1, e2] at h
  exact h

/-- C14, instance: the block of `He` with `last = 0`, the block of `llo` with
`last = 1`, then 8 more set bits: `inflate` returns the 5 bytes of `Hello`. -/
theorem Inflate.two_fixed_blocks_example :
    inflate 11 (packBytes (fixedLiteralBlock false [72, 101] ++
        fixedLiteralBlock true [108, 108, 111] ++ List.replicate 8 true))
      = some (.done [72, 101, 108, 108, 111]) :=
  (Inflate.two_fixed_blocks [72, 101] [108, 108, 111] (List.replicate 8 true) 11
    (by decide) (by decide) (by decide)).1

namespace Inflate

/-! ## Matches -/

theorem length_code (len : Nat) (h3 : 3 ≤ len) (h258 : len ≤ 258) :
    codeIndex lbase len 28 < 29 ∧
    len - lbase.getD (codeIndex lbase len 28) 0 < 2 ^ lbits.getD (codeIndex lbase len 28) 0 ∧
    lbase.getD (codeIndex lbase len 28) 0 + (len - lbase.getD (codeIndex lbase len 28) 0)
      = len := by
  have hl2 : ∀ k, k < 28 → lbase.getD (k + 1) 0 ≤ lbase.getD k 0 + 2 ^ lbits.getD k 0 := by
    decide
  have hs := codeIndex_spec lbase lbits len
    (by have : lbase.getD 0 0 = 3 := by decide
        omega) 28 hl2
    (by have : lbase.getD 28 0 + 2 ^ lbits.getD 28 0 = 259 := by decide
        omega)
  have hle := codeIndex_le lbase len 28
  exact ⟨by omega, by omega, by omega⟩

theorem distance_code (dist : Nat) (h1 : 1 ≤ dist) (h2 : dist ≤ 32768) :
    codeIndex dbase dist 29 < 30 ∧
    dist - dbase.getD (codeIndex dbase dist 29) 0 < 2 ^ dbits.getD (codeIndex dbase dist 29) 0 ∧
    dbase.getD (codeIndex dbase dist 29) 0 + (dist - dbase.getD (codeIndex dbase dist 29) 0)
      = dist := by
  have hs := codeIndex_spec dbase dbits dist
    (by have : dbase.getD 0 0 = 1 := by decide
        omega) 29
    (fun k hk => Nat.le_of_eq (dbase_chain k hk))
    (by have : dbase.getD 29 0 + 2 ^ dbits.getD 29 0 = 32769 := by decide
        omega)
  have hle := codeIndex_le dbase dist 29
  exact ⟨by omega, by omega, by omega⟩

theorem encode_ok (out : List Nat) (t : Lz) (h : t.ok out = true) :
    t.encode.ok out = true ∧ t.encode.apply out = t.apply out := by
  cases t with
  | lit b => exact ⟨h, rfl⟩
  | copy len dist =>
    simp only [Lz.ok, Bool.and_eq_true, decide_eq_true_eq] at h
    obtain ⟨⟨⟨⟨h3, h258⟩, hd1⟩, hd2⟩, hd3⟩ := h
    obtain ⟨a1, a2, a3⟩ := length_code len h3 h258
    obtain ⟨b1, b2, b3⟩ := distance_code dist hd1 hd2
    constructor
    · simp only [Lz.encode, Token.ok, Bool.and_eq_true, decide_eq_true_eq]
      exact ⟨⟨⟨⟨a1, a2⟩, b1⟩, b2⟩, by omega⟩
    · simp only [Lz.encode, Token.apply, Lz.apply, a3, b3]

theorem encode_all : ∀ (ts : List Lz) (out : List Nat), lzOK ts out = true →
    tokensOK (ts.map Lz.encode) out = true ∧ expand (ts.map Lz.encode) out = lzExpand ts out := by
  intro ts
  induction ts with
  | nil => intro out _; exact ⟨rfl, rfl⟩
  | cons t ts ih =>
    intro out h
    simp only [lzOK, Bool.and_eq_true] at h
    obtain ⟨e1, e2⟩ := encode_ok out t h.1
    obtain ⟨i1, i2⟩ := ih (t.apply out) h.2
    simp only [List.map_cons, tokensOK, expand, lzExpand, e1, e2, i1, i2, Bool.and_self]
    exact ⟨trivial, trivial⟩

/-- A copy leaves the bytes written before it as they are. -/
theorem lzCopy_old (dist : Nat) : ∀ (len : Nat) (out : List Nat) (i : Nat), i < out.length →
    (lzCopy len dist out).getD i 0 = out.getD i 0 := by
  intro len
  induction len with
  | zero => intro out i _; rfl
  | succ len ih =>
    intro out i hi
    rw [lzCopy, ih _ i (by simp; omega)]
    simp [List.getD_eq_getElem?_getD, List.getElem?_append_left hi]

/-- Every byte of a copy equals the byte `dist` positions before it. -/
theorem lzCopy_new (dist : Nat) (hd : 1 ≤ dist) : ∀ (len : Nat) (out : List Nat) (i : Nat),
    dist ≤ out.length → i < len →
    (lzCopy len dist out).getD (out.length + i) 0
      = (lzCopy len dist out).getD (out.length + i - dist) 0 := by
  intro len
  induction len with
  | zero => intro out i _ hi; omega
  | succ len ih =>
    intro out i ho hi
    rw [lzCopy]
    match i with
    | 0 =>
      rw [Nat.add_zero, lzCopy_old dist len _ _ (by simp), lzCopy_old dist len _ _ (by simp; omega)]
      simp only [List.getD_eq_getElem?_getD]
      rw [List.getElem?_append_right (Nat.le_refl _),
        List.getElem?_append_left (by omega)]
      simp
    | i + 1 =>
      have := ih (out ++ [out.getD (out.length - dist) 0]) i (by simp; omega) (by omega)
      simp only [List.length_append, List.length_singleton] at this
      rw [show out.length + (i + 1) = out.length + 1 + i by omega]
      exact this

/-- A copy at distance 1 repeats the last byte. -/
theorem lzCopy_one : ∀ (len : Nat) (out : List Nat), 1 ≤ out.length →
    lzCopy len 1 out = out ++ List.replicate len (out.getD (out.length - 1) 0) := by
  intro len
  induction len with
  | zero => intro out _; simp [lzCopy]
  | succ len ih =>
    intro out h
    rw [lzCopy, ih _ (by simp)]
    have : (out ++ [out.getD (out.length - 1) 0]).getD
        ((out ++ [out.getD (out.length - 1) 0]).length - 1) 0 = out.getD (out.length - 1) 0 := by
      simp [List.getD_eq_getElem?_getD]
    rw [this, List.append_assoc, List.replicate_succ]
    rfl

end Inflate

/-- C13: for every sequence of LZ77 tokens, literal bytes and matches with length in
`3..258` and distance in `1..32768` not above the number of bytes produced before the
match, the single final fixed-Huffman block that encodes the tokens makes `inflate`
return the length of the LZ77 expansion with exactly that expansion written; a match
`(len, dist)` appends `len` bytes and changes none of the earlier ones, each appended
byte equals the byte `dist` positions before it, and a match at distance 1 repeats the
last byte `len` times. An iteration budget of the number of tokens plus 3 is enough. -/
theorem Inflate.match_expansion (ts : List Lz) (fuel : Nat) (hok : lzOK ts [] = true)
    (hfuel : ts.length + 3 ≤ fuel) :
    inflate fuel (packBytes (fixedBlock true (ts.map Lz.encode)))
      = some (.done (lzExpand ts [])) ∧
    (Outcome.done (lzExpand ts [])).count = some (lzExpand ts []).length ∧
    (∀ len dist out, 1 ≤ dist → dist ≤ out.length →
      (lzCopy len dist out).length = out.length + len ∧
      (∀ i, i < out.length → (lzCopy len dist out).getD i 0 = out.getD i 0) ∧
      (∀ i, i < len → (lzCopy len dist out).getD (out.length + i) 0
        = (lzCopy len dist out).getD (out.length + i - dist) 0)) ∧
    (∀ len out, 1 ≤ out.length →
      lzCopy len 1 out = out ++ List.replicate len (out.getD (out.length - 1) 0)) := by
  obtain ⟨e1, e2⟩ := encode_all ts [] hok
  refine ⟨?_, rfl, ?_, lzCopy_one⟩
  · have h := inflate_stream_rest [] [ts.map Lz.encode] fuel (by simp)
      (by simpa using e1) (by simpa using hfuel)
    simp only [fixedStream, List.append_nil, List.flatten_cons, List.flatten_nil] at h
    rw [h, e2]
  · intro len dist out h1 h2
    exact ⟨lzCopy_length len dist out, lzCopy_old dist len out,
      fun i hi => lzCopy_new dist h1 len out i h2 hi⟩

/-- C13, instance: the literals `a`, `b` and a match of length 5 at distance 2 expand
to `abababa`. -/
theorem Inflate.match_expansion_example :
    lzOK [.lit 97, .lit 98, .copy 5 2] [] = true ∧
    inflate 6 (packBytes (fixedBlock true ([.lit 97, .lit 98, .copy 5 2].map Lz.encode)))
      = some (.done [97, 98, 97, 98, 97, 98, 97]) :=
  ⟨by decide, (Inflate.match_expansion [.lit 97, .lit 98, .copy 5 2] 6 (by decide)
    (by decide)).1⟩

namespace Inflate

/-! ## `_decode` on the reservoir alone -/

/-- The result of `_decode` depends on the low bits of the reservoir only: when they are
the code of slot `i`, the symbol of slot `i` is returned and `_get` is called with the
length of the code. -/
theorem decode_bits {T : List Nat} {f : Nat → Nat} {max i : Nat} (hT : Holds T f max)
    (h : tableOK f max = true) (hi : i < max) (r : Reader)
    (hb : r.bits % 2 ^ slotLen f i = bitsVal (codeBits (slotCode f i) (slotLen f i))) :
    _decode r T max = .ok (slotSym f i, (_get r (slotLen f i)).2) := by
  obtain ⟨hL1, hL15, he32, _, hnext⟩ := entry_facts h hi
  obtain ⟨hsplit, hc⟩ := entry_split h hi
  have hrev : revBits 16 r.bits / 2 ^ (16 - slotLen f i) = slotCode f i := by
    have h16 : revBits 16 r.bits = revBits (slotLen f i + (16 - slotLen f i)) r.bits := by
      congr 1; omega
    have hcb := revBits_codeBits (slotLen f i) (slotCode f i) []
    rw [List.append_nil] at hcb
    rw [h16, revBits_div, ← revBits_mod, hb, hcb, Nat.mod_eq_of_lt hc]
  have hp16 : 0 < 2 ^ (16 - slotLen f i) := Nat.two_pow_pos _
  have hpow : 2 ^ (32 - slotLen f i) = 2 ^ (16 - slotLen f i) * 65536 := by
    rw [show (65536 : Nat) = 2 ^ 16 from rfl, ← Nat.pow_add]; congr 1; omega
  have hR1 : slotCode f i * 2 ^ (16 - slotLen f i) ≤ revBits 16 r.bits := by
    rw [← hrev]; exact Nat.div_mul_le_self _ _
  have hR2 : revBits 16 r.bits < (slotCode f i + 1) * 2 ^ (16 - slotLen f i) := by
    rw [← hrev]
    have := Nat.lt_mul_div_succ (revBits 16 r.bits) hp16
    rw [Nat.mul_comm]; exact this
  have hlow16 : f i % 65536 < 65536 := Nat.mod_lt _ (by norm_num)
  have hS1 : f i ≤ revBits 16 r.bits * 65536 + 65535 := by
    have := Nat.mul_le_mul_right 65536 hR1
    rw [Nat.mul_assoc, ← hpow] at this
    omega
  have hS2 : revBits 16 r.bits * 65536 + 65535 < (slotCode f i + 1) * 2 ^ (32 - slotLen f i) := by
    have : (revBits 16 r.bits + 1) * 65536 ≤ (slotCode f i + 1) * 2 ^ (16 - slotLen f i) * 65536 :=
      Nat.mul_le_mul_right 65536 hR2
    rw [Nat.mul_assoc, ← hpow] at this
    omega
  have hmono := table_mono h
  have hbs : bsearch T (revBits 16 r.bits * 65536 + 65535) max 0 max = i + 1 := by
    apply bsearch_eq T _ max (i + 1)
    · intro j hj
      have := hmono (i - j) j (by omega)
      rw [show j + (i - j) = i by omega] at this
      rw [hT.get j (by omega)]
      omega
    · intro j hj1 hj2
      have h1 := hnext (by omega)
      have := hmono (j - (i + 1)) (i + 1) (by omega)
      rw [show i + 1 + (j - (i + 1)) = j by omega] at this
      rw [hT.get j hj2]
      omega
    · omega
    · omega
    · exact Nat.le_refl _
    · omega
  have hlen := hT.len
  have hkey0 : T.getD i 0 = f i := hT.get i hi
  have hkey1 : f i &&& 0x0f = slotLen f i := Nat.and_pow_two_sub_one_eq_mod _ 4
  have hkey2 : (f i >>> 4) &&& 0x0fff = slotSym f i := by
    rw [Nat.shiftRight_eq_div_pow]; exact Nat.and_pow_two_sub_one_eq_mod _ 12
  rw [_decode, if_neg (by omega)]
  simp only [search_eq, hbs, Nat.add_sub_cancel, hkey0, hkey1, hkey2]
  simp

/-- The fields of a packed word. -/
theorem packed_fields (c n L : Nat) (hL1 : 1 ≤ L) (hL15 : L ≤ 15) (hc : c < 2 ^ L)
    (hn : n < 4096) :
    (c * 2 ^ (32 - L) + n * 16 + L) % 16 = L ∧
    (c * 2 ^ (32 - L) + n * 16 + L) / 16 % 4096 = n ∧
    (c * 2 ^ (32 - L) + n * 16 + L) / 2 ^ (32 - L) = c ∧
    c * 2 ^ (32 - L) + n * 16 + L < 2 ^ 32 ∧
    (c * 2 ^ (32 - L) + n * 16 + L) / 65536 % 2 ^ (16 - L) = 0 := by
  have hp : 2 ^ (32 - L) = 65536 * 2 ^ (16 - L) := by
    rw [show (65536 : Nat) = 2 ^ 16 from rfl, ← Nat.pow_add]; congr 1; omega
  have hP : 0 < 2 ^ (16 - L) := Nat.two_pow_pos _
  have hcP : c * 2 ^ (16 - L) + 2 ^ (16 - L) ≤ 65536 := by
    have h1 : (c + 1) * 2 ^ (16 - L) ≤ 2 ^ L * 2 ^ (16 - L) := Nat.mul_le_mul_right _ hc
    rw [← Nat.pow_add, show L + (16 - L) = 16 by omega, Nat.add_mul, Nat.one_mul] at h1
    exact h1
  have hw : c * 2 ^ (32 - L) + n * 16 + L = 65536 * (c * 2 ^ (16 - L)) + (n * 16 + L) := by
    rw [hp]; ring
  generalize c * 2 ^ (32 - L) + n * 16 + L = w at hw
  have hdiv : w / 65536 = c * 2 ^ (16 - L) := by omega
  refine ⟨by omega, by omega, ?_, by omega, ?_⟩
  · rw [hp, ← Nat.div_div_eq_div_mul, hdiv, Nat.mul_div_cancel _ hP]
  · rw [hdiv, Nat.mul_mod_left]

end Inflate

namespace Inflate

/-- A table of packed words that holds canonical codes in order passes the check
`tableOK`, and its fields are the codes, lengths and symbols. -/
theorem canonical_tableOK (max : Nat) (code len sym : Nat → Nat)
    (hlen : ∀ i, i < max → 1 ≤ len i ∧ len i ≤ 15)
    (hsym : ∀ i, i < max → sym i < 4096)
    (hcode : ∀ i, i < max → code i < 2 ^ len i)
    (hnext : ∀ i, i + 1 < max →
      len i ≤ len (i + 1) ∧ code (i + 1) = (code i + 1) * 2 ^ (len (i + 1) - len i)) :
    tableOK (fun i => code i * 2 ^ (32 - len i) + sym i * 16 + len i) max = true ∧
    ∀ i, i < max →
      slotLen (fun i => code i * 2 ^ (32 - len i) + sym i * 16 + len i) i = len i ∧
      slotCode (fun i => code i * 2 ^ (32 - len i) + sym i * 16 + len i) i = code i ∧
      slotSym (fun i => code i * 2 ^ (32 - len i) + sym i * 16 + len i) i = sym i := by
  constructor
  · simp only [tableOK, List.all_eq_true, List.mem_range]
    intro i hi
    obtain ⟨p1, p2, p3, p4, p5⟩ := packed_fields (code i) (sym i) (len i) (hlen i hi).1
      (hlen i hi).2 (hcode i hi) (hsym i hi)
    simp only [entryOK, Bool.and_eq_true, Bool.or_eq_true, decide_eq_true_eq]
    rw [p1, p3]
    refine ⟨⟨⟨⟨(hlen i hi).1, (hlen i hi).2⟩, p4⟩, p5⟩, ?_⟩
    by_cases hl : i + 1 = max
    · exact Or.inl hl
    · right
      obtain ⟨n1, n2⟩ := hnext i (by omega)
      have hL2 := hlen (i + 1) (by omega)
      rw [n2, Nat.mul_assoc, ← Nat.pow_add,
        show len (i + 1) - len i + (32 - len (i + 1)) = 32 - len i by omega]
      omega
  · intro i hi
    obtain ⟨p1, p2, p3, _, _⟩ := packed_fields (code i) (sym i) (len i) (hlen i hi).1
      (hlen i hi).2 (hcode i hi) (hsym i hi)
    refine ⟨p1, ?_, p2⟩
    simp only [slotCode, slotLen]
    rw [p1, p3]

end Inflate

/-- C15: for every table `T[0..max)` of packed words `code << (32 - len) | sym << 4 | len`
that holds canonical codes in order (lengths in `1..15` that do not decrease, each code
below `2 ^ len`, each next code equal to the previous code plus one, shifted left by the
difference of the lengths; the codes of a complete prefix code are of this kind), and
every slot `i`: whenever the low `len i` bits of the reservoir, first bit first, are
the code of slot `i` from its most significant bit, `_decode` returns `sym i` and
consumes the bits by `_get(len i)`, whether or not the input has any bit left after
them; and when the reader is at a stream that starts with the code, it is left at
the rest of the stream, exactly `len i` bits further. -/
theorem Inflate.decode_canonical (T : List Nat) (max : Nat) (code len sym : Nat → Nat)
    (hT : Holds T (fun i => code i * 2 ^ (32 - len i) + sym i * 16 + len i) max)
    (hlen : ∀ i, i < max → 1 ≤ len i ∧ len i ≤ 15)
    (hsym : ∀ i, i < max → sym i < 4096)
    (hcode : ∀ i, i < max → code i < 2 ^ len i)
    (hnext : ∀ i, i + 1 < max →
      len i ≤ len (i + 1) ∧ code (i + 1) = (code i + 1) * 2 ^ (len (i + 1) - len i))
    (i : Nat) (hi : i < max) :
    (∀ r : Reader, r.bits % 2 ^ len i = bitsVal (codeBits (code i) (len i)) →
      _decode r T max = .ok (sym i, (_get r (len i)).2)) ∧
    (∀ (r : Reader) (rest : List Bool), Reads r (codeBits (code i) (len i) ++ rest) →
      ∃ r1, _decode r T max = .ok (sym i, r1) ∧ Reads r1 rest ∧ r1.inp = r.inp ∧
        r1.len = r.len - len i) := by
  obtain ⟨hok, hf⟩ := canonical_tableOK max code len sym hlen hsym hcode hnext
  obtain ⟨f1, f2, f3⟩ := hf i hi
  constructor
  · intro r hb
    have := decode_bits hT hok hi r (by rw [f1, f2]; exact hb)
    rw [f1, f3] at this
    exact this
  · intro r rest hr
    have key : ∀ c L, c = code i → L = len i → Reads r (codeBits c L ++ rest) := by
      intro c L hc hL
      rw [hc, hL]
      exact hr
    have := decode_spec hT hok hi (key _ _ f2 f1)
    rw [f1, f2, f3, codeBits_length] at this
    exact this

/-- C15, instance: on the table of the two 1-bit codes `0` and `1` for the symbols 5
and 6, a reservoir that holds the single bit 1 at the end of the input decodes to the
symbol 6. -/
theorem Inflate.decode_canonical_example :
    _decode { inp := [], pos := 0, bits := 1, bitcnt := 1 } [81, 2147483745] 2
      = .ok (6, (_get { inp := [], pos := 0, bits := 1, bitcnt := 1 } 1).2) :=
  (Inflate.decode_canonical [81, 2147483745] 2 (fun i => i) (fun _ => 1) (fun i => 5 + i)
    ⟨by decide, fun j hj => by
      have : j = 0 ∨ j = 1 := by omega
      rcases this with rfl | rfl <;> rfl⟩
    (fun _ _ => ⟨Nat.le_refl 1, by show 1 ≤ 15; omega⟩) (fun i hi => by show 5 + i < 4096; omega)
    (fun i hi => by show i < 2 ^ 1; omega)
    (fun i hi => by
      have : i = 0 := by omega
      subst this
      decide) 1 (by decide)).1 _ (by decide)

namespace Inflate

/-! ## The first two loops of `_build` -/

theorem countLens_spec : ∀ (ls cnt : List Nat), cnt.length = 16 → (∀ l ∈ ls, l < 16) →
    ∃ cnt1, countLens ls cnt = .ok cnt1 ∧ cnt1.length = 16 ∧
      ∀ L, cnt1.getD L 0 = cnt.getD L 0 + ls.count L := by
  intro ls
  induction ls with
  | nil => intro cnt h _; exact ⟨cnt, rfl, h, fun L => by simp⟩
  | cons l ls ih =>
    intro cnt h hl
    have h16 : l < 16 := hl l (by simp)
    obtain ⟨cnt1, a1, a2, a3⟩ := ih (cnt.set l (cnt.getD l 0 + 1)) (by simpa using h)
      (fun x hx => hl x (by simp [hx]))
    refine ⟨cnt1, by rw [countLens, if_pos h16, a1], a2, ?_⟩
    intro L
    rw [a3 L, List.count_cons]
    by_cases hL : l = L
    · subst hL
      rw [getD_set_self _ _ _ (by omega)]
      simp
      omega
    · rw [getD_set_ne _ _ _ _ hL]
      have : (l == L) = false := by simpa using hL
      simp [this]

theorem firstTables_spec (cnt : List Nat) (c f : Nat → Nat)
    (hc : ∀ j, c (j + 1) = (c j + cnt.getD j 0) * 2)
    (hf : ∀ j, f (j + 1) = f j + cnt.getD j 0) :
    ∀ (fuel k : Nat), 1 ≤ k →
      firstTables fuel cnt ((List.range k).map c) ((List.range k).map f)
        = ((List.range (k + fuel)).map c, (List.range (k + fuel)).map f) := by
  intro fuel
  induction fuel with
  | zero => intro k _; rfl
  | succ fuel ih =>
    intro k hk
    obtain ⟨k, rfl⟩ : ∃ k', k = k' + 1 := ⟨k - 1, by omega⟩
    rw [firstTables]
    simp only [List.length_map, List.length_range, Nat.add_sub_cancel]
    have g1 : ((List.range (k + 1)).map c).getD k 0 = c k := by
      simp [List.getD_eq_getElem?_getD, List.getElem?_range (Nat.lt_succ_self k)]
    have g2 : ((List.range (k + 1)).map f).getD k 0 = f k := by
      simp [List.getD_eq_getElem?_getD, List.getElem?_range (Nat.lt_succ_self k)]
    rw [g1, g2, Nat.shiftLeft_eq, Nat.pow_one, ← hc, ← hf]
    have e1 : (List.range (k + 1)).map c ++ [c (k + 1)] = (List.range (k + 1 + 1)).map c := by
      rw [List.range_succ (n := k + 1), List.map_append]; rfl
    have e2 : (List.range (k + 1)).map f ++ [f (k + 1)] = (List.range (k + 1 + 1)).map f := by
      rw [List.range_succ (n := k + 1), List.map_append]; rfl
    rw [e1, e2, ih (k + 1 + 1) (by omega)]
    congr 3 <;> omega

end Inflate

namespace Inflate

/-! ## The third loop of `_build` -/

theorem count_take_lt : ∀ (ls : List Nat) (i L : Nat), i < ls.length → ls.getD i 0 = L →
    (ls.take i).count L < ls.count L := by
  intro ls
  induction ls with
  | nil => intro i L h _; simp at h
  | cons a ls ih =>
    intro i L hi hL
    match i with
    | 0 =>
      simp only [List.getD_cons_zero] at hL
      subst hL
      simp
    | i + 1 =>
      simp only [List.getD_cons_succ] at hL
      have := ih i L (by simpa using hi) hL
      simp only [List.take_succ_cons, List.count_cons]
      omega

theorem count_take_le (ls : List Nat) (i L : Nat) : (ls.take i).count L ≤ ls.count L :=
  List.Sublist.count_le (List.take_sublist i ls) L

/-- The third loop of `_build`, from symbol `n` on: every symbol of non-zero length is
stored at the next free slot of its length with the next code of its length, the other
slots keep what they held. `first[1..15]` are the starts of disjoint ranges of slots
with room for the symbols to come. -/
theorem place_spec (size : Nat) : ∀ (ls : List Nat) (n : Nat) (codes first tree : List Nat),
    codes.length = 16 → first.length = 16 → size = tree.length → (∀ l ∈ ls, l < 16) →
    (∀ L, 1 ≤ L → L < 16 → first.getD L 0 + ls.count L ≤ size) →
    (∀ L L2, 1 ≤ L → L < L2 → L2 < 16 → first.getD L 0 + ls.count L ≤ first.getD L2 0) →
    ∃ tree1 first1, place size ls n codes first tree = .ok (tree1, first1) ∧
      tree1.length = tree.length ∧
      (∀ L, 1 ≤ L → L < 16 → first1.getD L 0 = first.getD L 0 + ls.count L) ∧
      (∀ i, i < ls.length → ls.getD i 0 ≠ 0 →
        tree1.getD (first.getD (ls.getD i 0) 0 + (ls.take i).count (ls.getD i 0)) 0
          = packWord (codes.getD (ls.getD i 0) 0 + (ls.take i).count (ls.getD i 0)) (n + i)
              (ls.getD i 0)) ∧
      (∀ s, (∀ i, i < ls.length → ls.getD i 0 ≠ 0 →
          s ≠ first.getD (ls.getD i 0) 0 + (ls.take i).count (ls.getD i 0)) →
        tree1.getD s 0 = tree.getD s 0) := by
  intro ls
  induction ls with
  | nil =>
    intro n codes first tree _ _ _ _ _ _
    exact ⟨tree, first, rfl, rfl, fun L _ _ => by simp, fun i hi => by simp at hi,
      fun s _ => rfl⟩
  | cons l ls ih =>
    intro n codes first tree hc hf hsz hl hroom hdis
    have hl16 : l < 16 := hl l (by simp)
    have hls : ∀ x ∈ ls, x < 16 := fun x hx => hl x (by simp [hx])
    by_cases h0 : l = 0
    · -- a symbol of length 0 is skipped
      subst h0
      have hcnt0 : ∀ (xs : List Nat) L, 1 ≤ L → (0 :: xs).count L = xs.count L := by
        intro xs L hL
        rw [List.count_cons]
        have : ((0 : Nat) == L) = false := by simp; omega
        simp [this]
      have hcnt := hcnt0 ls
      obtain ⟨tree1, first1, a1, a2, a3, a4, a5⟩ := ih (n + 1) codes first tree hc hf hsz hls
        (fun L h1 h2 => by rw [← hcnt L h1]; exact hroom L h1 h2)
        (fun L L2 h1 h2 h3 => by rw [← hcnt L h1]; exact hdis L L2 h1 h2 h3)
      refine ⟨tree1, first1, by rw [place, if_pos rfl, a1], a2, ?_, ?_, ?_⟩
      · intro L h1 h2
        rw [a3 L h1 h2, hcnt L h1]
      · intro i hi hne
        match i with
        | 0 => exact absurd rfl hne
        | i + 1 =>
          simp only [List.getD_cons_succ] at hne ⊢
          have := a4 i (by simpa using hi) hne
          rw [List.take_succ_cons, hcnt0 _ _ (by omega), show n + (i + 1) = n + 1 + i by omega]
          exact this
      · intro s hs
        apply a5 s
        intro i hi hne
        have := hs (i + 1) (by simpa using hi) (by simpa using hne)
        simp only [List.getD_cons_succ, List.take_succ_cons] at this
        rwa [hcnt0 _ _ (by omega)] at this
    · -- a symbol of length `l` takes the next slot and the next code of its length
      have hl1 : 1 ≤ l := by omega
      have hcl : (l :: ls).count l = ls.count l + 1 := by simp
      have hcne : ∀ L, L ≠ l → (l :: ls).count L = ls.count L := by
        intro L hL
        rw [List.count_cons]
        have : (l == L) = false := by simpa using (Ne.symm hL)
        simp [this]
      have hslot : first.getD l 0 < size := by
        have := hroom l hl1 hl16
        omega
      have hfs : ∀ L, (first.set l (first.getD l 0 + 1)).getD L 0
          = if L = l then first.getD l 0 + 1 else first.getD L 0 := by
        intro L
        by_cases hL : L = l
        · subst hL; rw [if_pos rfl, getD_set_self _ _ _ (by omega)]
        · rw [if_neg hL, getD_set_ne _ _ _ _ (Ne.symm hL)]
      have hcs : ∀ L, (codes.set l (codes.getD l 0 + 1)).getD L 0
          = if L = l then codes.getD l 0 + 1 else codes.getD L 0 := by
        intro L
        by_cases hL : L = l
        · subst hL; rw [if_pos rfl, getD_set_self _ _ _ (by omega)]
        · rw [if_neg hL, getD_set_ne _ _ _ _ (Ne.symm hL)]
      obtain ⟨tree1, first1, a1, a2, a3, a4, a5⟩ := ih (n + 1)
        (codes.set l (codes.getD l 0 + 1)) (first.set l (first.getD l 0 + 1))
        (tree.set (first.getD l 0) (packWord (codes.getD l 0) n l))
        (by simpa using hc) (by simpa using hf) (by simpa using hsz) hls
        (by
          intro L h1 h2
          rw [hfs]
          by_cases hL : L = l
          · subst hL
            rw [if_pos rfl]
            have := hroom L h1 h2
            omega
          · rw [if_neg hL]
            have := hroom L h1 h2
            rw [hcne L hL] at this
            exact this)
        (by
          intro L L2 h1 h2 h3
          rw [hfs, hfs]
          have := hdis L L2 h1 h2 h3
          by_cases hL : L = l
          · subst hL
            rw [if_pos rfl, if_neg (by omega)]
            omega
          · rw [if_neg hL]
            rw [hcne L hL] at this
            by_cases hL2 : L2 = l
            · subst hL2
              rw [if_pos rfl]
              omega
            · rw [if_neg hL2]
              exact this)
      -- the slot written now is not written again
      have hkeep : tree1.getD (first.getD l 0) 0 = packWord (codes.getD l 0) n l := by
        rw [a5 (first.getD l 0), getD_set_self _ _ _ (by omega)]
        intro i hi hne
        rw [hfs]
        by_cases hL : ls.getD i 0 = l
        · rw [if_pos hL]; omega
        · rw [if_neg hL]
          have hlt := count_take_lt ls i _ hi rfl
          have h16 : ls.getD i 0 < 16 := by
            apply hls
            rw [List.getD_eq_getElem?_getD, List.getElem?_eq_getElem hi]
            simp
          rcases Nat.lt_or_gt_of_ne hL with hlt2 | hgt2
          · have := hdis (ls.getD i 0) l (by omega) hlt2 hl16
            rw [hcne _ hL] at this
            omega
          · have := hdis l (ls.getD i 0) hl1 hgt2 h16
            omega
      refine ⟨tree1, first1, ?_, by simpa using a2, ?_, ?_, ?_⟩
      · rw [place, if_neg h0]
        simp only
        rw [if_pos hslot]
        exact a1
      · intro L h1 h2
        rw [a3 L h1 h2, hfs]
        by_cases hL : L = l
        · subst hL; rw [if_pos rfl]; omega
        · rw [if_neg hL, hcne L hL]
      · intro i hi hne
        match i with
        | 0 =>
          simp only [List.getD_cons_zero, List.take_zero, List.count_nil, Nat.add_zero]
          exact hkeep
        | i + 1 =>
          simp only [List.getD_cons_succ] at hne ⊢
          have := a4 i (by simpa using hi) hne
          rw [hfs, hcs] at this
          rw [List.take_succ_cons, show n + (i + 1) = n + 1 + i by omega]
          by_cases hL : ls.getD i 0 = l
          · rw [if_pos hL, if_pos hL] at this
            rw [hL] at this ⊢
            rw [show (l :: ls.take i).count l = (ls.take i).count l + 1 by simp]
            rw [show first.getD l 0 + ((ls.take i).count l + 1)
                = first.getD l 0 + 1 + (ls.take i).count l by omega,
              show codes.getD l 0 + ((ls.take i).count l + 1)
                = codes.getD l 0 + 1 + (ls.take i).count l by omega]
            exact this
          · rw [if_neg hL, if_neg hL] at this
            have hc2 : (l :: ls.take i).count (ls.getD i 0) = (ls.take i).count (ls.getD i 0) :=
              List.count_cons_of_ne hL _
            rw [hc2]
            exact this
      · intro s hs
        have hs0 := hs 0 (by simp) (by simpa using h0)
        simp only [List.getD_cons_zero, List.take_zero, List.count_nil, Nat.add_zero] at hs0
        rw [a5 s, getD_set_ne _ _ _ _ (Ne.symm hs0)]
        intro i hi hne
        have := hs (i + 1) (by simpa using hi) (by simpa using hne)
        simp only [List.getD_cons_succ, List.take_succ_cons] at this
        rw [hfs]
        by_cases hL : ls.getD i 0 = l
        · rw [if_pos hL]
          rw [hL] at this
          rw [show (l :: ls.take i).count l = (ls.take i).count l + 1 by simp] at this
          rw [hL]
          omega
        · rw [if_neg hL]
          have hc2 : (l :: ls.take i).count (ls.getD i 0) = (ls.take i).count (ls.getD i 0) :=
            List.count_cons_of_ne hL _
          rwa [hc2] at this

end Inflate

namespace Inflate

/-! ## The counters of `_build` and the canonical code -/

theorem codesOf_eq (ls : List Nat) : ∀ L,
    codesOf ls (L + 1) = nextCode ls (L + 1) + ls.count 0 * 2 ^ (L + 1) := by
  intro L
  induction L with
  | zero => simp [codesOf, nextCode, blCount]
  | succ L ih =>
    have e : nextCode ls (L + 1 + 1) = (nextCode ls (L + 1) + ls.count (L + 1)) * 2 := by
      show (nextCode ls (L + 1) + (if L + 1 = 0 then 0 else ls.count (L + 1))) * 2 = _
      rw [if_neg (Nat.succ_ne_zero L)]
    have e2 : (2 : Nat) ^ (L + 1 + 1) = 2 ^ (L + 1) * 2 := by ring
    rw [codesOf, ih, e, e2]
    ring

theorem firstOf_cons (l : Nat) (ls : List Nat) : ∀ L,
    firstOf (l :: ls) L = firstOf ls L + (if l < L then 1 else 0) := by
  intro L
  induction L with
  | zero => simp [firstOf]
  | succ L ih =>
    rw [firstOf, firstOf, ih, List.count_cons]
    by_cases h1 : l < L
    · have : (l == L) = false := by simp; omega
      simp [h1, this, show l < L + 1 by omega]
      omega
    · by_cases h2 : l = L
      · subst h2
        simp
        omega
      · have : (l == L) = false := by simpa using h2
        simp [h1, this, show ¬ l < L + 1 by omega]

theorem firstOf_nil : ∀ L, firstOf [] L = 0 := by
  intro L
  induction L with
  | zero => rfl
  | succ L ih => rw [firstOf, ih]; simp

theorem firstOf_le_length : ∀ (ls : List Nat) (L : Nat), firstOf ls L ≤ ls.length := by
  intro ls
  induction ls with
  | nil => intro L; rw [firstOf_nil]; exact Nat.le_refl _
  | cons l ls ih =>
    intro L
    rw [firstOf_cons]
    have := ih L
    simp only [List.length_cons]
    split <;> omega

theorem firstOf_all : ∀ (ls : List Nat) (L : Nat), (∀ l ∈ ls, l < L) →
    firstOf ls L = ls.length := by
  intro ls
  induction ls with
  | nil =>
    intro L _
    have := firstOf_le_length [] L
    simpa using this
  | cons l ls ih =>
    intro L h
    rw [firstOf_cons, ih L (fun x hx => h x (by simp [hx])), if_pos (h l (by simp))]
    simp

theorem firstOf_mono (ls : List Nat) : ∀ d L, firstOf ls L ≤ firstOf ls (L + d) := by
  intro d
  induction d with
  | zero => intro L; exact Nat.le_refl _
  | succ d ih =>
    intro L
    have := ih L
    rw [show L + (d + 1) = (L + d) + 1 by omega, firstOf]
    omega

theorem kraft_step (xs : List Nat) (L : Nat) :
    nextCode xs (L + 1) + blCount xs (L + 1)
      = (nextCode xs L + blCount xs L) * 2 + xs.count (L + 1) := by
  show (nextCode xs L + blCount xs L) * 2 + (if L + 1 = 0 then 0 else xs.count (L + 1)) = _
  rw [if_neg (Nat.succ_ne_zero L)]

/-- The partial Kraft sums: adding a symbol of length `l` adds `2 ^ (L - l)`. -/
theorem kraft_cons (l : Nat) (ls : List Nat) : ∀ L,
    nextCode (l :: ls) L + blCount (l :: ls) L
      = nextCode ls L + blCount ls L + (if 1 ≤ l ∧ l ≤ L then 2 ^ (L - l) else 0) := by
  intro L
  induction L with
  | zero =>
    rw [if_neg (by omega)]
    rfl
  | succ L ih =>
    rw [kraft_step, kraft_step, ih]
    have hcount : (l :: ls).count (L + 1) = ls.count (L + 1) + (if l = L + 1 then 1 else 0) := by
      by_cases h : l = L + 1
      · subst h; simp
      · rw [List.count_cons_of_ne (Ne.symm h), if_neg h]; rfl
    rw [hcount]
    by_cases h1 : 1 ≤ l ∧ l ≤ L
    · have e : 2 ^ (L + 1 - l) = 2 ^ (L - l) * 2 := by
        rw [← Nat.pow_succ]; congr 1; omega
      rw [if_pos h1, if_pos (show 1 ≤ l ∧ l ≤ L + 1 from ⟨h1.1, by omega⟩),
        if_neg (show ¬ l = L + 1 by omega), e]
      omega
    · rw [if_neg h1]
      by_cases h2 : l = L + 1
      · subst h2
        rw [if_pos rfl, if_pos (show 1 ≤ L + 1 ∧ L + 1 ≤ L + 1 from ⟨by omega, Nat.le_refl _⟩),
          Nat.sub_self, Nat.pow_zero]
        omega
      · rw [if_neg h2, if_neg (show ¬ (1 ≤ l ∧ l ≤ L + 1) by omega)]
        omega

theorem kraft_nil : ∀ L, nextCode [] L + blCount [] L = 0 := by
  intro L
  induction L with
  | zero => rfl
  | succ L ih =>
    rw [kraft_step, ih]
    simp

theorem kraft_eq : ∀ (ls : List Nat), (∀ l ∈ ls, l ≤ 15) →
    nextCode ls 15 + blCount ls 15 = kraftSum ls := by
  intro ls
  induction ls with
  | nil => intro _; rw [kraft_nil]; rfl
  | cons l ls ih =>
    intro h
    have hl : l ≤ 15 := h l (by simp)
    have e : kraftSum (l :: ls) = (if l = 0 then 0 else 2 ^ (15 - l)) + kraftSum ls := rfl
    rw [kraft_cons, ih (fun x hx => h x (by simp [hx])), e]
    by_cases h0 : l = 0
    · subst h0; simp
    · rw [if_pos (show 1 ≤ l ∧ l ≤ 15 from ⟨by omega, hl⟩), if_neg h0]
      omega

theorem kraft_grow (ls : List Nat) : ∀ d L,
    (nextCode ls L + blCount ls L) * 2 ^ d ≤ nextCode ls (L + d) + blCount ls (L + d) := by
  intro d
  induction d with
  | zero => intro L; simp
  | succ d ih =>
    intro L
    have := ih L
    rw [show L + (d + 1) = (L + d) + 1 by omega, kraft_step, Nat.pow_succ, ← Nat.mul_assoc]
    have h2 := Nat.mul_le_mul_right 2 this
    omega

/-- Lengths that are not over-subscribed: every canonical code fits its length. -/
theorem canonCode_lt (ls : List Nat) (h15 : ∀ l ∈ ls, l ≤ 15) (hk : kraftSum ls ≤ 2 ^ 15)
    (n : Nat) (hn : n < ls.length) (h0 : ls.getD n 0 ≠ 0) :
    canonCode ls n < 2 ^ ls.getD n 0 := by
  have hL : ls.getD n 0 ≤ 15 := by
    apply h15
    rw [List.getD_eq_getElem?_getD, List.getElem?_eq_getElem hn]
    simp
  have h1 := count_take_lt ls n _ hn rfl
  have h2 := kraft_grow ls (15 - ls.getD n 0) (ls.getD n 0)
  rw [show ls.getD n 0 + (15 - ls.getD n 0) = 15 by omega, kraft_eq ls h15] at h2
  have h3 : blCount ls (ls.getD n 0) = ls.count (ls.getD n 0) := by
    rw [blCount, if_neg h0]
  have h4 : (canonCode ls n + 1) * 2 ^ (15 - ls.getD n 0) ≤ 2 ^ 15 := by
    have : canonCode ls n + 1 ≤ nextCode ls (ls.getD n 0) + blCount ls (ls.getD n 0) := by
      rw [canonCode, h3]; omega
    exact Nat.le_trans (Nat.mul_le_mul_right _ this) (Nat.le_trans h2 hk)
  have h5 : (2 : Nat) ^ 15 = 2 ^ ls.getD n 0 * 2 ^ (15 - ls.getD n 0) := by
    rw [← Nat.pow_add]; congr 1; omega
  rw [h5] at h4
  have := Nat.le_of_mul_le_mul_right h4 (Nat.two_pow_pos _)
  omega

/-- The word that `_build` stores wraps around at 32 bits: a multiple of `2 ^ len`
added to the code does not change it. -/
theorem packWord_wrap (c z n len : Nat) (hl1 : 1 ≤ len) (hl : len < 16) (hc : c < 2 ^ len)
    (hn : n < 4096) :
    packWord (c + z * 2 ^ len) n len = c * 2 ^ (32 - len) + n * 16 + len := by
  have hp : 2 ^ (32 - len) = 2 ^ 4 * 2 ^ (28 - len) := by
    rw [← Nat.pow_add]; congr 1; omega
  have h28 : 4096 ≤ 2 ^ (28 - len) := by
    rw [show (4096 : Nat) = 2 ^ 12 from rfl]
    exact Nat.pow_le_pow_right (by norm_num) (by omega)
  have h1 : n * 16 + len < 2 ^ (32 - len) := by
    rw [hp]; omega
  have h2 : len < 2 ^ 4 := by omega
  have h3 : c * 2 ^ (32 - len) + n * 16 + len < 2 ^ 32 := by
    have : (c + 1) * 2 ^ (32 - len) ≤ 2 ^ len * 2 ^ (32 - len) :=
      Nat.mul_le_mul_right _ hc
    rw [← Nat.pow_add, show len + (32 - len) = 32 by omega, Nat.add_mul, Nat.one_mul] at this
    omega
  have e1 : ((c + z * 2 ^ len) <<< (32 - len)) ||| (n <<< 4) ||| len
      = (c + z * 2 ^ len) * 2 ^ (32 - len) + n * 16 + len := by
    rw [Nat.shiftLeft_eq, Nat.shiftLeft_eq, show (2 : Nat) ^ 4 = 16 from rfl]
    have a1 : n * 16 ||| len = n * 16 + len := by
      rw [Nat.mul_comm, show (16 : Nat) = 2 ^ 4 from rfl, Nat.mul_add_lt_is_or h2]
    rw [Nat.lor_assoc, a1, Nat.mul_comm (c + z * 2 ^ len), ← Nat.mul_add_lt_is_or h1,
      Nat.add_assoc]
  have e2 : (c + z * 2 ^ len) * 2 ^ (32 - len) + n * 16 + len
      = c * 2 ^ (32 - len) + n * 16 + len + 2 ^ 32 * z := by
    have : (2 : Nat) ^ 32 = 2 ^ len * 2 ^ (32 - len) := by
      rw [← Nat.pow_add]; congr 1; omega
    rw [this]; ring
  rw [packWord, e1, e2, Nat.add_mul_mod_self_left, Nat.mod_eq_of_lt h3]

end Inflate

namespace Inflate

/-! ## `_build` as a whole -/

theorem getD_map_range (f : Nat → Nat) (k j : Nat) (h : j < k) :
    ((List.range k).map f).getD j 0 = f j := by
  simp [List.getD_eq_getElem?_getD, List.getElem?_range h]

theorem getD_mem {ls : List Nat} {n : Nat} (hn : n < ls.length) : ls.getD n 0 ∈ ls := by
  rw [List.getD_eq_getElem?_getD, List.getElem?_eq_getElem hn]
  simp

theorem getD_replicate_zero (k : Nat) : ∀ L, (List.replicate k 0).getD L 0 = 0 := by
  induction k with
  | zero => intro L; rfl
  | succ k ih =>
    intro L
    cases L with
    | zero => rfl
    | succ L => exact ih L

/-- What `_build` does on the lengths `ls` of `symcnt = |ls|` symbols, whatever follows
them in the array and whatever the table held: it returns `symcnt`; every symbol of
non-zero length is stored at its slot with the code counted by `codes`; every other
slot keeps its word. -/
theorem build_spec (tree ls more : List Nat) (htree : ls.length ≤ tree.length)
    (h15 : ∀ l ∈ ls, l ≤ 15) :
    ∃ tree1, _build tree (ls ++ more) ls.length = .ok (tree1, ls.length) ∧
      tree1.length = tree.length ∧
      (∀ n, n < ls.length → ls.getD n 0 ≠ 0 →
        tree1.getD (slotOf ls n) 0
          = packWord (codesOf ls (ls.getD n 0) + (ls.take n).count (ls.getD n 0)) n
              (ls.getD n 0)) ∧
      (∀ s, (∀ n, n < ls.length → ls.getD n 0 ≠ 0 → s ≠ slotOf ls n) →
        tree1.getD s 0 = tree.getD s 0) := by
  have h16 : ∀ l ∈ ls, l < 16 := fun l hl => by have := h15 l hl; omega
  obtain ⟨cnt, c1, _, c3⟩ := countLens_spec ls (List.replicate 16 0) (by simp) h16
  have hcnt : ∀ L, cnt.getD L 0 = ls.count L := by
    intro L
    rw [c3 L, getD_replicate_zero, Nat.zero_add]
  have hft := firstTables_spec cnt (codesOf ls) (firstOf ls)
    (fun j => by rw [hcnt]; rfl) (fun j => by rw [hcnt]; rfl) 15 1 (Nat.le_refl _)
  have hft2 : firstTables 15 cnt [0] [0]
      = ((List.range 16).map (codesOf ls), (List.range 16).map (firstOf ls)) := hft
  have hfirst : ∀ L, L < 16 → ((List.range 16).map (firstOf ls)).getD L 0 = firstOf ls L :=
    fun L hL => getD_map_range _ _ _ hL
  have hcodes : ∀ L, L < 16 → ((List.range 16).map (codesOf ls)).getD L 0 = codesOf ls L :=
    fun L hL => getD_map_range _ _ _ hL
  obtain ⟨tree1, first1, p1, p2, p3, p4, p5⟩ := place_spec tree.length ls 0
    ((List.range 16).map (codesOf ls)) ((List.range 16).map (firstOf ls)) tree
    (by simp) (by simp) rfl h16
    (by
      intro L h1 h2
      rw [hfirst L h2]
      have := firstOf_le_length ls (L + 1)
      rw [firstOf] at this
      omega)
    (by
      intro L L2 h1 h2 h3
      rw [hfirst L (by omega), hfirst L2 h3]
      have := firstOf_mono ls (L2 - (L + 1)) (L + 1)
      rw [show L + 1 + (L2 - (L + 1)) = L2 by omega, firstOf] at this
      exact this)
  have hret : first1.getD 15 0 = ls.length := by
    rw [p3 15 (by omega) (by omega), hfirst 15 (by omega)]
    have := firstOf_all ls 16 h16
    rw [firstOf] at this
    exact this
  refine ⟨tree1, ?_, p2, ?_, ?_⟩
  · rw [_build, List.take_left, c1]
    simp only [hft2]
    rw [p1]
    simp only [hret]
  · intro n hn h0
    have hl := h16 _ (getD_mem hn)
    have := p4 n hn h0
    rw [hfirst _ hl, hcodes _ hl, Nat.zero_add] at this
    exact this
  · intro s hs
    apply p5 s
    intro i hi h0
    rw [hfirst _ (h16 _ (getD_mem hi))]
    exact hs i hi h0

/-- The symbols of length 0 are counted by `_build`: with `z` of them, the slots below
`z` keep the words they held before the call. -/
theorem build_zero_slots (tree ls more : List Nat) (htree : ls.length ≤ tree.length)
    (h15 : ∀ l ∈ ls, l ≤ 15) :
    ∃ tree1, _build tree (ls ++ more) ls.length = .ok (tree1, ls.length) ∧
      ∀ s, s < ls.count 0 → tree1.getD s 0 = tree.getD s 0 := by
  obtain ⟨tree1, b1, _, _, b4⟩ := build_spec tree ls more htree h15
  refine ⟨tree1, b1, ?_⟩
  intro s hs
  apply b4 s
  intro n hn h0
  have h1 := firstOf_mono ls (ls.getD n 0 - 1) 1
  rw [show 1 + (ls.getD n 0 - 1) = ls.getD n 0 by omega] at h1
  have h2 : firstOf ls 1 = ls.count 0 := by simp [firstOf]
  simp only [slotOf]
  omega

/-- Two symbols are placed at different slots. -/
theorem slotOf_inj (ls : List Nat) (n m : Nat) (hn : n < ls.length) (hm : m < ls.length)
    (h : slotOf ls n = slotOf ls m) : n = m := by
  have key : ∀ a b, a < ls.length → b < ls.length → ls.getD a 0 < ls.getD b 0 →
      slotOf ls a < slotOf ls b := by
    intro a b ha hb hlt
    have h1 := count_take_lt ls a _ ha rfl
    have h2 := firstOf_mono ls (ls.getD b 0 - (ls.getD a 0 + 1)) (ls.getD a 0 + 1)
    rw [show ls.getD a 0 + 1 + (ls.getD b 0 - (ls.getD a 0 + 1)) = ls.getD b 0 by omega,
      firstOf] at h2
    simp only [slotOf]
    omega
  have same : ∀ a b, a < b → b < ls.length → ls.getD a 0 = ls.getD b 0 →
      slotOf ls a < slotOf ls b := by
    intro a b hab hb heq
    have h1 := count_take_lt (ls.take b) a (ls.getD a 0)
      (by simp; omega)
      (by simp [List.getD_eq_getElem?_getD, List.getElem?_take, hab])
    rw [List.take_take, Nat.min_eq_left (by omega)] at h1
    simp only [slotOf, ← heq]
    omega
  rcases Nat.lt_trichotomy (ls.getD n 0) (ls.getD m 0) with h1 | h1 | h1
  · have := key n m hn hm h1; omega
  · rcases Nat.lt_trichotomy n m with h2 | h2 | h2
    · have := same n m h2 hm h1; omega
    · exact h2
    · have := same m n h2 hn h1.symm; omega
  · have := key m n hm hn h1; omega

end Inflate

/-- C16: for every number of symbols `symcnt = |ls| <= 288`, whatever follows the
lengths in the array and whatever the table holds, and every array `ls` of lengths in
`0..15` that is not over-subscribed (Kraft sum at most 1), `_build` stores, for each
symbol `n` of length `L > 0`, one 32-bit word, at a slot of its own: its low 4 bits are
`L`, its bits `4..15` hold `n`, and its top `L` bits are the RFC 1951 canonical code of
`n`; the symbols of length 0 get no word, and every slot that is not the slot of a
symbol keeps its word. The code is computed with wrap-around at 32 bits. -/
theorem Inflate.build_canonical (tree ls more : List Nat) (hsym : ls.length ≤ 288)
    (htree : ls.length ≤ tree.length) (h15 : ∀ l ∈ ls, l ≤ 15)
    (hk : kraftSum ls ≤ 2 ^ 15) :
    ∃ tree1 k,
      _build tree (ls ++ more) ls.length = .ok (tree1, k) ∧
      (∀ n, n < ls.length → ls.getD n 0 ≠ 0 →
        tree1.getD (slotOf ls n) 0
          = canonCode ls n * 2 ^ (32 - ls.getD n 0) + n * 16 + ls.getD n 0 ∧
        tree1.getD (slotOf ls n) 0 < 2 ^ 32 ∧
        tree1.getD (slotOf ls n) 0 % 16 = ls.getD n 0 ∧
        tree1.getD (slotOf ls n) 0 / 16 % 4096 = n ∧
        tree1.getD (slotOf ls n) 0 / 2 ^ (32 - ls.getD n 0) = canonCode ls n) ∧
      (∀ n m, n < ls.length → m < ls.length → slotOf ls n = slotOf ls m → n = m) ∧
      (∀ s, (∀ n, n < ls.length → ls.getD n 0 ≠ 0 → s ≠ slotOf ls n) →
        tree1.getD s 0 = tree.getD s 0) := by
  obtain ⟨tree1, b1, _, b3, b4⟩ := build_spec tree ls more htree h15
  refine ⟨tree1, ls.length, b1, ?_, fun n m hn hm h => slotOf_inj ls n m hn hm h, b4⟩
  intro n hn h0
  have hL : ls.getD n 0 ≤ 15 := h15 _ (getD_mem hn)
  have hc := canonCode_lt ls h15 hk n hn h0
  obtain ⟨L, hLe⟩ : ∃ L, ls.getD n 0 = L + 1 := ⟨ls.getD n 0 - 1, by omega⟩
  have hw : tree1.getD (slotOf ls n) 0
      = canonCode ls n * 2 ^ (32 - ls.getD n 0) + n * 16 + ls.getD n 0 := by
    rw [b3 n hn h0]
    have e : codesOf ls (ls.getD n 0) + (ls.take n).count (ls.getD n 0)
        = canonCode ls n + ls.count 0 * 2 ^ ls.getD n 0 := by
      rw [canonCode, hLe, codesOf_eq]
      omega
    rw [e]
    exact packWord_wrap _ _ _ _ (by omega) (by omega) hc (by omega)
  obtain ⟨p1, p2, p3, p4, _⟩ := packed_fields (canonCode ls n) n (ls.getD n 0) (by omega) hL hc
    (by omega)
  rw [hw]
  exact ⟨rfl, p4, p1, p2, p3⟩

/-- C16, instance: on the lengths `2, 0, 1, 2` the symbols 2, 0 and 3 get the codes
`0`, `10` and `11`; the word of symbol 3 is `0xC0000032`. -/
theorem Inflate.build_canonical_example :
    kraftSum [2, 0, 1, 2] ≤ 2 ^ 15 ∧
    ∃ tree1 k, _build [9, 9, 9, 9] ([2, 0, 1, 2] ++ []) 4 = .ok (tree1, k) ∧
      tree1.getD (slotOf [2, 0, 1, 2] 3) 0 = 0xC0000032 ∧
      canonCode [2, 0, 1, 2] 3 = 3 :=
  ⟨by decide, by
    obtain ⟨t, k, a, b, _⟩ := Inflate.build_canonical [9, 9, 9, 9] [2, 0, 1, 2] []
      (by decide) (by decide) (by decide) (by decide)
    exact ⟨t, k, a, (b 3 (by decide) (by decide)).1, by decide⟩⟩

set_option maxRecDepth 1000000 in
/-- C17: `_build` counts the symbols of length 0. On the lengths `0, 1, 1` and a table
of zero words it returns 3, not 2, and slot 0 keeps its zero word; on the table left
by a fixed-Huffman block, slot 0 keeps the word `5` of that block. The final dynamic
block `05 C0 81 08 00 00 00 00 20 D6 FD 25 4E`, which encodes the byte `61`, decodes
to `61` on its own, but the valid stream made of an empty fixed-Huffman block followed
by the same block decodes to the byte `10`: the lookup runs over the 255 words that the
fixed block left in the table. -/
theorem Inflate.build_keeps_stale_slots :
    _build (List.replicate 32 0) [0, 1, 1] 3
      = .ok (((List.replicate 32 0).set 1 17).set 2 2147483681, 3) ∧
    (∃ t, _build fixedDsts [0, 1, 1] 3 = .ok (t, 3) ∧ t.getD 0 0 = 5) ∧
    inflate 4 [5, 192, 129, 8, 0, 0, 0, 0, 32, 214, 253, 37, 78] = some (.done [97]) ∧
    inflate 7 [2, 20, 0, 7, 34, 0, 0, 0, 0, 128, 88, 247, 151, 56, 1]
      = some (.done [16]) := by
  refine ⟨by decide!, ?_, by decide!, ?_⟩
  · obtain ⟨t, b1, _, _, b4⟩ := build_spec fixedDsts [0, 1, 1] [] (by rw [fixedDsts_length]; decide)
      (by decide)
    refine ⟨t, b1, ?_⟩
    rw [b4 0 (by decide), holds_fixedDsts.get 0 (by decide)]
    rfl
  · rw [inflate_fixed_first _ 5 (by decide) (by decide) (by decide)]
    decide!

set_option maxRecDepth 1000000 in
/-- C12: the payload of a stored block is copied from the `NLEN` word on. The valid
stream `01 01 00 FE FF 41`, one final stored block with the byte `41`, gives 1 with
the byte `FE` written; the stored block of `41 42` gives 2 with `FD FF` written; and
`01 02 00 FD FF 41`, whose `LEN = 2` exceeds the one payload byte present, gives 2
with `FD FF` copied. -/
theorem Inflate.stored_payload_starts_at_nlen :
    storedBlock true [0x41] = [0x01, 0x01, 0x00, 0xFE, 0xFF, 0x41] ∧
    inflate 4 (storedBlock true [0x41]) = some (.done [0xFE]) ∧
    storedBlock true [0x41, 0x42] = [0x01, 0x02, 0x00, 0xFD, 0xFF, 0x41, 0x42] ∧
    inflate 4 (storedBlock true [0x41, 0x42]) = some (.done [0xFD, 0xFF]) ∧
    inflate 4 [0x01, 0x02, 0x00, 0xFD, 0xFF, 0x41] = some (.done [0xFD, 0xFF]) := by
  decide!

namespace Inflate

/-! ## The header of a dynamic block -/

end Inflate

namespace Inflate

end Inflate

namespace Inflate

end Inflate

namespace Inflate

set_option maxRecDepth 1000000 in
/-- The state `dynSample` is the one `inflate` reaches on its stream after one
iteration. -/
theorem dynSample_reached :
    step (init [5, 192, 129, 8, 0, 0, 0, 0, 32, 214, 253, 37, 78]) = .next dynSample := by
  decide!

end Inflate

set_option maxRecDepth 1000000 in
/-- C1: the round trip fails on valid streams. The stream `01 01 00 FE FF 41`, one
final stored block that holds the byte `41`, gives 1 with the byte `FE` written: the
payload is copied from the `NLEN` word on. The stream
`F2 00 14 00 07 22 00 00 00 00 80 58 F7 97 38 01`, a fixed-Huffman block that holds the
byte `48` followed by a final dynamic block that holds the byte `61`, gives 2 with
`48 10` written: the table of the dynamic block keeps words of the fixed block. -/
theorem Inflate.roundtrip_fails_on_valid_streams :
    storedBlock true [0x41] = [0x01, 0x01, 0x00, 0xFE, 0xFF, 0x41] ∧
    inflate 4 (storedBlock true [0x41]) = some (.done [0xFE]) ∧
    inflate 4 (storedBlock true [0x41]) ≠ some (.done [0x41]) ∧
    inflate 8 [0xF2, 0x00, 0x14, 0x00, 0x07, 0x22, 0x00, 0x00, 0x00, 0x00, 0x80, 0x58, 0xF7,
        0x97, 0x38, 0x01] = some (.done [0x48, 0x10]) ∧
    inflate 8 [0xF2, 0x00, 0x14, 0x00, 0x07, 0x22, 0x00, 0x00, 0x00, 0x00, 0x80, 0x58, 0xF7,
        0x97, 0x38, 0x01] ≠ some (.done [0x48, 0x61]) := by
  have h : inflate 8 [0xF2, 0x00, 0x14, 0x00, 0x07, 0x22, 0x00, 0x00, 0x00, 0x00, 0x80, 0x58,
      0xF7, 0x97, 0x38, 0x01] = some (.done [0x48, 0x10]) := by
    rw [inflate_fixed_first _ 6 (by decide) (by decide) (by decide)]
    decide!
  refine ⟨by decide!, by decide!, by decide!, h, ?_⟩
  rw [h]
  decide
